import Mathlib

/-!
# Softimage PIC writer (`softimage.imageio/softimageoutput.cpp`)

A shallow embedding of `SoftimageOutput` (`open`, `close`, `init`, `writeU8`,
`writeU16`, `writePixel`, `write_scanline`) together with theorems about the
scanline run-length encoder and about the checks made by `open`.

Conventions of the embedding.

* The C library and the file system are a `World`: a log of the external calls made
  so far (each with its outcome), the error indicator of the stream behind `m_fd`,
  and an oracle telling which future call fails.
* `int`, `uint8_t`, `uint16_t` and `uint32_t` values are natural numbers; every
  narrowing conversion of the source is an explicit `%`.
* The locals `seqSame` and `pixel[128][3]` of `write_scanline` are not initialised
  by the source.  Their initial contents are parameters of the embedding, and the
  alpha pass starts from whatever the colour pass left in them.
-/

namespace Softimage

/-! ## The outside world -/

/-- Image description handed to `open` (the members of `ImageSpec` the writer reads). -/
structure ImageSpec where
  width : Int
  height : Int
  depth : Int
  deriving DecidableEq, Repr

/-- The `OpenMode` argument of `ImageOutput::open`. -/
inductive OpenMode where
  | Create
  | AppendSubimage
  | AppendMIPLevel
  deriving DecidableEq, Repr

/-- The exact value `num / den` of a `float` constant of the source. -/
structure FloatConst where
  num : Int
  den : Nat
  deriving DecidableEq, Repr

/-- Modelled from the spec: the record `softimage_pvt::PicFileHeader`, whose
declaration lives in `softimage_pvt.h`.  The fields are those of the layout table
of the specification (section 6): `width` and `height` are 16-bit unsigned, the
comment is 8 bytes, and the two `float` fields hold the exact value stored. -/
structure PicFileHeader where
  magic : Nat
  version : FloatConst
  comment : List Nat
  id : List Char
  width : Nat
  height : Nat
  ratio : FloatConst
  fields : Nat
  padding : Nat
  deriving DecidableEq, Repr

/-- Modelled from the spec: the record `softimage_pvt::ChannelPacket`, whose
declaration lives in `softimage_pvt.h` (chained flag, size, type, channel code). -/
structure ChannelPacket where
  chained : Nat
  size : Nat
  type : Nat
  channelCode : Nat
  deriving DecidableEq, Repr

/-- One external call, with its outcome. -/
inductive Call where
  /-- `fclose (m_fd)`. -/
  | fclose
  /-- `Filesystem::fopen (name, "wb")`; `ok` tells whether a stream was returned. -/
  | fopen (name : String) (ok : Bool)
  /-- `picHeader.write_header (m_fd)` and its result. -/
  | header (h : PicFileHeader) (ok : Bool)
  /-- `fwrite (&channel, 1, sizeof(channel), m_fd)`; `ok` tells whether it
  returned `sizeof(channel)`. -/
  | packet (p : ChannelPacket) (ok : Bool)
  /-- `fwrite (&v, 1, 1, m_fd)` made by `writeU8`; `ok` tells whether it returned 1. -/
  | byte (v : Nat) (ok : Bool)
  deriving DecidableEq

/-- The file system and C library as seen by the writer. -/
structure World where
  /-- External calls made so far, oldest first. -/
  log : List Call
  /-- Error indicator of the stream behind `m_fd` (what `ferror` reports). -/
  error : Bool
  /-- Oracle: `fails n` tells whether the call made when `n` calls are logged fails. -/
  fails : Nat → Bool

/-- Outcome of the next external call. -/
def World.nextOk (w : World) : Bool := !(w.fails w.log.length)

/-- The `ferror (m_fd)` test. -/
def ferror (w : World) : Bool := w.error

/-! ## Byte-level writers -/

/-- `SoftimageOutput::writeU8`: one `fwrite` of one byte; a failed `fwrite` sets the
stream's error indicator. -/
def writeU8 (v : Nat) (w : World) : Bool × World :=
  let ok := w.nextOk
  (ok, { w with log := w.log ++ [Call.byte v ok], error := w.error || !ok })

/-- `SoftimageOutput::writeU16`: high byte, then (only if that succeeded) low byte. -/
def writeU16 (v : Nat) (w : World) : Bool × World :=
  let temp := (v >>> 8) &&& 0xFF
  let r := writeU8 temp w
  if r.1 then
    let temp := v &&& 0xFF
    writeU8 temp r.2
  else
    (false, r.2)

/-- `SoftimageOutput::writePixel`: `writeU8(pixel[0]) && writeU8(pixel[1]) &&
writeU8(pixel[2])`, with the short-circuit of `&&`. -/
def writePixel (p0 p1 p2 : Nat) (w : World) : Bool × World :=
  let r0 := writeU8 p0 w
  if r0.1 then
    let r1 := writeU8 p1 r0.2
    if r1.1 then writeU8 p2 r1.2 else (false, r1.2)
  else
    (false, r0.2)

/-! ## Locals of `write_scanline` -/

/-- The array `uint8_t pixel[128][3]`, as a map from (slot, component) to a byte. -/
abbrev Buffer := Nat → Nat → Nat

/-- The assignment `pixel[i][j] = v`. -/
def Buffer.set (b : Buffer) (i j v : Nat) : Buffer :=
  fun a c => if a = i ∧ c = j then v else b a c

/-- The locals `seqSame`, `count` and `pixel` of `write_scanline`. -/
structure PassState where
  seqSame : Nat
  count : Nat
  pixel : Buffer

/-- The value of a C comparison `a == b` as an `int`. -/
def eqInt (a b : Nat) : Nat := if a = b then 1 else 0

/-- The loop `for (i = 0; i < n; i++) writePixel (pixel[i]);`. -/
def writePixels (pixel : Buffer) (n : Nat) (w : World) : World :=
  (List.range n).foldl (fun w i => (writePixel (pixel i 0) (pixel i 1) (pixel i 2) w).2) w

/-- The loop `for (i = 0; i < n; i++) writeU8 (pixel[i][0]);`. -/
def writeAlphas (pixel : Buffer) (n : Nat) (w : World) : World :=
  (List.range n).foldl (fun w i => (writeU8 (pixel i 0) w).2) w

/-! ## The colour pass (source lines 219-322) -/

/-- Body of the colour loop for the packed pixel `p = line[k]`, up to (not including)
the `ferror` test that ends the iteration. -/
def colourIter (p : Nat) (st : PassState) (w : World) : PassState × World :=
  let col0 := p &&& 0xFF
  let col1 := (p >>> 8) &&& 0xFF
  let col2 := (p >>> 16) &&& 0xFF
  let pixel := st.pixel
  let count := st.count
  if count = 0 then
    ({ st with pixel := ((pixel.set 0 0 col0).set 0 1 col1).set 0 2 col2, count := count + 1 }, w)
  else if count = 1 then
    let seqSame := eqInt col0 (pixel 0 0)
    let seqSame := seqSame &&& eqInt col1 (pixel 0 1)
    let seqSame := seqSame &&& eqInt col2 (pixel 0 2)
    let pixel :=
      if seqSame = 0 then ((pixel.set count 0 col0).set count 1 col1).set count 2 col2
      else pixel
    ({ seqSame := seqSame, count := count + 1, pixel := pixel }, w)
  else if count > 1 then
    let seqSame := st.seqSame
    let same :=
      if seqSame ≠ 0 then
        (eqInt col0 (pixel 0 0) &&& eqInt col1 (pixel 0 1)) &&& eqInt col2 (pixel 0 2)
      else
        (eqInt col0 (pixel (count - 1) 0) &&& eqInt col1 (pixel (count - 1) 1))
          &&& eqInt col2 (pixel (count - 1) 2)
    if (same ^^^ seqSame) ≠ 0 then
      if seqSame = 0 then
        let w := (writeU8 ((count - 2) % 256) w).2
        let w := writePixels pixel (count - 1) w
        let pixel := (pixel.set 1 0 col0).set 0 0 col0
        let pixel := (pixel.set 1 1 col1).set 0 1 col1
        let pixel := (pixel.set 1 2 col2).set 0 2 col2
        ({ seqSame := 1, count := 2, pixel := pixel }, w)
      else
        let w :=
          if count < 128 then (writeU8 ((count + 127) % 256) w).2
          else (writeU16 (count % 65536) (writeU8 128 w).2).2
        let w := (writePixel (pixel 0 0) (pixel 0 1) (pixel 0 2) w).2
        let pixel := ((pixel.set 0 0 col0).set 0 1 col1).set 0 2 col2
        ({ seqSame := seqSame, count := 1, pixel := pixel }, w)
    else
      let pixel :=
        if same = 0 then ((pixel.set count 0 col0).set count 1 col1).set count 2 col2
        else pixel
      let count := count + 1
      let r : Nat × World :=
        if count = 128 ∧ seqSame = 0 then
          let w := (writeU8 127 w).2
          let w := writePixels pixel count w
          (0, w)
        else (count, w)
      let count := r.1
      let w := r.2
      let r : Nat × World :=
        if count = 65536 ∧ seqSame ≠ 0 then
          let w := (writeU8 128 w).2
          let w := (writeU16 (count % 65536) w).2
          let w := (writePixel (pixel 0 0) (pixel 0 1) (pixel 0 2) w).2
          (0, w)
        else (count, w)
      ({ seqSame := seqSame, count := r.1, pixel := pixel }, r.2)
  else
    (st, w)

/-- The colour loop `for (k = 0; k < m_spec.width; k++)` over the pixels `line[k]`
still to be read.  `none` means the loop left the function with `return false`. -/
def colourLoop : List Nat → PassState → World → Option PassState × World
  | [], st, w => (some st, w)
  | p :: rest, st, w =>
    let r := colourIter p st w
    if ferror r.2 then (none, r.2) else colourLoop rest r.1 r.2

/-- Body of the flush after the colour loop (the statements guarded by `if (count)`),
up to its `ferror` test. -/
def colourFlush (st : PassState) (w : World) : World :=
  let count := st.count
  let pixel := st.pixel
  if count = 1 ∨ st.seqSame = 0 then
    let w := (writeU8 ((count - 1) % 256) w).2
    writePixels pixel count w
  else
    let w :=
      if count < 128 then (writeU8 ((count + 127) % 256) w).2
      else (writeU16 (count % 65536) (writeU8 128 w).2).2
    (writePixel (pixel 0 0) (pixel 0 1) (pixel 0 2) w).2

/-- The whole colour pass: `count = 0`, the loop, the flush.  `none` means
`return false`; otherwise the locals go on to the alpha pass. -/
def colourPass (st : PassState) (line : List Nat) (w : World) : Option PassState × World :=
  match colourLoop line { st with count := 0 } w with
  | (none, w) => (none, w)
  | (some st, w) =>
    if st.count ≠ 0 then
      let w := colourFlush st w
      if ferror w then (none, w) else (some st, w)
    else (some st, w)

/-! ## The alpha pass (source lines 324-409) -/

/-- Body of the alpha loop for the packed pixel `p = line[k]`, up to (not including)
the `ferror` test that ends the iteration. -/
def alphaIter (p : Nat) (st : PassState) (w : World) : PassState × World :=
  let col0 := (p >>> 24) &&& 0xFF
  let pixel := st.pixel
  let count := st.count
  if count = 0 then
    ({ st with pixel := pixel.set 0 0 col0, count := count + 1 }, w)
  else if count = 1 then
    let seqSame := eqInt col0 (pixel 0 0)
    let pixel := if seqSame = 0 then pixel.set count 0 col0 else pixel
    ({ seqSame := seqSame, count := count + 1, pixel := pixel }, w)
  else if count > 1 then
    let seqSame := st.seqSame
    let same :=
      if seqSame ≠ 0 then eqInt col0 (pixel 0 0)
      else eqInt col0 (pixel (count - 1) 0)
    if (same ^^^ seqSame) ≠ 0 then
      if seqSame = 0 then
        let w := (writeU8 ((count - 2) % 256) w).2
        let w := writeAlphas pixel (count - 1) w
        let pixel := (pixel.set 1 0 col0).set 0 0 col0
        ({ seqSame := 1, count := 2, pixel := pixel }, w)
      else
        let w :=
          if count < 128 then (writeU8 ((count + 127) % 256) w).2
          else (writeU16 (count % 65536) (writeU8 128 w).2).2
        let w := (writeU8 (pixel 0 0) w).2
        let pixel := pixel.set 0 0 col0
        ({ seqSame := seqSame, count := 1, pixel := pixel }, w)
    else
      let pixel := if same = 0 then pixel.set count 0 col0 else pixel
      let count := count + 1
      let r : Nat × World :=
        if count = 128 ∧ seqSame = 0 then
          let w := (writeU8 127 w).2
          let w := writeAlphas pixel count w
          (0, w)
        else (count, w)
      let count := r.1
      let w := r.2
      let r : Nat × World :=
        if count = 65536 ∧ seqSame ≠ 0 then
          let w := (writeU8 128 w).2
          let w := (writeU16 (count % 65536) w).2
          let w := (writeU8 (pixel 0 0) w).2
          (0, w)
        else (count, w)
      ({ seqSame := seqSame, count := r.1, pixel := pixel }, r.2)
  else
    (st, w)

/-- The alpha loop `for (k = 0; k < m_spec.width; k++)`.  `none` means the loop left
the function with `return false`. -/
def alphaLoop : List Nat → PassState → World → Option PassState × World
  | [], st, w => (some st, w)
  | p :: rest, st, w =>
    let r := alphaIter p st w
    if ferror r.2 then (none, r.2) else alphaLoop rest r.1 r.2

/-- Body of the flush after the alpha loop (the statements guarded by `if (count)`),
up to its `ferror` test. -/
def alphaFlush (st : PassState) (w : World) : World :=
  let count := st.count
  let pixel := st.pixel
  if count = 1 ∨ st.seqSame = 0 then
    let w := (writeU8 ((count - 1) % 256) w).2
    writeAlphas pixel count w
  else
    let w :=
      if count < 128 then (writeU8 ((count + 127) % 256) w).2
      else (writeU16 (count % 65536) (writeU8 128 w).2).2
    (writeU8 (pixel 0 0) w).2

/-- The whole alpha pass: `count = 0`, the loop, the flush.  `none` means
`return false`. -/
def alphaPass (st : PassState) (line : List Nat) (w : World) : Option PassState × World :=
  match alphaLoop line { st with count := 0 } w with
  | (none, w) => (none, w)
  | (some st, w) =>
    if st.count ≠ 0 then
      let w := alphaFlush st w
      if ferror w then (none, w) else (some st, w)
    else (some st, w)

/-! ## `write_scanline` -/

/-- `SoftimageOutput::write_scanline`.  `line` is the array of `m_spec.width` packed
32-bit pixels that `to_native_scanline` returns; `pixel0` and `seqSame0` are the
indeterminate initial contents of the locals `pixel` and `seqSame`.  The arguments
`y`, `z` of the source are never read.  Returns the result of the call and the world
after it. -/
def write_scanline (pixel0 : Buffer) (seqSame0 : Nat) (line : List Nat) (w : World) :
    Bool × World :=
  match colourPass { seqSame := seqSame0, count := 0, pixel := pixel0 } line w with
  | (none, w) => (false, w)
  | (some st, w) =>
    match alphaPass st line w with
    | (none, w) => (false, w)
    | (some _, w) => (true, w)

/-- A world in which no write fails: the indicator is clear and the oracle never
reports a failure. -/
def World.ideal (w : World) : Prop := w.error = false ∧ ∀ n, w.fails n = false

/-- The world in which nothing has happened yet and nothing ever fails. -/
def World.fresh : World := { log := [], error := false, fails := fun _ => false }

/-- The bytes that reached the stream: the values of the successful `writeU8` calls
of a log, in order. -/
def bytesOf : List Call → List Nat
  | [] => []
  | Call.byte v true :: l => v :: bytesOf l
  | _ :: l => bytesOf l

/-- Pack four components into a 32-bit pixel word (component 0 in the low byte). -/
def packPixel (r g b a : Nat) : Nat := r + 256 * g + 65536 * b + 16777216 * a

/-! ## `open`, `close`, `init` -/

/-- A non-null `FILE *`: the stream `Filesystem::fopen` returned for `path`. -/
structure FILE where
  path : String
  deriving DecidableEq, Repr

/-- The data members of `SoftimageOutput` that `open`, `close` and `init` touch
(`m_spec` is inherited from `ImageOutput`; `m_fd = none` is the null pointer).  The
message recorded by `error (...)` is not part of the embedding. -/
structure SoftimageOutput where
  m_fd : Option FILE
  m_filename : String
  m_spec : ImageSpec
  deriving DecidableEq

/-- `Filesystem::fopen (name, "wb")`: the outcome comes from the oracle; a new
stream starts with a clear error indicator. -/
def fopen (name : String) (w : World) : Option FILE × World :=
  let ok := w.nextOk
  (if ok then some { path := name } else none,
    { w with log := w.log ++ [Call.fopen name ok], error := if ok then false else w.error })

/-- `fclose (m_fd)`. -/
def fclose (w : World) : World :=
  { w with log := w.log ++ [Call.fclose] }

/-- Modelled from the spec: `PicFileHeader::write_header`, defined outside this file
(section 4.1: it fails when the sink cannot accept the header).  The header handed
over is logged with the outcome the oracle gives. -/
def write_header (h : PicFileHeader) (w : World) : Bool × World :=
  let ok := w.nextOk
  (ok, { w with log := w.log ++ [Call.header h ok], error := w.error || !ok })

/-- The test `sizeof(channel) != fwrite (&channel, 1, sizeof(channel), m_fd)`,
returning whether the whole packet was written. -/
def fwritePacket (p : ChannelPacket) (w : World) : Bool × World :=
  let ok := w.nextOk
  (ok, { w with log := w.log ++ [Call.packet p ok], error := w.error || !ok })

/-- The conversion `(short) x` of an `int`. -/
def toShort (x : Int) : Int := (x + 32768) % 65536 - 32768

/-- Storing a `short` in a 16-bit unsigned field. -/
def toU16 (x : Int) : Nat := (x % 65536).toNat

/-- `SoftimageOutput::init`. -/
def SoftimageOutput.init (self : SoftimageOutput) : SoftimageOutput :=
  { self with m_fd := none, m_filename := "" }

/-- `SoftimageOutput::close`. -/
def SoftimageOutput.close (self : SoftimageOutput) (w : World) :
    Bool × SoftimageOutput × World :=
  let r : SoftimageOutput × World :=
    if self.m_fd.isSome then ({ self with m_fd := none }, fclose w) else (self, w)
  (true, r.1.init, r.2)

/-- The header record `open` fills in (source lines 120-133) for the stored spec.
`magic` stands for `PicFileHeader::kSoftimageMagicNumber`, a constant declared in
`softimage_pvt.h`. -/
def picHeader (magic : Nat) (m_spec : ImageSpec) : PicFileHeader :=
  { magic := magic
    version := { num := 7, den := 2 }
    comment := List.replicate 8 0
    id := ['P', 'I', 'C', 'T']
    width := toU16 (toShort m_spec.width)
    height := toU16 (toShort m_spec.height)
    ratio := { num := 1, den := 1 }
    fields := 3
    padding := 0 }

/-- `SoftimageOutput::open` (named `open_` because `open` is a keyword here).
`magic` stands for the constant `PicFileHeader::kSoftimageMagicNumber`.  Returns the result of the call, the object
after it and the world after it. -/
def SoftimageOutput.open_ (self : SoftimageOutput) (name : String) (userspec : ImageSpec)
    (mode : OpenMode) (magic : Nat) (w : World) : Bool × SoftimageOutput × World :=
  if mode ≠ OpenMode.Create then (false, self, w)
  else
    let c := self.close w
    let self := c.2.1
    let w := c.2.2
    let self := { self with m_spec := userspec }
    let self := { self with m_filename := name }
    if self.m_spec.width < 1 ∨ self.m_spec.height < 1 then (false, self, w)
    else if self.m_spec.width > 65535 ∨ self.m_spec.height > 65535 then (false, self, w)
    else
      let self :=
        if self.m_spec.depth < 1 then { self with m_spec := { self.m_spec with depth := 1 } }
        else self
      if self.m_spec.depth > 1 then (false, self, w)
      else
        let f := fopen self.m_filename w
        let self := { self with m_fd := f.1 }
        let w := f.2
        if self.m_fd.isNone then (false, self, w)
        else
          let h := write_header (picHeader magic self.m_spec) w
          if !h.1 then
            let c := self.close h.2
            (false, c.2.1, c.2.2)
          else
            let channel : ChannelPacket :=
              { chained := 1, size := 8, type := 2, channelCode := 0xE0 }
            let p1 := fwritePacket channel h.2
            if !p1.1 then
              let c := self.close p1.2
              (false, c.2.1, c.2.2)
            else
              let channel : ChannelPacket :=
                { chained := 0, size := 8, type := 2, channelCode := 0x10 }
              let p2 := fwritePacket channel p1.2
              if !p2.1 then
                let c := self.close p2.2
                (false, c.2.1, c.2.2)
              else (true, self, p2.2)

/-- The calls a call of the writer added to the log. -/
def newCalls (before after : World) : List Call := after.log.drop before.log.length

/-- A world whose next `k` calls succeed and whose call after those fails. -/
def World.failingAfter (k : Nat) : World :=
  { log := [], error := false, fails := fun n => decide (n = k) }

/-! ## Runs: the encoder as a machine over tuples

The two passes of `write_scanline` are the same classifier, written twice in the
source.  The definitions below describe that classifier once, over an arbitrary
tuple type; the theorems relate both passes to it. -/

/-- A run as it is emitted: a literal run or a repeat run. -/
inductive Seg (α : Type) where
  | lit (vs : List α)
  | rep (v : α) (n : Nat)
  deriving DecidableEq, Repr

/-- The tuples a run stands for. -/
def Seg.tuples {α : Type} : Seg α → List α
  | Seg.lit vs => vs
  | Seg.rep v n => List.replicate n v

/-- The control field of a repeat run of `n` tuples, as the source writes it: one
byte `n + 127` below 128 tuples, otherwise the byte 128 and `n` as a 16-bit
big-endian count. -/
def repHead (n : Nat) : List Nat :=
  if n < 128 then [(n + 127) % 256]
  else [128, ((n % 65536) >>> 8) &&& 0xFF, (n % 65536) &&& 0xFF]

/-- The bytes of a run, where `ser` gives the bytes of one tuple. -/
def Seg.bytes {α : Type} (ser : α → List Nat) : Seg α → List Nat
  | Seg.lit vs => ((vs.length - 1) % 256) :: vs.flatMap ser
  | Seg.rep v n => repHead n ++ ser v

/-- The pending run of the classifier: nothing buffered, one tuple buffered, a
literal run `vs ++ [l]` being built, or `n` copies of `v` seen so far. -/
inductive Run (α : Type) where
  | empty
  | one (v : α)
  | lit (vs : List α) (l : α)
  | rep (v : α) (n : Nat)
  deriving DecidableEq, Repr

/-- The tuples held in the pending run. -/
def Run.pending {α : Type} : Run α → List α
  | Run.empty => []
  | Run.one v => [v]
  | Run.lit vs l => vs ++ [l]
  | Run.rep v n => List.replicate n v

/-- One tuple enters the classifier: the new pending run and the runs emitted. -/
def Run.step {α : Type} [DecidableEq α] : Run α → α → Run α × List (Seg α)
  | Run.empty, c => (Run.one c, [])
  | Run.one v, c => if c = v then (Run.rep v 2, []) else (Run.lit [v] c, [])
  | Run.lit vs l, c =>
    if c = l then (Run.rep c 2, [Seg.lit vs])
    else if vs.length + 2 = 128 then (Run.empty, [Seg.lit (vs ++ [l, c])])
    else (Run.lit (vs ++ [l]) c, [])
  | Run.rep v n, c =>
    if c = v then
      if n + 1 = 65536 then (Run.empty, [Seg.rep v (n + 1)]) else (Run.rep v (n + 1), [])
    else (Run.one c, [Seg.rep v n])

/-- The runs emitted for what is still pending at the end of the scanline. -/
def Run.flush {α : Type} : Run α → List (Seg α)
  | Run.empty => []
  | Run.one v => [Seg.lit [v]]
  | Run.lit vs l => [Seg.lit (vs ++ [l])]
  | Run.rep v n => [Seg.rep v n]

/-- All runs emitted for the tuples `ts`, starting with the pending run `s`. -/
def Run.feed {α : Type} [DecidableEq α] : Run α → List α → List (Seg α)
  | s, [] => s.flush
  | s, c :: cs => (s.step c).2 ++ Run.feed (s.step c).1 cs

/-- The pending run after the tuples `ts`. -/
def Run.after {α : Type} [DecidableEq α] : Run α → List α → Run α
  | s, [] => s
  | s, c :: cs => Run.after (s.step c).1 cs

/-- The runs emitted while reading `ts`, without the final flush. -/
def Run.emitted {α : Type} [DecidableEq α] : Run α → List α → List (Seg α)
  | _, [] => []
  | s, c :: cs => (s.step c).2 ++ Run.emitted (s.step c).1 cs

/-- The byte stream of a list of runs. -/
def segsBytes {α : Type} (ser : α → List Nat) (segs : List (Seg α)) : List Nat :=
  segs.flatMap (Seg.bytes ser)

/-- The colour tuple (bytes 0, 1, 2) of a packed pixel, as the colour loop reads it. -/
def colourOf (p : Nat) : Nat × Nat × Nat :=
  (p &&& 0xFF, (p >>> 8) &&& 0xFF, (p >>> 16) &&& 0xFF)

/-- The alpha byte (byte 3) of a packed pixel, as the alpha loop reads it. -/
def alphaOf (p : Nat) : Nat := (p >>> 24) &&& 0xFF

/-- The three bytes of a colour tuple, in the order `writePixel` writes them. -/
def serColour (c : Nat × Nat × Nat) : List Nat := [c.1, c.2.1, c.2.2]

/-- The byte of an alpha tuple. -/
def serAlpha (a : Nat) : List Nat := [a]

/-- The colour-group stream of a scanline: the runs of the classifier over the
colour tuples, as bytes. -/
def colourStream (line : List Nat) : List Nat :=
  segsBytes serColour (Run.feed Run.empty (line.map colourOf))

/-- The alpha-group stream of a scanline: the runs of the classifier over the alpha
bytes, as bytes. -/
def alphaStream (line : List Nat) : List Nat :=
  segsBytes serAlpha (Run.feed Run.empty (line.map alphaOf))

/-- The world after the bytes `bs` have been written without failure. -/
def World.put (w : World) (bs : List Nat) : World :=
  { w with log := w.log ++ bs.map (fun v => Call.byte v true) }

/-- The slot `pixel[i]` read as a colour tuple. -/
def slot3 (b : Buffer) (i : Nat) : Nat × Nat × Nat := (b i 0, b i 1, b i 2)

/-- The locals of the colour pass hold the pending run `s`. -/
def ColourRel (st : PassState) : Run (Nat × Nat × Nat) → Prop
  | Run.empty => st.count = 0
  | Run.one v => st.count = 1 ∧ slot3 st.pixel 0 = v
  | Run.lit vs l =>
    st.count = vs.length + 1 ∧ st.seqSame = 0 ∧ 1 ≤ vs.length ∧ vs.length + 1 < 128 ∧
      ∀ i, i < vs.length + 1 → some (slot3 st.pixel i) = (vs ++ [l])[i]?
  | Run.rep v n => st.count = n ∧ 2 ≤ n ∧ st.seqSame = 1 ∧ slot3 st.pixel 0 = v

/-- The locals of the alpha pass hold the pending run `s`. -/
def AlphaRel (st : PassState) : Run Nat → Prop
  | Run.empty => st.count = 0
  | Run.one v => st.count = 1 ∧ st.pixel 0 0 = v
  | Run.lit vs l =>
    st.count = vs.length + 1 ∧ st.seqSame = 0 ∧ 1 ≤ vs.length ∧ vs.length + 1 < 128 ∧
      ∀ i, i < vs.length + 1 → some (st.pixel i 0) = (vs ++ [l])[i]?
  | Run.rep v n => st.count = n ∧ 2 ≤ n ∧ st.seqSame = 1 ∧ st.pixel 0 0 = v

/-! ## The grammar decoder and the caller protocol -/

/-- Decoder side, from the words of the specification (section 4.3, "followed by L
tuples written verbatim"): reading `k` literal tuples of `W` bytes each.  Fails when
the bytes run out. -/
def readTuples (W : Nat) : Nat → List Nat → Option (List (List Nat) × List Nat)
  | 0, bs => some ([], bs)
  | k + 1, bs =>
    if bs.length < W then none
    else
      match readTuples W k (bs.drop W) with
      | none => none
      | some (ts, rest) => some (bs.take W :: ts, rest)

/-- Decoder side, from the words of the specification: one run of the grammar of
sections 4.2-4.3.  A control byte `c` with `0 ≤ c ≤ 127` is followed by `c + 1` literal tuples; with
`129 ≤ c ≤ 255` by one tuple, repeated `c - 127` times; `c = 128` by a 2-byte
big-endian count and one tuple, repeated that many times.  Returns the tuples of the
run and the bytes after it. -/
def decodeRun (W : Nat) : List Nat → Option (List (List Nat) × List Nat)
  | [] => none
  | c :: bs =>
    if c ≤ 127 then readTuples W (c + 1) bs
    else if c = 128 then
      match bs with
      | hi :: lo :: bs =>
        if bs.length < W then none
        else some (List.replicate (hi * 256 + lo) (bs.take W), bs.drop W)
      | _ => none
    else if c ≤ 255 then
      if bs.length < W then none
      else some (List.replicate (c - 127) (bs.take W), bs.drop W)
    else none

/-- Decoder side, from the words of the specification: the decoder "that knows
`width`" (section 6).  Runs are read until `n` tuples have been produced; a run that would produce more than the tuples
still missing is an error.  `fuel` bounds the number of runs read. -/
def decodeGroup (W : Nat) : Nat → Nat → List Nat → Option (List (List Nat) × List Nat)
  | 0, n, bs => if n = 0 then some ([], bs) else none
  | fuel + 1, n, bs =>
    if n = 0 then some ([], bs)
    else
      match decodeRun W bs with
      | none => none
      | some (ts, rest) =>
        if n < ts.length then none
        else
          match decodeGroup W fuel (n - ts.length) rest with
          | none => none
          | some (us, rest2) => some (ts ++ us, rest2)

/-- Decoder side, from the words of the specification (section 3): a pixel from its
decoded colour tuple and alpha tuple, component 0 in the low byte, alpha in the high
byte. -/
def pixelOfTuples (col alpha : List Nat) : Nat :=
  packPixel (col.getD 0 0) (col.getD 1 0) (col.getD 2 0) (alpha.getD 0 0)

/-- Decoder side, from the words of the specification (section 6): one scanline of
`width` pixels is the colour-group stream (tuples of 3 bytes) followed by the
alpha-group stream (tuples of 1 byte).  Every run takes at least one byte, so the number of bytes is enough fuel. -/
def decodeScanline (width : Nat) (bs : List Nat) : Option (List Nat × List Nat) :=
  match decodeGroup 3 bs.length width bs with
  | none => none
  | some (cols, rest) =>
    match decodeGroup 1 rest.length width rest with
    | none => none
    | some (alphas, rest2) => some (List.zipWith pixelOfTuples cols alphas, rest2)

/-- Decoder side, from the words of the specification (section 6): `height`
scanlines, one after the other, with nothing between them. -/
def decodeImage (width : Nat) : Nat → List Nat → Option (List (List Nat) × List Nat)
  | 0, bs => some ([], bs)
  | h + 1, bs =>
    match decodeScanline width bs with
    | none => none
    | some (row, rest) =>
      match decodeImage width h rest with
      | none => none
      | some (rows, rest2) => some (row :: rows, rest2)

/-- The caller protocol, from the words of the specification (section 6):
`write_scanline` called once per scanline in order, stopping at the first call that
reports failure.
`junk y` is what the uninitialised locals of call number `y` hold. -/
def write_scanlines (junk : Nat → Buffer × Nat) : Nat → List (List Nat) → World → Bool × World
  | _, [], w => (true, w)
  | y, line :: rest, w =>
    let r := write_scanline (junk y).1 (junk y).2 line w
    if r.1 then write_scanlines junk (y + 1) rest r.2 else (false, r.2)

/-- Consecutive chunks of `n + 1` elements; the last chunk holds what remains. -/
def chunks {α : Type} (n : Nat) : List α → List (List α)
  | [] => []
  | x :: xs => (x :: xs.take n) :: chunks n (xs.drop n)
termination_by l => l.length
decreasing_by
  simp only [List.length_drop, List.length_cons]
  omega

/-- The classifier state that holds the tuples `xs` as a literal run being built. -/
def litState {α : Type} (xs : List α) : Run α :=
  match xs.reverse with
  | [] => Run.empty
  | [v] => Run.one v
  | l :: r => Run.lit r.reverse l

/-- A run the grammar can carry: a literal run of 1 to 128 tuples, or a repeat run
of 2 to 65535 tuples. -/
def SegOk {α : Type} : Seg α → Prop
  | Seg.lit vs => 1 ≤ vs.length ∧ vs.length ≤ 128
  | Seg.rep _ n => 2 ≤ n ∧ n ≤ 65535

/-- The shapes of pending run the classifier can be in. -/
def RunOk {α : Type} : Run α → Prop
  | Run.empty => True
  | Run.one _ => True
  | Run.lit vs _ => 1 ≤ vs.length ∧ vs.length + 1 < 128
  | Run.rep _ n => 2 ≤ n

/-! ## Names for what `open` writes -/

/-- The spec `open` stores once the depth has been clamped (source lines 100-101). -/
def clampDepth (spec : ImageSpec) : ImageSpec :=
  if spec.depth < 1 then { spec with depth := 1 } else spec

/-- The RGB channel packet of `open` (source lines 145-148). -/
def rgbPacket : ChannelPacket := { chained := 1, size := 8, type := 2, channelCode := 0xE0 }

/-- The alpha channel packet of `open` (source lines 156-159). -/
def alphaPacket : ChannelPacket := { chained := 0, size := 8, type := 2, channelCode := 0x10 }

/-! ## More notions about runs -/

/-- A run with every tuple replaced by its image under `f`. -/
def Seg.map {α β : Type} (f : α → β) : Seg α → Seg β
  | Seg.lit vs => Seg.lit (vs.map f)
  | Seg.rep v n => Seg.rep (f v) n

/-- A pending run with every tuple replaced by its image under `f`. -/
def Run.map {α β : Type} (f : α → β) : Run α → Run β
  | Run.empty => Run.empty
  | Run.one v => Run.one (f v)
  | Run.lit vs l => Run.lit (vs.map f) (f l)
  | Run.rep v n => Run.rep (f v) n

/-- The shape of every run the classifier emits, whatever the width: a literal run of
1 to 128 tuples or a repeat run of at least 2 tuples. -/
def SegShape {α : Type} : Seg α → Prop
  | Seg.lit vs => 1 ≤ vs.length ∧ vs.length ≤ 128
  | Seg.rep _ n => 2 ≤ n

/-- In a literal run being built no two adjacent tuples are equal. -/
def RunDistinct {α : Type} : Run α → Prop
  | Run.lit vs l => List.Chain' (fun a b => a ≠ b) (vs ++ [l])
  | _ => True

/-- The relation between a run and the run emitted right after it: a literal run of
fewer than 128 tuples that is followed by a repeat run (it was flushed by a
literal-to-repeat flip) ends in a tuple other than the repeated value. -/
def flipOk {α : Type} : Seg α → Seg α → Prop
  | Seg.lit vs, Seg.rep v _ => vs.length < 128 → ∀ t ∈ vs.getLast?, t ≠ v
  | _, _ => True

/-! ## Tracking writes that may fail -/

/-- Whether a logged call is a byte write that failed. -/
def failedCall : Call → Bool
  | Call.byte _ false => true
  | _ => false

/-- From `w` to `w'` at most `n` calls were made, all of them byte writes; the oracle
is unchanged and the error indicator of `w'` is set exactly when it was set in `w` or
one of these writes failed. -/
def Wrote (w w' : World) (n : Nat) : Prop :=
  ∃ ext, w'.log = w.log ++ ext ∧ w'.fails = w.fails ∧ ext.length ≤ n ∧
    (∀ c ∈ ext, ∃ v ok, c = Call.byte v ok) ∧ w'.error = (w.error || ext.any failedCall)

/-- Every failed byte write of `ext` is followed by at most `k` further calls. -/
def TailBound (k : Nat) (ext : List Call) : Prop :=
  ∀ pre c post, ext = pre ++ c :: post → failedCall c = true → post.length ≤ k

/-- From `w` to `w'` only byte writes were made, the error indicator follows them,
and no failed write is followed by more than 384 further writes. -/
def Checked (w w' : World) : Prop :=
  ∃ ext, w'.log = w.log ++ ext ∧ w'.fails = w.fails ∧
    (∀ c ∈ ext, ∃ v ok, c = Call.byte v ok) ∧ w'.error = (w.error || ext.any failedCall) ∧
    TailBound 384 ext

/-! ## Accesses to the locals: buffer slots and `seqSame` -/

/-- The slots `i` of all accesses `pixel[i]` (reads and writes) made by one iteration
of the colour loop, branch by branch as in `colourIter`. -/
def colourIterSlots (p : Nat) (st : PassState) : List Nat :=
  let col0 := p &&& 0xFF
  let col1 := (p >>> 8) &&& 0xFF
  let col2 := (p >>> 16) &&& 0xFF
  let pixel := st.pixel
  let count := st.count
  if count = 0 then [0]
  else if count = 1 then
    let seqSame := eqInt col0 (pixel 0 0)
    let seqSame := seqSame &&& eqInt col1 (pixel 0 1)
    let seqSame := seqSame &&& eqInt col2 (pixel 0 2)
    [0] ++ (if seqSame = 0 then [count] else [])
  else if count > 1 then
    let seqSame := st.seqSame
    let same :=
      if seqSame ≠ 0 then
        (eqInt col0 (pixel 0 0) &&& eqInt col1 (pixel 0 1)) &&& eqInt col2 (pixel 0 2)
      else
        (eqInt col0 (pixel (count - 1) 0) &&& eqInt col1 (pixel (count - 1) 1))
          &&& eqInt col2 (pixel (count - 1) 2)
    (if seqSame ≠ 0 then [0] else [count - 1]) ++
      (if (same ^^^ seqSame) ≠ 0 then
        if seqSame = 0 then List.range (count - 1) ++ [1, 0]
        else [0, 0]
      else
        (if same = 0 then [count] else []) ++
          (if count + 1 = 128 ∧ seqSame = 0 then List.range (count + 1) else []) ++
          (if (if count + 1 = 128 ∧ seqSame = 0 then 0 else count + 1) = 65536 ∧ seqSame ≠ 0
            then [0] else []))
  else []

/-- The slots accessed by the flush after the colour loop (inside `if (count)`). -/
def colourFlushSlots (st : PassState) : List Nat :=
  if st.count = 1 ∨ st.seqSame = 0 then List.range st.count else [0]

/-- The slots `i` of all accesses `pixel[i][0]` made by one iteration of the alpha
loop, branch by branch as in `alphaIter`. -/
def alphaIterSlots (p : Nat) (st : PassState) : List Nat :=
  let col0 := (p >>> 24) &&& 0xFF
  let pixel := st.pixel
  let count := st.count
  if count = 0 then [0]
  else if count = 1 then
    let seqSame := eqInt col0 (pixel 0 0)
    [0] ++ (if seqSame = 0 then [count] else [])
  else if count > 1 then
    let seqSame := st.seqSame
    let same :=
      if seqSame ≠ 0 then eqInt col0 (pixel 0 0)
      else eqInt col0 (pixel (count - 1) 0)
    (if seqSame ≠ 0 then [0] else [count - 1]) ++
      (if (same ^^^ seqSame) ≠ 0 then
        if seqSame = 0 then List.range (count - 1) ++ [1, 0]
        else [0, 0]
      else
        (if same = 0 then [count] else []) ++
          (if count + 1 = 128 ∧ seqSame = 0 then List.range (count + 1) else []) ++
          (if (if count + 1 = 128 ∧ seqSame = 0 then 0 else count + 1) = 65536 ∧ seqSame ≠ 0
            then [0] else []))
  else []

/-- The slots accessed by the flush after the alpha loop (inside `if (count)`). -/
def alphaFlushSlots (st : PassState) : List Nat :=
  if st.count = 1 ∨ st.seqSame = 0 then List.range st.count else [0]

/-- Whether an iteration of either loop reads `seqSame`: it does in the branch
`count > 1` (the test `if (seqSame)`), and nowhere else before assigning it. -/
def iterReadsSeqSame (st : PassState) : Bool := decide (st.count > 1)

/-- Whether an iteration of either loop assigns `seqSame` before reading it: the
branch `count == 1`. -/
def iterAssignsSeqSame (st : PassState) : Bool := decide (st.count = 1)

/-- Whether the flush reads `seqSame`: in `if (count)`, the test
`(count == 1) || (!seqSame)` reads it unless `count == 1`. -/
def flushReadsSeqSame (st : PassState) : Bool := decide (st.count ≠ 0 ∧ st.count ≠ 1)

/-- The colour loop and its flush, run as `colourLoop` runs them, make only accesses
`pixel[i]` with `i < 128` and read `seqSame` only when `init` holds, where `init`
records that `seqSame` has been assigned in this pass. -/
def colourLoopSafe : List Nat → PassState → World → Bool → Prop
  | [], st, _, init =>
    st.count ≠ 0 →
      (∀ i ∈ colourFlushSlots st, i < 128) ∧ (flushReadsSeqSame st = true → init = true)
  | p :: rest, st, w, init =>
    (∀ i ∈ colourIterSlots p st, i < 128) ∧ (iterReadsSeqSame st = true → init = true) ∧
      (ferror (colourIter p st w).2 = false →
        colourLoopSafe rest (colourIter p st w).1 (colourIter p st w).2
          (init || iterAssignsSeqSame st))

/-- The alpha loop and its flush, run as `alphaLoop` runs them, make only accesses
`pixel[i][0]` with `i < 128` and read `seqSame` only when `init` holds. -/
def alphaLoopSafe : List Nat → PassState → World → Bool → Prop
  | [], st, _, init =>
    st.count ≠ 0 →
      (∀ i ∈ alphaFlushSlots st, i < 128) ∧ (flushReadsSeqSame st = true → init = true)
  | p :: rest, st, w, init =>
    (∀ i ∈ alphaIterSlots p st, i < 128) ∧ (iterReadsSeqSame st = true → init = true) ∧
      (ferror (alphaIter p st w).2 = false →
        alphaLoopSafe rest (alphaIter p st w).1 (alphaIter p st w).2
          (init || iterAssignsSeqSame st))

/-- Safety of a whole call of `write_scanline`: the colour pass is safe starting with
`seqSame` unassigned, and if it returns normally the alpha pass, which starts from
the locals it left and again with `seqSame` counted as unassigned, is safe too. -/
def write_scanlineSafe (pixel0 : Buffer) (seqSame0 : Nat) (line : List Nat) (w : World) :
    Prop :=
  colourLoopSafe line { seqSame := seqSame0, count := 0, pixel := pixel0 } w false ∧
    ∀ st1 w1, colourPass { seqSame := seqSame0, count := 0, pixel := pixel0 } line w
        = (some st1, w1) →
      alphaLoopSafe line { st1 with count := 0 } w1 false

/-! ## The calls of `write_scanline`, grouped by iteration -/

/-- The calls made by the colour loop, grouped by iteration: one list per iteration
that is run, in order.  This is the loop of `colourLoop`, with the calls of every
iteration recorded. -/
def colourLoopBlocks : List Nat → PassState → World → List (List Call)
  | [], _, _ => []
  | p :: rest, st, w =>
    let r := colourIter p st w
    newCalls w r.2 :: (if ferror r.2 then [] else colourLoopBlocks rest r.1 r.2)

/-- The calls made by the colour pass, grouped by loop iteration, followed by the
calls of the final flush when the flush is run (as in `colourPass`). -/
def colourPassBlocks (st : PassState) (line : List Nat) (w : World) : List (List Call) :=
  colourLoopBlocks line { st with count := 0 } w ++
    (match colourLoop line { st with count := 0 } w with
      | (none, _) => []
      | (some st, w) => if st.count ≠ 0 then [newCalls w (colourFlush st w)] else [])

/-- The calls made by the alpha loop, grouped by iteration: one list per iteration
that is run, in order. -/
def alphaLoopBlocks : List Nat → PassState → World → List (List Call)
  | [], _, _ => []
  | p :: rest, st, w =>
    let r := alphaIter p st w
    newCalls w r.2 :: (if ferror r.2 then [] else alphaLoopBlocks rest r.1 r.2)

/-- The calls made by the alpha pass, grouped by loop iteration, followed by the
calls of the final flush when the flush is run (as in `alphaPass`). -/
def alphaPassBlocks (st : PassState) (line : List Nat) (w : World) : List (List Call) :=
  alphaLoopBlocks line { st with count := 0 } w ++
    (match alphaLoop line { st with count := 0 } w with
      | (none, _) => []
      | (some st, w) => if st.count ≠ 0 then [newCalls w (alphaFlush st w)] else [])

/-- The calls made by `write_scanline`, grouped by the loop iteration or final flush
that makes them: the blocks of the colour pass and, when the colour pass did not
leave the function, the blocks of the alpha pass. -/
def write_scanlineBlocks (pixel0 : Buffer) (seqSame0 : Nat) (line : List Nat) (w : World) :
    List (List Call) :=
  colourPassBlocks { seqSame := seqSame0, count := 0, pixel := pixel0 } line w ++
    (match colourPass { seqSame := seqSame0, count := 0, pixel := pixel0 } line w with
      | (none, _) => []
      | (some st, w) => alphaPassBlocks st line w)

/-- A block that holds a failed byte write is the last block. -/
def FailLast (B : List (List Call)) : Prop :=
  ∀ pre blk post, B = pre ++ blk :: post → blk.any failedCall = true → post = []

/-- From `w` to `w'` the calls made are those of the blocks `B`, in order; the error
indicator follows them, no block has more than 385 calls, and a block that holds a
failed write is the last one. -/
def Blocked (w w' : World) (B : List (List Call)) : Prop :=
  w'.log = w.log ++ B.flatten ∧ w'.error = (w.error || B.flatten.any failedCall) ∧
    (∀ blk ∈ B, blk.length ≤ 385) ∧ FailLast B

/-! # Theorems -/

/-! ## Writers in a world where nothing fails -/

theorem put_nil (w : World) : w.put [] = w := by
  simp [World.put]

theorem put_put (w : World) (a b : List Nat) : (w.put a).put b = w.put (a ++ b) := by
  simp [World.put]

theorem ideal_put {w : World} (h : w.ideal) (bs : List Nat) : (w.put bs).ideal := by
  exact ⟨h.1, h.2⟩

theorem ferror_put {w : World} (h : w.ideal) (bs : List Nat) : ferror (w.put bs) = false := by
  exact h.1

theorem put_log (w : World) (bs : List Nat) :
    (w.put bs).log = w.log ++ bs.map (fun v => Call.byte v true) := rfl

theorem writeU8_ideal {w : World} (h : w.ideal) (v : Nat) :
    writeU8 v w = (true, w.put [v]) := by
  simp [writeU8, World.nextOk, World.put, h.1, h.2]

theorem writeU16_ideal {w : World} (h : w.ideal) (v : Nat) :
    writeU16 v w = (true, w.put [(v >>> 8) &&& 0xFF, v &&& 0xFF]) := by
  simp [writeU16, writeU8_ideal h, writeU8_ideal (ideal_put h _), put_put]

theorem writePixel_ideal {w : World} (h : w.ideal) (a b c : Nat) :
    writePixel a b c w = (true, w.put [a, b, c]) := by
  simp [writePixel, writeU8_ideal h, writeU8_ideal (ideal_put h _), put_put]

theorem writePixels_ideal (pixel : Buffer) (n : Nat) {w : World} (h : w.ideal) :
    writePixels pixel n w
      = w.put (((List.range n).map (slot3 pixel)).flatMap serColour) := by
  induction n with
  | zero => simp [writePixels, put_nil]
  | succ n ih =>
    unfold writePixels at ih ⊢
    rw [List.range_succ, List.foldl_append, ih]
    simp [writePixel_ideal (ideal_put h _), put_put, slot3, serColour]

theorem writeAlphas_ideal (pixel : Buffer) (n : Nat) {w : World} (h : w.ideal) :
    writeAlphas pixel n w
      = w.put (((List.range n).map (fun i => pixel i 0)).flatMap serAlpha) := by
  induction n with
  | zero => simp [writeAlphas, put_nil]
  | succ n ih =>
    unfold writeAlphas at ih ⊢
    rw [List.range_succ, List.foldl_append, ih]
    simp [writeU8_ideal (ideal_put h _), put_put, serAlpha]

theorem repHead_ideal {w : World} (h : w.ideal) (n : Nat) :
    (if n < 128 then (writeU8 ((n + 127) % 256) w).2
      else (writeU16 (n % 65536) (writeU8 128 w).2).2) = w.put (repHead n) := by
  unfold repHead
  split
  · simp [writeU8_ideal h]
  · simp [writeU8_ideal h, writeU16_ideal (ideal_put h _), put_put]

/-! ## Small facts about the locals -/

theorem eqInt3 (a0 a1 a2 b0 b1 b2 : Nat) :
    (eqInt a0 b0 &&& eqInt a1 b1) &&& eqInt a2 b2
      = if (a0, a1, a2) = (b0, b1, b2) then 1 else 0 := by
  unfold eqInt
  by_cases h0 : a0 = b0 <;> by_cases h1 : a1 = b1 <;> by_cases h2 : a2 = b2 <;>
    simp [h0, h1, h2]

theorem slot3_set3 (b : Buffer) (i x y z j : Nat) :
    slot3 (((b.set i 0 x).set i 1 y).set i 2 z) j = if j = i then (x, y, z) else slot3 b j := by
  unfold slot3 Buffer.set
  by_cases h : j = i <;> simp [h]

theorem slot3_flip (b : Buffer) (x y z : Nat) :
    slot3 ((((((b.set 1 0 x).set 0 0 x).set 1 1 y).set 0 1 y).set 1 2 z).set 0 2 z) 0
      = (x, y, z) := by
  simp [slot3, Buffer.set]

theorem range_map_eq {α : Type} (f : Nat → α) (xs : List α) (n : Nat) (hn : xs.length = n)
    (h : ∀ i, i < n → some (f i) = xs[i]?) : (List.range n).map f = xs := by
  apply List.ext_getElem?
  intro i
  by_cases hi : i < n
  · rw [← h i hi]
    simp [hi]
  · have h1 : xs.length ≤ i := by omega
    simp [List.getElem?_eq_none h1, hi]
    omega

theorem slots_snoc (px : Buffer) (xs : List (Nat × Nat × Nat)) (c0 c1 c2 : Nat)
    (h : ∀ i, i < xs.length → some (slot3 px i) = xs[i]?) :
    ∀ i, i < xs.length + 1 →
      some (slot3 (((px.set xs.length 0 c0).set xs.length 1 c1).set xs.length 2 c2) i)
        = (xs ++ [(c0, c1, c2)])[i]? := by
  intro i hi
  rw [slot3_set3]
  by_cases hx : i = xs.length
  · subst hx
    simp
  · have hlt : i < xs.length := by omega
    rw [if_neg hx, List.getElem?_append_left hlt]
    exact h i hlt

theorem slots_init {α : Type} (f : Nat → α) (xs : List α) (l : α)
    (h : ∀ i, i < xs.length + 1 → some (f i) = (xs ++ [l])[i]?) :
    ∀ i, i < xs.length → some (f i) = xs[i]? := by
  intro i hi
  have := h i (by omega)
  rwa [List.getElem?_append_left hi] at this

/-! ## The colour pass follows the classifier -/

theorem colourIter_sim (p : Nat) (st : PassState) (w : World) (s : Run (Nat × Nat × Nat))
    (hw : w.ideal) (hr : ColourRel st s) :
    ColourRel (colourIter p st w).1 (s.step (colourOf p)).1 ∧
      (colourIter p st w).2 = w.put (segsBytes serColour (s.step (colourOf p)).2) := by
  cases s with
  | empty =>
    simp only [ColourRel] at hr
    simp [colourIter, hr, Run.step, ColourRel, segsBytes, put_nil, slot3_set3, colourOf]
  | one v =>
    obtain ⟨hc, hv⟩ := hr
    subst hv
    simp only [colourIter, hc, Run.step, eqInt3]
    by_cases h : colourOf p = slot3 st.pixel 0
    · have h' : (p &&& 0xFF, (p >>> 8) &&& 0xFF, (p >>> 16) &&& 0xFF)
          = (st.pixel 0 0, st.pixel 0 1, st.pixel 0 2) := h
      simp [h, h', ColourRel, segsBytes, put_nil]
    · have h' : ¬ (p &&& 0xFF, (p >>> 8) &&& 0xFF, (p >>> 16) &&& 0xFF)
          = (st.pixel 0 0, st.pixel 0 1, st.pixel 0 2) := h
      simp only [h, h', ColourRel, segsBytes, put_nil]
      refine ⟨?_, ?_⟩
      · simp [slot3_set3]
        intro i hi
        interval_cases i <;> simp [colourOf]
      · simp [put_nil]
  | lit vs l =>
    obtain ⟨hc, hs, h1, h128, hsl⟩ := hr
    have hl : (st.pixel vs.length 0, st.pixel vs.length 1, st.pixel vs.length 2) = l := by
      have := hsl vs.length (by omega)
      simpa [slot3] using this
    have hc0 : st.count ≠ 0 := by omega
    have hc1 : st.count ≠ 1 := by omega
    have hc2 : st.count > 1 := by omega
    simp only [colourIter, colourOf, hc0, hc1, hc2, hs, Run.step, eqInt3, if_true, if_false]
    generalize p &&& 255 = c0
    generalize p >>> 8 &&& 255 = c1
    generalize p >>> 16 &&& 255 = c2
    simp only [hc, Nat.add_sub_cancel, hl]
    by_cases h : (c0, c1, c2) = l
    · subst h
      simp
      refine ⟨?_, ?_⟩
      · simp [ColourRel, slot3_flip]
      · rw [writeU8_ideal hw, writePixels_ideal _ _ (ideal_put hw _), put_put,
          range_map_eq (slot3 st.pixel) vs vs.length rfl (slots_init _ vs _ hsl)]
        simp [segsBytes, Seg.bytes]
    · have hsl2 := slots_snoc st.pixel (vs ++ [l]) c0 c1 c2 (by simpa using hsl)
      simp only [List.length_append, List.length_singleton, List.append_assoc,
        List.singleton_append] at hsl2
      simp [h]
      by_cases h126 : vs.length = 126
      · simp only [h126, if_true]
        refine ⟨?_, ?_⟩
        · simp [ColourRel]
        · rw [writeU8_ideal hw, writePixels_ideal _ _ (ideal_put hw _), put_put]
          rw [h126] at hsl2
          rw [range_map_eq _ (vs ++ [l, (c0, c1, c2)]) 128 (by simp [h126]) hsl2]
          simp [segsBytes, Seg.bytes, h126]
      · simp only [h126, if_false]
        refine ⟨?_, ?_⟩
        · simp only [ColourRel]
          refine ⟨by simp, trivial, by simp, by simp; omega, ?_⟩
          simpa using hsl2
        · simp [segsBytes, put_nil]
  | rep v n =>
    obtain ⟨hc, h2, hs, hv⟩ := hr
    have hv' : (st.pixel 0 0, st.pixel 0 1, st.pixel 0 2) = v := hv
    have hc0 : st.count ≠ 0 := by omega
    have hc1 : st.count ≠ 1 := by omega
    have hc2 : st.count > 1 := by omega
    simp only [colourIter, colourOf, hc0, hc1, hc2, hs, Run.step, eqInt3, if_true, if_false]
    generalize p &&& 255 = c0
    generalize p >>> 8 &&& 255 = c1
    generalize p >>> 16 &&& 255 = c2
    simp only [hc, hv']
    by_cases h : (c0, c1, c2) = v
    · subst h
      simp
      by_cases hn : n = 65535
      · simp only [hn, if_true]
        refine ⟨by simp [ColourRel], ?_⟩
        rw [writeU8_ideal hw, writeU16_ideal (ideal_put hw _),
          writePixel_ideal (ideal_put (ideal_put hw _) _), put_put, put_put]
        have e0 := congrArg Prod.fst hv'
        have e1 := congrArg (fun t => t.2.1) hv'
        have e2 := congrArg (fun t => t.2.2) hv'
        simp only at e0 e1 e2
        simp [segsBytes, Seg.bytes, repHead, serColour, e0, e1, e2]
      · simp only [hn, if_false]
        refine ⟨?_, by simp [segsBytes, put_nil]⟩
        exact ⟨rfl, by omega, rfl, hv⟩
    · simp [h]
      refine ⟨by simp [ColourRel, slot3_set3], ?_⟩
      rw [repHead_ideal hw, writePixel_ideal (ideal_put hw _), put_put]
      subst hv'
      simp [segsBytes, Seg.bytes, serColour]

theorem segsBytes_append {α : Type} (ser : α → List Nat) (a b : List (Seg α)) :
    segsBytes ser (a ++ b) = segsBytes ser a ++ segsBytes ser b := by
  simp [segsBytes]

theorem feed_eq {α : Type} [DecidableEq α] (s : Run α) (ts : List α) :
    Run.feed s ts = Run.emitted s ts ++ (Run.after s ts).flush := by
  induction ts generalizing s with
  | nil => simp [Run.feed, Run.emitted, Run.after]
  | cons c cs ih => simp [Run.feed, Run.emitted, Run.after, ih]

theorem colourLoop_sim (line : List Nat) (st : PassState) (w : World)
    (s : Run (Nat × Nat × Nat)) (hw : w.ideal) (hr : ColourRel st s) :
    ∃ st', colourLoop line st w
        = (some st', w.put (segsBytes serColour (Run.emitted s (line.map colourOf)))) ∧
      ColourRel st' (Run.after s (line.map colourOf)) := by
  induction line generalizing st w s with
  | nil => exact ⟨st, by simp [colourLoop, Run.emitted, segsBytes, put_nil], hr⟩
  | cons p rest ih =>
    obtain ⟨hrel, hout⟩ := colourIter_sim p st w s hw hr
    obtain ⟨st', h1, h2⟩ := ih (colourIter p st w).1 (colourIter p st w).2 _
      (by rw [hout]; exact ideal_put hw _) hrel
    refine ⟨st', ?_, h2⟩
    have hf : ferror (colourIter p st w).2 = false := by
      rw [hout]; exact ferror_put hw _
    simp only [colourLoop, hf, List.map_cons, Run.emitted, segsBytes_append]
    rw [← put_put, ← hout]
    simpa using h1

theorem colourFlush_sim (st : PassState) (w : World) (s : Run (Nat × Nat × Nat))
    (hw : w.ideal) (hr : ColourRel st s) (hc : st.count ≠ 0) :
    colourFlush st w = w.put (segsBytes serColour s.flush) := by
  cases s with
  | empty => exact absurd hr hc
  | one v =>
    obtain ⟨h1, hv⟩ := hr
    have hv' : (st.pixel 0 0, st.pixel 0 1, st.pixel 0 2) = v := hv
    subst hv'
    simp only [colourFlush, h1, true_or, if_true]
    rw [writeU8_ideal hw, writePixels_ideal _ _ (ideal_put hw _), put_put]
    simp [segsBytes, Seg.bytes, Run.flush, slot3, serColour, List.range_succ]
  | lit vs l =>
    obtain ⟨h1, hs, _, _, hsl⟩ := hr
    simp only [colourFlush, h1, hs, or_true, if_true]
    rw [writeU8_ideal hw, writePixels_ideal _ _ (ideal_put hw _), put_put,
      range_map_eq (slot3 st.pixel) (vs ++ [l]) (vs.length + 1) (by simp) hsl]
    simp [segsBytes, Seg.bytes, Run.flush]
  | rep v n =>
    obtain ⟨h1, h2, hs, hv⟩ := hr
    have hv' : (st.pixel 0 0, st.pixel 0 1, st.pixel 0 2) = v := hv
    subst hv'
    have hn1 : ¬ (n = 1 ∨ (1 : Nat) = 0) := by omega
    simp only [colourFlush, h1, hs, hn1, if_false]
    rw [repHead_ideal hw, writePixel_ideal (ideal_put hw _), put_put]
    simp [segsBytes, Seg.bytes, Run.flush, serColour]

theorem after_empty_of_count {st : PassState} {s : Run (Nat × Nat × Nat)}
    (hr : ColourRel st s) (hc : st.count = 0) : s = Run.empty := by
  cases s with
  | empty => rfl
  | one v => exact absurd hr.1 (by omega)
  | lit vs l => exact absurd hr.1 (by omega)
  | rep v n => have := hr.1; have := hr.2.1; omega

/-- In a world where nothing fails, the colour pass returns normally and appends
exactly the colour-group stream, whatever the locals held on entry. -/
theorem colourPass_ideal (st : PassState) (line : List Nat) (w : World) (hw : w.ideal) :
    ∃ st', colourPass st line w = (some st', w.put (colourStream line)) := by
  obtain ⟨st', h1, h2⟩ := colourLoop_sim line { st with count := 0 } w Run.empty hw
    (by simp [ColourRel])
  unfold colourPass colourStream
  rw [h1, feed_eq, segsBytes_append, ← put_put]
  by_cases hc : st'.count = 0
  · have he := after_empty_of_count h2 hc
    refine ⟨st', ?_⟩
    simp [hc, he, Run.flush, segsBytes, put_nil]
  · refine ⟨st', ?_⟩
    have hf := colourFlush_sim st'
      (w.put (segsBytes serColour (Run.emitted Run.empty (line.map colourOf)))) _
      (ideal_put hw _) h2 hc
    simp only [ne_eq, hc, not_false_eq_true, if_true, hf]
    simp [ferror_put (ideal_put hw _)]

/-! ## The alpha pass follows the classifier -/

theorem eqInt_eq (a b : Nat) : eqInt a b = if a = b then 1 else 0 := rfl

theorem alpha_snoc (px : Buffer) (xs : List Nat) (c : Nat)
    (h : ∀ i, i < xs.length → some (px i 0) = xs[i]?) :
    ∀ i, i < xs.length + 1 → some ((px.set xs.length 0 c) i 0) = (xs ++ [c])[i]? := by
  intro i hi
  by_cases hx : i = xs.length
  · subst hx
    simp [Buffer.set]
  · have hlt : i < xs.length := by omega
    rw [List.getElem?_append_left hlt]
    simpa [Buffer.set, hx] using h i hlt

theorem alphaIter_sim (p : Nat) (st : PassState) (w : World) (s : Run Nat)
    (hw : w.ideal) (hr : AlphaRel st s) :
    AlphaRel (alphaIter p st w).1 (s.step (alphaOf p)).1 ∧
      (alphaIter p st w).2 = w.put (segsBytes serAlpha (s.step (alphaOf p)).2) := by
  cases s with
  | empty =>
    simp only [AlphaRel] at hr
    simp [alphaIter, hr, Run.step, AlphaRel, segsBytes, put_nil, Buffer.set, alphaOf]
  | one v =>
    obtain ⟨hc, hv⟩ := hr
    subst hv
    simp only [alphaIter, alphaOf, hc, Run.step, eqInt_eq]
    generalize p >>> 24 &&& 255 = c
    by_cases h : c = st.pixel 0 0
    · simp [h, AlphaRel, segsBytes, put_nil]
    · simp only [h, AlphaRel, segsBytes, put_nil]
      refine ⟨?_, ?_⟩
      · simp [Buffer.set]
        intro i hi
        interval_cases i <;> simp
      · simp [put_nil]
  | lit vs l =>
    obtain ⟨hc, hs, h1, h128, hsl⟩ := hr
    have hl : st.pixel vs.length 0 = l := by
      have := hsl vs.length (by omega)
      simpa using this
    have hc0 : st.count ≠ 0 := by omega
    have hc1 : st.count ≠ 1 := by omega
    have hc2 : st.count > 1 := by omega
    simp only [alphaIter, alphaOf, hc0, hc1, hc2, hs, Run.step, eqInt_eq, if_true, if_false]
    generalize p >>> 24 &&& 255 = c
    simp only [hc, Nat.add_sub_cancel, hl]
    by_cases h : c = l
    · subst h
      simp
      refine ⟨?_, ?_⟩
      · simp [AlphaRel, Buffer.set]
      · rw [writeU8_ideal hw, writeAlphas_ideal _ _ (ideal_put hw _), put_put,
          range_map_eq (fun i => st.pixel i 0) vs vs.length rfl (slots_init _ vs _ hsl)]
        simp [segsBytes, Seg.bytes]
    · have hsl2 := alpha_snoc st.pixel (vs ++ [l]) c (by simpa using hsl)
      simp only [List.length_append, List.length_singleton, List.append_assoc,
        List.singleton_append] at hsl2
      simp [h]
      by_cases h126 : vs.length = 126
      · simp only [h126, if_true]
        refine ⟨?_, ?_⟩
        · simp [AlphaRel]
        · rw [writeU8_ideal hw, writeAlphas_ideal _ _ (ideal_put hw _), put_put]
          rw [h126] at hsl2
          rw [range_map_eq _ (vs ++ [l, c]) 128 (by simp [h126]) hsl2]
          simp [segsBytes, Seg.bytes, h126]
      · simp only [h126, if_false]
        refine ⟨?_, ?_⟩
        · simp only [AlphaRel]
          refine ⟨by simp, trivial, by simp, by simp; omega, ?_⟩
          simpa using hsl2
        · simp [segsBytes, put_nil]
  | rep v n =>
    obtain ⟨hc, h2, hs, hv⟩ := hr
    have hc0 : st.count ≠ 0 := by omega
    have hc1 : st.count ≠ 1 := by omega
    have hc2 : st.count > 1 := by omega
    simp only [alphaIter, alphaOf, hc0, hc1, hc2, hs, Run.step, eqInt_eq, if_true, if_false]
    generalize p >>> 24 &&& 255 = c
    simp only [hc, hv]
    by_cases h : c = v
    · subst h
      simp
      by_cases hn : n = 65535
      · simp only [hn, if_true]
        refine ⟨by simp [AlphaRel], ?_⟩
        rw [writeU8_ideal hw, writeU16_ideal (ideal_put hw _),
          writeU8_ideal (ideal_put (ideal_put hw _) _), put_put, put_put]
        simp [segsBytes, Seg.bytes, repHead, serAlpha, hv]
      · simp only [hn, if_false]
        refine ⟨?_, by simp [segsBytes, put_nil]⟩
        exact ⟨rfl, by omega, rfl, hv⟩
    · simp [h]
      refine ⟨by simp [AlphaRel, Buffer.set], ?_⟩
      rw [repHead_ideal hw, writeU8_ideal (ideal_put hw _), put_put]
      simp [segsBytes, Seg.bytes, serAlpha, hv]

theorem alphaLoop_sim (line : List Nat) (st : PassState) (w : World)
    (s : Run Nat) (hw : w.ideal) (hr : AlphaRel st s) :
    ∃ st', alphaLoop line st w
        = (some st', w.put (segsBytes serAlpha (Run.emitted s (line.map alphaOf)))) ∧
      AlphaRel st' (Run.after s (line.map alphaOf)) := by
  induction line generalizing st w s with
  | nil => exact ⟨st, by simp [alphaLoop, Run.emitted, segsBytes, put_nil], hr⟩
  | cons p rest ih =>
    obtain ⟨hrel, hout⟩ := alphaIter_sim p st w s hw hr
    obtain ⟨st', h1, h2⟩ := ih (alphaIter p st w).1 (alphaIter p st w).2 _
      (by rw [hout]; exact ideal_put hw _) hrel
    refine ⟨st', ?_, h2⟩
    have hf : ferror (alphaIter p st w).2 = false := by
      rw [hout]; exact ferror_put hw _
    simp only [alphaLoop, hf, List.map_cons, Run.emitted, segsBytes_append]
    rw [← put_put, ← hout]
    simpa using h1

theorem alphaFlush_sim (st : PassState) (w : World) (s : Run Nat)
    (hw : w.ideal) (hr : AlphaRel st s) (hc : st.count ≠ 0) :
    alphaFlush st w = w.put (segsBytes serAlpha s.flush) := by
  cases s with
  | empty => exact absurd hr hc
  | one v =>
    obtain ⟨h1, hv⟩ := hr
    subst hv
    simp only [alphaFlush, h1, true_or, if_true]
    rw [writeU8_ideal hw, writeAlphas_ideal _ _ (ideal_put hw _), put_put]
    simp [segsBytes, Seg.bytes, Run.flush, serAlpha, List.range_succ]
  | lit vs l =>
    obtain ⟨h1, hs, _, _, hsl⟩ := hr
    simp only [alphaFlush, h1, hs, or_true, if_true]
    rw [writeU8_ideal hw, writeAlphas_ideal _ _ (ideal_put hw _), put_put,
      range_map_eq (fun i => st.pixel i 0) (vs ++ [l]) (vs.length + 1) (by simp) hsl]
    simp [segsBytes, Seg.bytes, Run.flush]
  | rep v n =>
    obtain ⟨h1, h2, hs, hv⟩ := hr
    subst hv
    have hn1 : ¬ (n = 1 ∨ (1 : Nat) = 0) := by omega
    simp only [alphaFlush, h1, hs, hn1, if_false]
    rw [repHead_ideal hw, writeU8_ideal (ideal_put hw _), put_put]
    simp [segsBytes, Seg.bytes, Run.flush, serAlpha]

theorem alpha_empty_of_count {st : PassState} {s : Run Nat}
    (hr : AlphaRel st s) (hc : st.count = 0) : s = Run.empty := by
  cases s with
  | empty => rfl
  | one v => exact absurd hr.1 (by omega)
  | lit vs l => exact absurd hr.1 (by omega)
  | rep v n => have := hr.1; have := hr.2.1; omega

/-- In a world where nothing fails, the alpha pass returns normally and appends
exactly the alpha-group stream, whatever the locals held on entry. -/
theorem alphaPass_ideal (st : PassState) (line : List Nat) (w : World) (hw : w.ideal) :
    ∃ st', alphaPass st line w = (some st', w.put (alphaStream line)) := by
  obtain ⟨st', h1, h2⟩ := alphaLoop_sim line { st with count := 0 } w Run.empty hw
    (by simp [AlphaRel])
  unfold alphaPass alphaStream
  rw [h1, feed_eq, segsBytes_append, ← put_put]
  by_cases hc : st'.count = 0
  · have he := alpha_empty_of_count h2 hc
    refine ⟨st', ?_⟩
    simp [hc, he, Run.flush, segsBytes, put_nil]
  · refine ⟨st', ?_⟩
    have hf := alphaFlush_sim st'
      (w.put (segsBytes serAlpha (Run.emitted Run.empty (line.map alphaOf)))) _
      (ideal_put hw _) h2 hc
    simp only [ne_eq, hc, not_false_eq_true, if_true, hf]
    simp [ferror_put (ideal_put hw _)]

/-- In a world where nothing fails, `write_scanline` returns `true` and appends the
colour-group stream followed by the alpha-group stream. -/
theorem write_scanline_ideal (pixel0 : Buffer) (seqSame0 : Nat) (line : List Nat) (w : World)
    (hw : w.ideal) :
    write_scanline pixel0 seqSame0 line w
      = (true, w.put (colourStream line ++ alphaStream line)) := by
  obtain ⟨st1, h1⟩ := colourPass_ideal { seqSame := seqSame0, count := 0, pixel := pixel0 }
    line w hw
  obtain ⟨st2, h2⟩ := alphaPass_ideal st1 line (w.put (colourStream line)) (ideal_put hw _)
  simp only [write_scanline, h1, h2, put_put]

/-! ## Facts about the classifier -/

theorem after_append {α : Type} [DecidableEq α] (s : Run α) (a b : List α) :
    Run.after s (a ++ b) = Run.after (Run.after s a) b := by
  induction a generalizing s with
  | nil => rfl
  | cons c cs ih => simp [Run.after, ih]

theorem emitted_append {α : Type} [DecidableEq α] (s : Run α) (a b : List α) :
    Run.emitted s (a ++ b) = Run.emitted s a ++ Run.emitted (Run.after s a) b := by
  induction a generalizing s with
  | nil => simp [Run.emitted, Run.after]
  | cons c cs ih => simp [Run.emitted, Run.after, ih]

theorem feed_append {α : Type} [DecidableEq α] (s : Run α) (a b : List α) :
    Run.feed s (a ++ b) = Run.emitted s a ++ Run.feed (Run.after s a) b := by
  rw [feed_eq, feed_eq, emitted_append, after_append, List.append_assoc]

theorem rep_replicate {α : Type} [DecidableEq α] (v : α) (n k : Nat) (h : n + k ≤ 65535) :
    Run.after (Run.rep v n) (List.replicate k v) = Run.rep v (n + k) ∧
      Run.emitted (Run.rep v n) (List.replicate k v) = [] := by
  induction k generalizing n with
  | zero => simp [Run.after, Run.emitted]
  | succ k ih =>
    have hn : ¬ n + 1 = 65536 := by omega
    have := ih (n + 1) (by omega)
    simp only [List.replicate_succ, Run.after, Run.emitted, Run.step, if_true, hn, if_false,
      List.nil_append]
    rw [this.1, this.2]
    exact ⟨by congr 1; omega, rfl⟩

theorem empty_replicate {α : Type} [DecidableEq α] (v : α) (w : Nat) (h2 : 2 ≤ w)
    (h : w ≤ 65535) :
    Run.after Run.empty (List.replicate w v) = Run.rep v w ∧
      Run.emitted Run.empty (List.replicate w v) = [] := by
  obtain ⟨k, rfl⟩ : ∃ k, w = k + 2 := ⟨w - 2, by omega⟩
  have := rep_replicate v 2 k (by omega)
  simp only [List.replicate_succ, Run.after, Run.emitted, Run.step, if_true, List.nil_append]
  rw [this.1, this.2]
  exact ⟨by congr 1; omega, rfl⟩

theorem feed_replicate {α : Type} [DecidableEq α] (v : α) (w : Nat) (h2 : 2 ≤ w)
    (h : w ≤ 65535) : Run.feed Run.empty (List.replicate w v) = [Seg.rep v w] := by
  rw [feed_eq, (empty_replicate v w h2 h).1, (empty_replicate v w h2 h).2]
  rfl

theorem repHead_short (n : Nat) (h : n < 128) : repHead n = [n + 127] := by
  unfold repHead
  rw [if_pos h, Nat.mod_eq_of_lt (by omega)]

theorem repHead_long (n : Nat) (h : 128 ≤ n) (h2 : n ≤ 65535) :
    repHead n = [128, n / 256, n % 256] := by
  unfold repHead
  rw [if_neg (by omega), Nat.mod_eq_of_lt (by omega : n < 65536)]
  have e1 : n >>> 8 &&& 255 = n / 256 := by
    have := Nat.and_pow_two_sub_one_eq_mod (n >>> 8) 8
    simp only [Nat.reducePow, Nat.add_one_sub_one] at this
    rw [this, Nat.shiftRight_eq_div_pow]
    omega
  have e2 : n &&& 255 = n % 256 := by
    have := Nat.and_pow_two_sub_one_eq_mod n 8
    simpa using this
  rw [e1, e2]

/-! ## Packed pixels -/

theorem and255 (n : Nat) : n &&& 255 = n % 256 := by
  have := Nat.and_pow_two_sub_one_eq_mod n 8
  simpa using this

theorem colourOf_eq (p : Nat) : colourOf p = (p % 256, p / 256 % 256, p / 65536 % 256) := by
  simp only [colourOf, and255, Nat.shiftRight_eq_div_pow]

theorem alphaOf_eq (p : Nat) : alphaOf p = p / 16777216 % 256 := by
  simp only [alphaOf, and255, Nat.shiftRight_eq_div_pow]

theorem colourOf_pack (r g b a : Nat) (hr : r < 256) (hg : g < 256) (hb : b < 256) :
    colourOf (packPixel r g b a) = (r, g, b) := by
  rw [colourOf_eq]
  unfold packPixel
  refine Prod.ext ?_ (Prod.ext ?_ ?_) <;> simp only <;> omega

theorem alphaOf_pack (r g b a : Nat) (hr : r < 256) (hg : g < 256) (hb : b < 256)
    (ha : a < 256) : alphaOf (packPixel r g b a) = a := by
  rw [alphaOf_eq]
  unfold packPixel
  omega

theorem pack_unpack (p : Nat) (hp : p < 4294967296) :
    packPixel (colourOf p).1 (colourOf p).2.1 (colourOf p).2.2 (alphaOf p) = p := by
  rw [colourOf_eq, alphaOf_eq]
  unfold packPixel
  simp only
  omega

/-! ## Literal runs -/

theorem litState_snoc {α : Type} (xs : List α) (l : α) (h : xs ≠ []) :
    litState (xs ++ [l]) = Run.lit xs l := by
  unfold litState
  rw [List.reverse_append]
  cases hx : xs.reverse with
  | nil => exact absurd (List.reverse_eq_nil_iff.mp hx) h
  | cons y ys =>
    have : (y :: ys).reverse = xs := by rw [← hx, List.reverse_reverse]
    simp [this]

theorem litState_single {α : Type} (v : α) : litState [v] = Run.one v := rfl

theorem litState_flush {α : Type} (xs : List α) (h : xs ≠ []) :
    (litState xs).flush = [Seg.lit xs] := by
  rcases List.eq_nil_or_concat xs with rfl | ⟨ys, l, rfl⟩
  · exact absurd rfl h
  · rw [List.concat_eq_append]
    rcases List.eq_nil_or_concat ys with rfl | ⟨zs, m, rfl⟩
    · rfl
    · rw [litState_snoc _ _ (by simp)]
      rfl

theorem step_litState {α : Type} [DecidableEq α] (xs : List α) (c : α)
    (hch : List.Chain' (fun a b => a ≠ b) (xs ++ [c])) (hlen : xs.length + 1 < 128) :
    (litState xs).step c = (litState (xs ++ [c]), []) := by
  rcases List.eq_nil_or_concat xs with rfl | ⟨ys, l, rfl⟩
  · rfl
  · rw [List.concat_eq_append] at hch hlen ⊢
    have hlc : l ≠ c := by
      rw [List.append_assoc] at hch
      exact List.chain'_pair.mp hch.right_of_append
    rw [litState_snoc (ys ++ [l]) c (by simp)]
    rcases List.eq_nil_or_concat ys with rfl | ⟨zs, m, rfl⟩
    · simp [litState_single, Run.step, Ne.symm hlc]
    · rw [List.concat_eq_append] at hlen ⊢
      rw [litState_snoc _ _ (by simp)]
      simp only [List.length_append, List.length_singleton] at hlen
      have h2 : ¬ (zs ++ [m]).length + 2 = 128 := by
        simp only [List.length_append, List.length_singleton]; omega
      simp only [Run.step, Ne.symm hlc, if_false, h2]

theorem step_litState_full {α : Type} [DecidableEq α] (xs : List α) (c : α)
    (hch : List.Chain' (fun a b => a ≠ b) (xs ++ [c])) (hlen : xs.length + 1 = 128) :
    (litState xs).step c = (Run.empty, [Seg.lit (xs ++ [c])]) := by
  rcases List.eq_nil_or_concat xs with rfl | ⟨ys, l, rfl⟩
  · simp at hlen
  · rw [List.concat_eq_append] at hch hlen ⊢
    have hlc : l ≠ c := by
      rw [List.append_assoc] at hch
      exact List.chain'_pair.mp hch.right_of_append
    simp only [List.length_append, List.length_singleton] at hlen
    rw [litState_snoc ys l (by intro h; simp [h] at hlen)]
    have h2 : ys.length + 2 = 128 := by omega
    simp [Run.step, Ne.symm hlc, h2]

theorem lit_pending {α : Type} [DecidableEq α] (xs : List α)
    (hch : List.Chain' (fun a b => a ≠ b) xs) (hlen : xs.length < 128) :
    Run.after Run.empty xs = litState xs ∧ Run.emitted Run.empty xs = [] := by
  induction xs using List.reverseRecOn with
  | nil => exact ⟨rfl, rfl⟩
  | append_singleton ys c ih =>
    simp only [List.length_append, List.length_singleton] at hlen
    obtain ⟨h1, h2⟩ := ih hch.left_of_append (by omega)
    have hs := step_litState ys c hch hlen
    rw [after_append, emitted_append, h1, h2]
    simp [Run.after, Run.emitted, hs]

theorem lit_full {α : Type} [DecidableEq α] (xs : List α)
    (hch : List.Chain' (fun a b => a ≠ b) xs) (hlen : xs.length = 128) :
    Run.after Run.empty xs = Run.empty ∧ Run.emitted Run.empty xs = [Seg.lit xs] := by
  rcases List.eq_nil_or_concat xs with rfl | ⟨ys, c, rfl⟩
  · simp at hlen
  · rw [List.concat_eq_append] at hch hlen ⊢
    simp only [List.length_append, List.length_singleton] at hlen
    obtain ⟨h1, h2⟩ := lit_pending ys hch.left_of_append (by omega)
    have hs := step_litState_full ys c hch hlen
    rw [after_append, emitted_append, h1, h2]
    simp [Run.after, Run.emitted, hs]

theorem feed_literal {α : Type} [DecidableEq α] (xs : List α)
    (hch : List.Chain' (fun a b => a ≠ b) xs) (h1 : 1 ≤ xs.length) (h128 : xs.length ≤ 128) :
    Run.feed Run.empty xs = [Seg.lit xs] := by
  rw [feed_eq]
  by_cases h : xs.length = 128
  · rw [(lit_full xs hch h).1, (lit_full xs hch h).2]
    rfl
  · rw [(lit_pending xs hch (by omega)).1, (lit_pending xs hch (by omega)).2,
      litState_flush xs (by intro h0; simp [h0] at h1)]
    rfl

theorem chunks_cons {α : Type} (n : Nat) (x : α) (xs : List α) :
    chunks n (x :: xs) = (x :: xs.take n) :: chunks n (xs.drop n) := by
  rw [chunks]

theorem chunks_nil {α : Type} (n : Nat) : chunks n ([] : List α) = [] := by
  rw [chunks]

theorem feed_chunks {α : Type} [DecidableEq α] (xs : List α)
    (hch : List.Chain' (fun a b => a ≠ b) xs) :
    Run.feed Run.empty xs = (chunks 127 xs).map Seg.lit := by
  generalize hn : xs.length = n
  induction n using Nat.strong_induction_on generalizing xs with
  | _ n ih =>
    cases xs with
    | nil => simp [chunks_nil, Run.feed, Run.flush]
    | cons x t =>
      rw [chunks_cons]
      by_cases hle : (x :: t).length ≤ 128
      · have ht : t.length ≤ 127 := by simpa using hle
        rw [List.drop_eq_nil_of_le ht, List.take_of_length_le ht, chunks_nil]
        exact feed_literal (x :: t) hch (by simp) hle
      · have hlt : 128 ≤ t.length := by simp at hle; omega
        have hsplit : x :: t = (x :: t.take 127) ++ t.drop 127 := by simp
        have hch1 : List.Chain' (fun a b => a ≠ b) (x :: t.take 127) := by
          have := hch.take 128
          simpa using this
        have hch2 : List.Chain' (fun a b => a ≠ b) (t.drop 127) := by
          have := hch.drop 128
          simpa using this
        have hl1 : (x :: t.take 127).length = 128 := by
          simp [List.length_take]; omega
        have hfull := lit_full (x :: t.take 127) hch1 hl1
        have hrec := ih (t.drop 127).length (by simp [← hn]; omega) (t.drop 127) hch2 rfl
        conv_lhs => rw [hsplit]
        rw [feed_append, hfull.1, hfull.2, hrec]
        simp

theorem chunks_length_le {α : Type} (n : Nat) (xs : List α) :
    ∀ ch ∈ chunks n xs, 1 ≤ ch.length ∧ ch.length ≤ n + 1 := by
  generalize hn : xs.length = k
  induction k using Nat.strong_induction_on generalizing xs with
  | _ k ih =>
    cases xs with
    | nil => simp [chunks_nil]
    | cons x t =>
      rw [chunks_cons]
      intro ch hmem
      rcases List.mem_cons.mp hmem with rfl | hmem
      · simp [List.length_take]
      · exact ih (t.drop n).length (by simp [← hn]; omega) (t.drop n) rfl ch hmem

theorem chunks_flatten {α : Type} (n : Nat) (xs : List α) : (chunks n xs).flatten = xs := by
  generalize hn : xs.length = k
  induction k using Nat.strong_induction_on generalizing xs with
  | _ k ih =>
    cases xs with
    | nil => simp [chunks_nil]
    | cons x t =>
      rw [chunks_cons, List.flatten_cons,
        ih (t.drop n).length (by simp [← hn]; omega) (t.drop n) rfl]
      simp

theorem chunks_getElem {α : Type} (n : Nat) (xs : List α) (i : Nat) :
    (chunks n xs)[i]? =
      if i * (n + 1) < xs.length then some ((xs.drop (i * (n + 1))).take (n + 1)) else none := by
  induction i generalizing xs with
  | zero =>
    cases xs with
    | nil => simp [chunks_nil]
    | cons x t => simp [chunks_cons]
  | succ i ih =>
    cases xs with
    | nil => simp [chunks_nil]
    | cons x t =>
      rw [chunks_cons, List.getElem?_cons_succ, ih]
      have e : (i + 1) * (n + 1) = (i * (n + 1) + n) + 1 := by ring
      simp only [List.length_drop, List.length_cons, e, List.drop_succ_cons, List.drop_drop]
      have e2 : n + i * (n + 1) = i * (n + 1) + n := by omega
      by_cases h : i * (n + 1) < t.length - n
      · have h2 : i * (n + 1) + n + 1 < t.length + 1 := by omega
        simp only [h, h2, if_true, e2]
      · have h2 : ¬ i * (n + 1) + n + 1 < t.length + 1 := by omega
        simp only [h, h2, if_false]

theorem chunks_count {α : Type} (n : Nat) (xs : List α) :
    (chunks n xs).length = (xs.length + n) / (n + 1) := by
  generalize hn : xs.length = k
  induction k using Nat.strong_induction_on generalizing xs with
  | _ k ih =>
    subst hn
    cases xs with
    | nil =>
      simp only [chunks_nil, List.length_nil, Nat.zero_add]
      exact (Nat.div_eq_of_lt (by omega)).symm
    | cons x t =>
      rw [chunks_cons, List.length_cons,
        ih (t.drop n).length (by simp; omega) (t.drop n) rfl]
      simp only [List.length_drop, List.length_cons]
      by_cases h : t.length ≤ n
      · have e1 : t.length - n = 0 := by omega
        rw [e1, Nat.zero_add, Nat.div_eq_of_lt (by omega)]
        have : (t.length + 1 + n) / (n + 1) = 1 := by
          apply Nat.div_eq_of_lt_le <;> nlinarith
        omega
      · have e1 : t.length + 1 + n = (t.length - n + n) + (n + 1) := by omega
        rw [e1, Nat.add_div_right _ (by omega)]

/-! ## The decoder inverts the byte grammar -/

theorem readTuples_flatMap {α : Type} (ser : α → List Nat) (W : Nat)
    (hser : ∀ v, (ser v).length = W) (ts : List α) (rest : List Nat) :
    readTuples W ts.length (ts.flatMap ser ++ rest) = some (ts.map ser, rest) := by
  induction ts with
  | nil => simp [readTuples]
  | cons v ts ih =>
    have hlen : ¬ (ser v ++ (ts.flatMap ser ++ rest)).length < W := by
      simp [hser v]
    simp only [List.flatMap_cons, List.append_assoc, List.length_cons, readTuples, hlen,
      if_false, List.map_cons]
    rw [List.drop_left' (hser v), List.take_left' (hser v), ih]

theorem decodeRun_seg {α : Type} (ser : α → List Nat) (W : Nat)
    (hser : ∀ v, (ser v).length = W) (seg : Seg α) (hok : SegOk seg) (rest : List Nat) :
    decodeRun W (Seg.bytes ser seg ++ rest) = some (seg.tuples.map ser, rest) := by
  cases seg with
  | lit vs =>
    obtain ⟨h1, h2⟩ := hok
    have hc : (vs.length - 1) % 256 = vs.length - 1 := Nat.mod_eq_of_lt (by omega)
    have hle : vs.length - 1 ≤ 127 := by omega
    have hs : vs.length - 1 + 1 = vs.length := by omega
    simp only [Seg.bytes, List.cons_append, decodeRun, hc, hle, if_true, hs, Seg.tuples]
    exact readTuples_flatMap ser W hser vs rest
  | rep v n =>
    obtain ⟨h1, h2⟩ := hok
    have hlen : ¬ (ser v ++ rest).length < W := by simp [hser v]
    by_cases hn : n < 128
    · have hc1 : ¬ n + 127 ≤ 127 := by omega
      have hc2 : ¬ n + 127 = 128 := by omega
      have hc3 : n + 127 ≤ 255 := by omega
      simp only [Seg.bytes, repHead_short n hn, List.cons_append, List.nil_append, decodeRun,
        hc1, hc2, hc3, if_true, if_false, hlen, Seg.tuples, List.map_replicate,
        Nat.add_sub_cancel]
      rw [List.drop_left' (hser v), List.take_left' (hser v)]
    · have hdm : n / 256 * 256 + n % 256 = n := by omega
      simp only [Seg.bytes, repHead_long n (by omega) h2, List.cons_append, List.nil_append,
        decodeRun, if_true, if_false, hlen, Seg.tuples, List.map_replicate, hdm]
      rw [List.drop_left' (hser v), List.take_left' (hser v)]
      simp

theorem segOk_tuples_pos {α : Type} (seg : Seg α) (hok : SegOk seg) : 1 ≤ seg.tuples.length := by
  cases seg with
  | lit vs => exact hok.1
  | rep v n => simp only [Seg.tuples, List.length_replicate]; exact le_trans (by omega) hok.1

theorem decodeGroup_segs {α : Type} (ser : α → List Nat) (W : Nat)
    (hser : ∀ v, (ser v).length = W) (segs : List (Seg α)) (hok : ∀ seg ∈ segs, SegOk seg)
    (fuel : Nat) (hfuel : segs.length ≤ fuel) (rest : List Nat) :
    decodeGroup W fuel (segs.flatMap Seg.tuples).length (segsBytes ser segs ++ rest)
      = some ((segs.flatMap Seg.tuples).map ser, rest) := by
  induction segs generalizing fuel with
  | nil => cases fuel <;> simp [decodeGroup, segsBytes]
  | cons seg segs ih =>
    obtain ⟨f, rfl⟩ : ∃ f, fuel = f + 1 := ⟨fuel - 1, by simp at hfuel; omega⟩
    have hseg := hok seg (List.mem_cons_self _ _)
    have hpos := segOk_tuples_pos seg hseg
    have hn0 : ¬ ((seg :: segs).flatMap Seg.tuples).length = 0 := by
      simp only [List.flatMap_cons, List.length_append]; omega
    have hrun := decodeRun_seg ser W hser seg hseg (segsBytes ser segs ++ rest)
    have hb : segsBytes ser (seg :: segs) ++ rest
        = Seg.bytes ser seg ++ (segsBytes ser segs ++ rest) := by
      simp [segsBytes]
    have hlt : ¬ ((seg :: segs).flatMap Seg.tuples).length
        < (List.map ser seg.tuples).length := by
      simp only [List.flatMap_cons, List.length_append, List.length_map]; omega
    have hsub : ((seg :: segs).flatMap Seg.tuples).length - (List.map ser seg.tuples).length
        = (segs.flatMap Seg.tuples).length := by
      simp only [List.flatMap_cons, List.length_append, List.length_map]; omega
    have hrec := ih (fun sg h => hok sg (List.mem_cons_of_mem _ h)) f
      (by simp at hfuel; omega)
    simp only [decodeGroup, hn0, if_false, hb, hrun, hlt, hsub, hrec]
    simp

/-! ## The runs the classifier emits -/

theorem step_ok {α : Type} [DecidableEq α] (s : Run α) (c : α) (hs : RunOk s)
    (hb : s.pending.length + 1 ≤ 65535) :
    RunOk (s.step c).1 ∧ (∀ seg ∈ (s.step c).2, SegOk seg) ∧
      (s.step c).2.flatMap Seg.tuples ++ (s.step c).1.pending = s.pending ++ [c] := by
  cases s with
  | empty => simp [Run.step, RunOk, Run.pending]
  | one v =>
    by_cases h : c = v
    · subst h
      simp [Run.step, RunOk, Run.pending, List.replicate_succ]
    · simp [Run.step, h, RunOk, Run.pending]
  | lit vs l =>
    obtain ⟨h1, h2⟩ := hs
    by_cases h : c = l
    · subst h
      simp [Run.step, RunOk, Run.pending, SegOk, Seg.tuples, List.replicate_succ]
      omega
    · by_cases h3 : vs.length + 2 = 128
      · simp [Run.step, h, h3, RunOk, Run.pending, SegOk, Seg.tuples]
      · simp [Run.step, h, h3, RunOk, Run.pending]
        omega
  | rep v n =>
    have h2 : 2 ≤ n := hs
    simp only [Run.pending, List.length_replicate] at hb
    by_cases h : c = v
    · subst h
      have hn : ¬ n + 1 = 65536 := by omega
      simp only [Run.step, if_true, hn, if_false, RunOk, Run.pending, List.flatMap_nil,
        List.nil_append, List.not_mem_nil, false_implies, implies_true, true_and]
      exact ⟨by omega, List.replicate_succ' ..⟩
    · simp [Run.step, h, RunOk, Run.pending, SegOk, Seg.tuples]
      omega

theorem flush_ok {α : Type} (s : Run α) (hs : RunOk s) (hb : s.pending.length ≤ 65535) :
    (∀ seg ∈ s.flush, SegOk seg) ∧ s.flush.flatMap Seg.tuples = s.pending := by
  cases s with
  | empty => simp [Run.flush, Run.pending]
  | one v => simp [Run.flush, Run.pending, SegOk, Seg.tuples]
  | lit vs l =>
    obtain ⟨h1, h2⟩ := hs
    simp [Run.flush, Run.pending, SegOk, Seg.tuples]
    omega
  | rep v n =>
    have h2 : 2 ≤ n := hs
    simp only [Run.pending, List.length_replicate] at hb
    simp [Run.flush, Run.pending, SegOk, Seg.tuples]
    omega

theorem feed_ok {α : Type} [DecidableEq α] (s : Run α) (ts : List α) (hs : RunOk s)
    (hb : s.pending.length + ts.length ≤ 65535) :
    (∀ seg ∈ Run.feed s ts, SegOk seg) ∧
      (Run.feed s ts).flatMap Seg.tuples = s.pending ++ ts := by
  induction ts generalizing s with
  | nil =>
    have := flush_ok s hs (by simpa using hb)
    simpa [Run.feed] using this
  | cons c cs ih =>
    simp only [List.length_cons] at hb
    obtain ⟨h1, h2, h3⟩ := step_ok s c hs (by omega)
    have hlen := congrArg List.length h3
    simp only [List.length_append, List.length_singleton] at hlen
    obtain ⟨i1, i2⟩ := ih (s.step c).1 h1 (by omega)
    refine ⟨?_, ?_⟩
    · intro seg hmem
      simp only [Run.feed, List.mem_append] at hmem
      rcases hmem with hm | hm
      · exact h2 seg hm
      · exact i1 seg hm
    · simp only [Run.feed, List.flatMap_append, i2]
      rw [← List.append_assoc, h3]
      simp

theorem segsBytes_length {α : Type} (ser : α → List Nat) (segs : List (Seg α)) :
    segs.length ≤ (segsBytes ser segs).length := by
  induction segs with
  | nil => simp [segsBytes]
  | cons seg segs ih =>
    have hb : segsBytes ser (seg :: segs) = Seg.bytes ser seg ++ segsBytes ser segs := by
      simp [segsBytes]
    have h1 : 1 ≤ (Seg.bytes ser seg).length := by
      cases seg with
      | lit vs => simp [Seg.bytes]
      | rep v n =>
        simp only [Seg.bytes, repHead, List.length_append]
        split
        · simp
        · simp only [List.length_cons, List.length_nil]; omega
    rw [hb, List.length_append, List.length_cons]
    omega

/-- The decoder of one channel group recovers the tuples the classifier was fed, and
leaves the bytes that follow untouched. -/
theorem decodeGroup_feed {α : Type} [DecidableEq α] (ser : α → List Nat) (W : Nat)
    (hser : ∀ v, (ser v).length = W) (ts : List α) (hb : ts.length ≤ 65535)
    (rest : List Nat) :
    decodeGroup W (segsBytes ser (Run.feed Run.empty ts) ++ rest).length ts.length
        (segsBytes ser (Run.feed Run.empty ts) ++ rest)
      = some (ts.map ser, rest) := by
  obtain ⟨h1, h2⟩ := feed_ok Run.empty ts trivial (by simpa [Run.pending] using hb)
  simp only [Run.pending, List.nil_append] at h2
  have := decodeGroup_segs ser W hser (Run.feed Run.empty ts) h1
    (segsBytes ser (Run.feed Run.empty ts) ++ rest).length
    (by rw [List.length_append]; exact le_trans (segsBytes_length ser _) (Nat.le_add_right _ _))
    rest
  rw [h2] at this
  exact this

/-! ## Scanlines and images -/

theorem serColour_length (c : Nat × Nat × Nat) : (serColour c).length = 3 := rfl

theorem serAlpha_length (a : Nat) : (serAlpha a).length = 1 := rfl

theorem zip_pixels (line : List Nat) (hp : ∀ p ∈ line, p < 4294967296) :
    List.zipWith pixelOfTuples ((line.map colourOf).map serColour)
        ((line.map alphaOf).map serAlpha) = line := by
  induction line with
  | nil => rfl
  | cons p rest ih =>
    have h1 := pack_unpack p (hp p (List.mem_cons_self _ _))
    have h2 := ih (fun q hq => hp q (List.mem_cons_of_mem _ hq))
    simp only [List.map_cons, List.zipWith_cons_cons, h2]
    simp [pixelOfTuples, serColour, serAlpha, h1]

/-- Decoding the two streams of a scanline gives the scanline back. -/
theorem decodeScanline_streams (line : List Nat) (hlen : line.length ≤ 65535)
    (hp : ∀ p ∈ line, p < 4294967296) (rest : List Nat) :
    decodeScanline line.length (colourStream line ++ alphaStream line ++ rest)
      = some (line, rest) := by
  have hc := decodeGroup_feed serColour 3 serColour_length (line.map colourOf)
    (by simpa using hlen) (alphaStream line ++ rest)
  have ha := decodeGroup_feed serAlpha 1 serAlpha_length (line.map alphaOf)
    (by simpa using hlen) rest
  simp only [List.length_map] at hc ha
  unfold decodeScanline
  rw [List.append_assoc]
  unfold colourStream
  rw [hc]
  simp only
  unfold alphaStream
  rw [ha]
  simp only
  rw [zip_pixels line hp]

/-- The bytes of a whole image: for each scanline its colour-group stream, then its
alpha-group stream. -/
theorem write_scanlines_ideal (junk : Nat → Buffer × Nat) (grid : List (List Nat)) (y : Nat)
    (w : World) (hw : w.ideal) :
    write_scanlines junk y grid w
      = (true, w.put (grid.flatMap (fun line => colourStream line ++ alphaStream line))) := by
  induction grid generalizing y w with
  | nil => simp [write_scanlines, put_nil]
  | cons line rest ih =>
    simp only [write_scanlines, write_scanline_ideal _ _ line w hw, if_true,
      ih (y + 1) _ (ideal_put hw _), put_put, List.flatMap_cons]

theorem decodeImage_streams (width : Nat) (hw : width ≤ 65535) (grid : List (List Nat))
    (hrow : ∀ row ∈ grid, row.length = width ∧ ∀ p ∈ row, p < 4294967296)
    (rest : List Nat) :
    decodeImage width grid.length
        (grid.flatMap (fun line => colourStream line ++ alphaStream line) ++ rest)
      = some (grid, rest) := by
  induction grid with
  | nil => simp [decodeImage]
  | cons row rows ih =>
    obtain ⟨hl, hp⟩ := hrow row (List.mem_cons_self _ _)
    have h1 := decodeScanline_streams row (by omega) hp
      (rows.flatMap (fun line => colourStream line ++ alphaStream line) ++ rest)
    rw [hl] at h1
    have h2 := ih (fun r hr => hrow r (List.mem_cons_of_mem _ hr))
    simp only [List.length_cons, decodeImage, List.flatMap_cons, List.append_assoc]
    simp only [List.append_assoc] at h1
    rw [h1]
    simp only
    rw [h2]

/-! ## Streams of particular scanlines -/

theorem bytesOf_append (l m : List Call) : bytesOf (l ++ m) = bytesOf l ++ bytesOf m := by
  induction l with
  | nil => rfl
  | cons c l ih =>
    cases c with
    | byte v ok => cases ok <;> simp [bytesOf, ih]
    | fclose => simp [bytesOf, ih]
    | fopen n ok => simp [bytesOf, ih]
    | header h ok => simp [bytesOf, ih]
    | packet q ok => simp [bytesOf, ih]

theorem bytesOf_bytes (bs : List Nat) : bytesOf (bs.map (fun v => Call.byte v true)) = bs := by
  induction bs with
  | nil => rfl
  | cons b bs ih => simp [bytesOf, ih]

theorem bytesOf_put (w : World) (bs : List Nat) :
    bytesOf (w.put bs).log = bytesOf w.log ++ bs := by
  rw [put_log, bytesOf_append, bytesOf_bytes]

theorem fresh_ideal : World.fresh.ideal := ⟨rfl, fun _ => rfl⟩

theorem stream_constant {α : Type} [DecidableEq α] (ser : α → List Nat) (v : α) (w : Nat)
    (h2 : 2 ≤ w) (h : w ≤ 65535) :
    segsBytes ser (Run.feed Run.empty (List.replicate w v)) = repHead w ++ ser v := by
  rw [feed_replicate v w h2 h]
  simp [segsBytes, Seg.bytes]

theorem stream_run_then_one {α : Type} [DecidableEq α] (ser : α → List Nat) (a b : α)
    (n : Nat) (h2 : 2 ≤ n) (h : n ≤ 65535) (hab : a ≠ b) :
    segsBytes ser (Run.feed Run.empty (List.replicate n a ++ [b]))
      = repHead n ++ ser a ++ 0 :: ser b := by
  rw [feed_append, (empty_replicate a n h2 h).1, (empty_replicate a n h2 h).2]
  simp [Run.feed, Run.step, Ne.symm hab, Run.flush, segsBytes, Seg.bytes]

theorem stream_literal {α : Type} [DecidableEq α] (ser : α → List Nat) (xs : List α)
    (hch : List.Chain' (fun a b => a ≠ b) xs) (h1 : 1 ≤ xs.length) (h128 : xs.length ≤ 128) :
    segsBytes ser (Run.feed Run.empty xs) = (xs.length - 1) :: xs.flatMap ser := by
  rw [feed_literal xs hch h1 h128]
  simp only [segsBytes, List.flatMap_cons, List.flatMap_nil, List.append_nil, Seg.bytes]
  rw [Nat.mod_eq_of_lt (by omega)]

theorem stream_chunks {α : Type} [DecidableEq α] (ser : α → List Nat) (xs : List α)
    (hch : List.Chain' (fun a b => a ≠ b) xs) :
    segsBytes ser (Run.feed Run.empty xs)
      = (chunks 127 xs).flatMap (fun ch => (ch.length - 1) :: ch.flatMap ser) := by
  rw [feed_chunks xs hch]
  have hlen := chunks_length_le 127 xs
  generalize chunks 127 xs = cs at hlen
  induction cs with
  | nil => rfl
  | cons ch cs ih =>
    have h := hlen ch (List.mem_cons_self _ _)
    have hrec := ih (fun c hc => hlen c (List.mem_cons_of_mem _ hc))
    simp only [segsBytes, List.map_cons, List.flatMap_cons, Seg.bytes] at hrec ⊢
    rw [hrec, Nat.mod_eq_of_lt (by omega)]

theorem flatMap_serAlpha (xs : List Nat) : xs.flatMap serAlpha = xs := by
  induction xs with
  | nil => rfl
  | cons x xs ih => simp [serAlpha, ih]

/-! ## The claims about `write_scanline` -/

/-- C1 (round trip).  For every width up to 65535 and every grid of 32-bit pixels
with rows of that width (any height, any contents of the uninitialised locals), the
calls of `write_scanline` on the rows in order all return `true` and append a byte
string that the grammar decoder, told the width and the height, turns back into
exactly the grid, with no byte left over. -/
theorem C1_round_trip (width : Nat) (grid : List (List Nat)) (junk : Nat → Buffer × Nat)
    (w : World) (hwidth : width ≤ 65535)
    (hrow : ∀ row ∈ grid, row.length = width ∧ ∀ p ∈ row, p < 4294967296)
    (hw : w.ideal) :
    ∃ bytes,
      write_scanlines junk 0 grid w = (true, w.put bytes) ∧
      (write_scanlines junk 0 grid w).2.log = w.log ++ bytes.map (fun v => Call.byte v true) ∧
      decodeImage width grid.length bytes = some (grid, []) := by
  refine ⟨grid.flatMap (fun line => colourStream line ++ alphaStream line), ?_, ?_, ?_⟩
  · exact write_scanlines_ideal junk grid 0 w hw
  · rw [write_scanlines_ideal junk grid 0 w hw]
    rfl
  · have := decodeImage_streams width hwidth grid hrow []
    simpa using this

/-- C1, at a 2-by-2 grid. -/
theorem C1_round_trip_witness :
    ∃ bytes,
      write_scanlines (fun _ => (fun _ _ => 0, 0)) 0 [[1, 1], [2, 4278190080]] World.fresh
        = (true, World.fresh.put bytes) ∧
      (write_scanlines (fun _ => (fun _ _ => 0, 0)) 0 [[1, 1], [2, 4278190080]]
        World.fresh).2.log = World.fresh.log ++ bytes.map (fun v => Call.byte v true) ∧
      decodeImage 2 2 bytes = some ([[1, 1], [2, 4278190080]], []) :=
  C1_round_trip 2 [[1, 1], [2, 4278190080]] (fun _ => (fun _ _ => 0, 0)) World.fresh
    (by decide) (by decide) fresh_ideal

/-- C2.  A scanline of `w` equal pixels `(r, g, b, a)`, `128 < w ≤ 65535`, is written
as one long repeat run per channel group: the colour pass appends exactly
`[128, w / 256, w % 256, r, g, b]`, the alpha pass exactly
`[128, w / 256, w % 256, a]`, and `write_scanline` the first followed by the second. -/
theorem C2_constant_long_repeat (w r g b a : Nat) (st : PassState) (wd : World)
    (hw : 128 < w) (hw2 : w ≤ 65535) (hr : r < 256) (hg : g < 256) (hb : b < 256)
    (ha : a < 256) (hi : wd.ideal) :
    (∃ st1, colourPass st (List.replicate w (packPixel r g b a)) wd
        = (some st1, wd.put [128, w / 256, w % 256, r, g, b])) ∧
    (∃ st2, alphaPass st (List.replicate w (packPixel r g b a)) wd
        = (some st2, wd.put [128, w / 256, w % 256, a])) ∧
    write_scanline st.pixel st.seqSame (List.replicate w (packPixel r g b a)) wd
      = (true, wd.put ([128, w / 256, w % 256, r, g, b] ++ [128, w / 256, w % 256, a])) := by
  have hc : colourStream (List.replicate w (packPixel r g b a))
      = [128, w / 256, w % 256, r, g, b] := by
    unfold colourStream
    rw [List.map_replicate, colourOf_pack r g b a hr hg hb,
      stream_constant serColour _ w (by omega) hw2, repHead_long w (by omega) hw2]
    rfl
  have hal : alphaStream (List.replicate w (packPixel r g b a))
      = [128, w / 256, w % 256, a] := by
    unfold alphaStream
    rw [List.map_replicate, alphaOf_pack r g b a hr hg hb ha,
      stream_constant serAlpha _ w (by omega) hw2, repHead_long w (by omega) hw2]
    rfl
  refine ⟨?_, ?_, ?_⟩
  · obtain ⟨st1, h⟩ := colourPass_ideal st _ wd hi
    exact ⟨st1, by rw [h, hc]⟩
  · obtain ⟨st2, h⟩ := alphaPass_ideal st _ wd hi
    exact ⟨st2, by rw [h, hal]⟩
  · rw [write_scanline_ideal _ _ _ wd hi, hc, hal]

/-- C2, at 300 pixels `(1, 2, 3, 4)`: the count field is `1, 44`. -/
theorem C2_constant_long_repeat_witness :
    write_scanline (fun _ _ => 0) 0 (List.replicate 300 (packPixel 1 2 3 4)) World.fresh
      = (true, World.fresh.put ([128, 300 / 256, 300 % 256, 1, 2, 3]
          ++ [128, 300 / 256, 300 % 256, 4])) :=
  (C2_constant_long_repeat 300 1 2 3 4 { seqSame := 0, count := 0, pixel := fun _ _ => 0 }
    World.fresh (by decide) (by decide) (by decide) (by decide) (by decide) (by decide)
    fresh_ideal).2.2

/-- C3, refuted at width 128: 128 equal pixels are written in the long form
`128, 0, 128`, not with the control byte 255. -/
theorem C3_counterexample :
    bytesOf (write_scanline (fun _ _ => 0) 0 (List.replicate 128 (packPixel 1 2 3 4))
        World.fresh).2.log = [128, 0, 128, 1, 2, 3, 128, 0, 128, 4] ∧
      bytesOf (write_scanline (fun _ _ => 0) 0 (List.replicate 128 (packPixel 1 2 3 4))
        World.fresh).2.log ≠ [128 + 127, 1, 2, 3] ++ [128 + 127, 4] := by
  have hc : colourStream (List.replicate 128 (packPixel 1 2 3 4)) = [128, 0, 128, 1, 2, 3] := by
    unfold colourStream
    rw [List.map_replicate, colourOf_pack 1 2 3 4 (by decide) (by decide) (by decide),
      stream_constant serColour _ 128 (by decide) (by decide),
      repHead_long 128 (by decide) (by decide)]
    rfl
  have hal : alphaStream (List.replicate 128 (packPixel 1 2 3 4)) = [128, 0, 128, 4] := by
    unfold alphaStream
    rw [List.map_replicate,
      alphaOf_pack 1 2 3 4 (by decide) (by decide) (by decide) (by decide),
      stream_constant serAlpha _ 128 (by decide) (by decide),
      repHead_long 128 (by decide) (by decide)]
    rfl
  have h : bytesOf (write_scanline (fun _ _ => 0) 0 (List.replicate 128 (packPixel 1 2 3 4))
      World.fresh).2.log = [128, 0, 128, 1, 2, 3, 128, 0, 128, 4] := by
    rw [write_scanline_ideal _ _ _ _ fresh_ideal, bytesOf_put, hc, hal]
    rfl
  exact ⟨h, by rw [h]; decide⟩

/-- C4.  For a scanline of 1 to 128 pixels: if no two adjacent colour tuples are
equal, the colour pass appends exactly the control byte `width - 1` and the colour
tuples in order, three bytes each; if no two adjacent alpha bytes are equal, the
alpha pass appends exactly the control byte `width - 1` and the alpha bytes in
order.  A scanline of one pixel is the literal run with control byte 0 in both
groups. -/
theorem C4_distinct_single_literal (line : List Nat) (st : PassState) (wd : World)
    (h1 : 1 ≤ line.length) (h128 : line.length ≤ 128) (hi : wd.ideal) :
    (List.Chain' (fun x y => x ≠ y) (line.map colourOf) →
      ∃ st1, colourPass st line wd
        = (some st1, wd.put ((line.length - 1) :: (line.map colourOf).flatMap serColour))) ∧
    (List.Chain' (fun x y => x ≠ y) (line.map alphaOf) →
      ∃ st2, alphaPass st line wd
        = (some st2, wd.put ((line.length - 1) :: line.map alphaOf))) ∧
    (∀ p, line = [p] →
      write_scanline st.pixel st.seqSame line wd
        = (true, wd.put ([0, (colourOf p).1, (colourOf p).2.1, (colourOf p).2.2]
            ++ [0, alphaOf p]))) := by
  refine ⟨?_, ?_, ?_⟩
  · intro hch
    obtain ⟨st1, h⟩ := colourPass_ideal st line wd hi
    refine ⟨st1, ?_⟩
    rw [h]
    unfold colourStream
    rw [stream_literal serColour _ hch (by simpa using h1) (by simpa using h128)]
    simp
  · intro hch
    obtain ⟨st2, h⟩ := alphaPass_ideal st line wd hi
    refine ⟨st2, ?_⟩
    rw [h]
    unfold alphaStream
    rw [stream_literal serAlpha _ hch (by simpa using h1) (by simpa using h128),
      flatMap_serAlpha]
    simp
  · intro p hp
    subst hp
    rw [write_scanline_ideal _ _ _ wd hi]
    rfl

/-- C4, at three pixels whose colours and alphas all differ from their neighbours. -/
theorem C4_distinct_single_literal_witness :
    (∃ st1, colourPass { seqSame := 0, count := 0, pixel := fun _ _ => 0 }
        [16777217, 33554434, 16777217] World.fresh
        = (some st1, World.fresh.put ((([16777217, 33554434, 16777217] : List Nat).length - 1)
            :: (([16777217, 33554434, 16777217] : List Nat).map colourOf).flatMap serColour))) ∧
    (∃ st2, alphaPass { seqSame := 0, count := 0, pixel := fun _ _ => 0 }
        [16777217, 33554434, 16777217] World.fresh
        = (some st2, World.fresh.put ((([16777217, 33554434, 16777217] : List Nat).length - 1)
            :: ([16777217, 33554434, 16777217] : List Nat).map alphaOf))) :=
  ⟨(C4_distinct_single_literal [16777217, 33554434, 16777217]
      { seqSame := 0, count := 0, pixel := fun _ _ => 0 } World.fresh (by decide) (by decide)
      fresh_ideal).1 (by simp [colourOf_eq]),
    (C4_distinct_single_literal [16777217, 33554434, 16777217]
      { seqSame := 0, count := 0, pixel := fun _ _ => 0 } World.fresh (by decide) (by decide)
      fresh_ideal).2.1 (by simp [alphaOf_eq])⟩

/-- C5.  For a scanline of more than 128 pixels in which no two adjacent tuples of a
channel group are equal, the stream of that group is, chunk of 128 tuples after
chunk (the last chunk holding what remains), the control byte `chunk length - 1`
followed by the tuples of the chunk; there are `⌈width / 128⌉` chunks (at least two),
each of 1 to 128 tuples, chunk number `i` being the 128 tuples from position
`128 * i` on (fewer at the end), and together they are the tuples of the scanline. -/
theorem C5_distinct_literal_chunks (line : List Nat) (st : PassState) (wd : World)
    (hlen : 128 < line.length) (hi : wd.ideal) :
    (List.Chain' (fun x y => x ≠ y) (line.map colourOf) →
      ∃ st1, colourPass st line wd
        = (some st1, wd.put ((chunks 127 (line.map colourOf)).flatMap
            (fun ch => (ch.length - 1) :: ch.flatMap serColour)))) ∧
    (List.Chain' (fun x y => x ≠ y) (line.map alphaOf) →
      ∃ st2, alphaPass st line wd
        = (some st2, wd.put ((chunks 127 (line.map alphaOf)).flatMap
            (fun ch => (ch.length - 1) :: ch)))) ∧
    (chunks 127 (line.map colourOf)).length = (line.length + 127) / 128 ∧
    (chunks 127 (line.map alphaOf)).length = (line.length + 127) / 128 ∧
    2 ≤ (line.length + 127) / 128 ∧
    (chunks 127 (line.map colourOf)).flatten = line.map colourOf ∧
    (chunks 127 (line.map alphaOf)).flatten = line.map alphaOf ∧
    (∀ ch ∈ chunks 127 (line.map colourOf), 1 ≤ ch.length ∧ ch.length ≤ 128) ∧
    (∀ ch ∈ chunks 127 (line.map alphaOf), 1 ≤ ch.length ∧ ch.length ≤ 128) ∧
    (∀ i, (chunks 127 (line.map colourOf))[i]? =
      if i * 128 < line.length then some (((line.map colourOf).drop (i * 128)).take 128)
      else none) ∧
    (∀ i, (chunks 127 (line.map alphaOf))[i]? =
      if i * 128 < line.length then some (((line.map alphaOf).drop (i * 128)).take 128)
      else none) := by
  refine ⟨?_, ?_, ?_, ?_, by omega, chunks_flatten _ _, chunks_flatten _ _,
    chunks_length_le 127 _, chunks_length_le 127 _,
    fun i => by simpa using chunks_getElem 127 (line.map colourOf) i,
    fun i => by simpa using chunks_getElem 127 (line.map alphaOf) i⟩
  · intro hch
    obtain ⟨st1, h⟩ := colourPass_ideal st line wd hi
    refine ⟨st1, ?_⟩
    rw [h]
    unfold colourStream
    rw [stream_chunks serColour _ hch]
  · intro hch
    obtain ⟨st2, h⟩ := alphaPass_ideal st line wd hi
    refine ⟨st2, ?_⟩
    rw [h]
    unfold alphaStream
    rw [stream_chunks serAlpha _ hch]
    simp only [flatMap_serAlpha]
  · rw [chunks_count]; simp
  · rw [chunks_count]; simp

theorem range_colour_chain (n : Nat) (hn : n ≤ 256) :
    List.Chain' (fun x y => x ≠ y) ((List.range n).map colourOf) := by
  cases n with
  | zero => simp
  | succ k =>
    rw [List.chain'_map, List.chain'_range_succ]
    intro m hm h
    have := congrArg Prod.fst h
    simp only [colourOf_eq] at this
    omega

/-- C5, at the 130 pixels `0, 1, ..., 129` (colour component 0 grows): two literal
runs, of 128 and of 2 tuples. -/
theorem C5_distinct_literal_chunks_witness :
    ∃ st1, colourPass { seqSame := 0, count := 0, pixel := fun _ _ => 0 } (List.range 130)
        World.fresh
      = (some st1, World.fresh.put ((chunks 127 ((List.range 130).map colourOf)).flatMap
          (fun ch => (ch.length - 1) :: ch.flatMap serColour))) :=
  (C5_distinct_literal_chunks (List.range 130)
    { seqSame := 0, count := 0, pixel := fun _ _ => 0 } World.fresh (by simp)
    fresh_ideal).1 (range_colour_chain 130 (by decide))

/-- C6, refuted at `n = 127`: after 127 pixels of one colour and one of another, all
128 with alpha 0, the alpha group is written in the long form `128, 0, 128, 0`, not
as `[127 + 128, 0]`. -/
theorem C6_counterexample :
    bytesOf (alphaPass { seqSame := 0, count := 0, pixel := fun _ _ => 0 }
        (List.replicate 127 (packPixel 1 1 1 0) ++ [packPixel 2 2 2 0])
        World.fresh).2.log = [128, 0, 128, 0] ∧
      bytesOf (alphaPass { seqSame := 0, count := 0, pixel := fun _ _ => 0 }
        (List.replicate 127 (packPixel 1 1 1 0) ++ [packPixel 2 2 2 0])
        World.fresh).2.log ≠ [127 + 128, 0] := by
  have hal : alphaStream (List.replicate 127 (packPixel 1 1 1 0) ++ [packPixel 2 2 2 0])
      = [128, 0, 128, 0] := by
    unfold alphaStream
    have hm : (List.replicate 127 (packPixel 1 1 1 0) ++ [packPixel 2 2 2 0]).map alphaOf
        = List.replicate 128 0 := by
      rw [List.map_append, List.map_replicate,
        alphaOf_pack 1 1 1 0 (by decide) (by decide) (by decide) (by decide)]
      rfl
    rw [hm, stream_constant serAlpha _ 128 (by decide) (by decide),
      repHead_long 128 (by decide) (by decide)]
    rfl
  obtain ⟨st2, h⟩ := alphaPass_ideal { seqSame := 0, count := 0, pixel := fun _ _ => 0 }
    (List.replicate 127 (packPixel 1 1 1 0) ++ [packPixel 2 2 2 0]) World.fresh fresh_ideal
  have hb : bytesOf (alphaPass { seqSame := 0, count := 0, pixel := fun _ _ => 0 }
      (List.replicate 127 (packPixel 1 1 1 0) ++ [packPixel 2 2 2 0])
      World.fresh).2.log = [128, 0, 128, 0] := by
    rw [h, bytesOf_put, hal]
    rfl
  exact ⟨hb, by rw [hb]; decide⟩

/-- C6, amended.  For `2 ≤ n ≤ 127` and colour tuples `a ≠ b`, a scanline of `n`
pixels of colour `a` followed by one pixel of colour `b` gives the colour stream
`[n + 127, a0, a1, a2, 0, b0, b1, b2]`.  If all `n + 1` pixels have the alpha `v` and
`n ≤ 126`, the alpha stream is `[n + 128, v]`; for `n = 127` it is the long form
`[128, 0, 128, v]`. -/
theorem C6_run_then_single (n : Nat) (a b : Nat × Nat × Nat) (v : Nat) (line : List Nat)
    (st : PassState) (wd : World) (hn : 2 ≤ n) (hn2 : n ≤ 127) (hab : a ≠ b)
    (hi : wd.ideal) :
    (line.map colourOf = List.replicate n a ++ [b] →
      ∃ st1, colourPass st line wd
        = (some st1, wd.put [n + 127, a.1, a.2.1, a.2.2, 0, b.1, b.2.1, b.2.2])) ∧
    (line.map alphaOf = List.replicate (n + 1) v →
      ∃ st2, alphaPass st line wd
        = (some st2, wd.put (if n ≤ 126 then [n + 128, v] else [128, 0, 128, v]))) := by
  refine ⟨?_, ?_⟩
  · intro hc
    obtain ⟨st1, h⟩ := colourPass_ideal st line wd hi
    refine ⟨st1, ?_⟩
    rw [h]
    unfold colourStream
    rw [hc, stream_run_then_one serColour a b n hn (by omega) hab, repHead_short n (by omega)]
    rfl
  · intro hal
    obtain ⟨st2, h⟩ := alphaPass_ideal st line wd hi
    refine ⟨st2, ?_⟩
    rw [h]
    unfold alphaStream
    rw [hal, stream_constant serAlpha v (n + 1) (by omega) (by omega)]
    by_cases h126 : n ≤ 126
    · rw [if_pos h126, repHead_short (n + 1) (by omega)]
      rfl
    · have : n = 127 := by omega
      subst this
      rw [if_neg h126, repHead_long 128 (by decide) (by decide)]
      rfl

/-- C6 amended, at the 3-by-1 image of the specification: `129, 1, 1, 1, 0, 2, 2, 2`
for the colour group and `130, 0` for the alpha group. -/
theorem C6_run_then_single_witness :
    (∃ st1, colourPass { seqSame := 0, count := 0, pixel := fun _ _ => 0 }
        [packPixel 1 1 1 0, packPixel 1 1 1 0, packPixel 2 2 2 0] World.fresh
        = (some st1, World.fresh.put [129, 1, 1, 1, 0, 2, 2, 2])) ∧
    (∃ st2, alphaPass { seqSame := 0, count := 0, pixel := fun _ _ => 0 }
        [packPixel 1 1 1 0, packPixel 1 1 1 0, packPixel 2 2 2 0] World.fresh
        = (some st2, World.fresh.put [130, 0])) :=
  ⟨(C6_run_then_single 2 (1, 1, 1) (2, 2, 2) 0
      [packPixel 1 1 1 0, packPixel 1 1 1 0, packPixel 2 2 2 0]
      { seqSame := 0, count := 0, pixel := fun _ _ => 0 } World.fresh (by decide) (by decide)
      (by decide) fresh_ideal).1 (by decide),
    (C6_run_then_single 2 (1, 1, 1) (2, 2, 2) 0
      [packPixel 1 1 1 0, packPixel 1 1 1 0, packPixel 2 2 2 0]
      { seqSame := 0, count := 0, pixel := fun _ _ => 0 } World.fresh (by decide) (by decide)
      (by decide) fresh_ideal).2 (by decide)⟩

/-! ## The claims about `open` -/

theorem close_spec (self : SoftimageOutput) (w : World) :
    (self.close w).2.1 = { m_fd := none, m_filename := "", m_spec := self.m_spec } ∧
      (self.close w).2.2.log = w.log ++ (if self.m_fd.isSome then [Call.fclose] else []) ∧
      (self.close w).2.2.error = w.error ∧ (self.close w).2.2.fails = w.fails := by
  unfold SoftimageOutput.close SoftimageOutput.init fclose
  cases self.m_fd <;> simp

theorem newCalls_close (self : SoftimageOutput) (w : World) :
    newCalls w (self.close w).2.2 = if self.m_fd.isSome then [Call.fclose] else [] := by
  unfold newCalls
  rw [(close_spec self w).2.1]
  simp

/-- C7.  In `Create` mode, when the width or the height is below 1 or above 65535,
or the depth is above 1, `open` returns `false` with no stream held, and the world
after the call is the world after the initial `close ()` alone: the only call it can
have made is the `fclose` of a file that was open before, so no sink was opened and
no header, packet or pixel byte was written. -/
theorem C7_invalid_dimensions_write_nothing (self : SoftimageOutput) (name : String)
    (spec : ImageSpec) (magic : Nat) (w : World)
    (h : spec.width < 1 ∨ spec.height < 1 ∨ spec.width > 65535 ∨ spec.height > 65535 ∨
      spec.depth > 1) :
    (self.open_ name spec OpenMode.Create magic w).1 = false ∧
      (self.open_ name spec OpenMode.Create magic w).2.1.m_fd = none ∧
      (self.open_ name spec OpenMode.Create magic w).2.2 = (self.close w).2.2 ∧
      ∀ c ∈ newCalls w (self.open_ name spec OpenMode.Create magic w).2.2,
        c = Call.fclose := by
  have hfd := congrArg SoftimageOutput.m_fd (close_spec self w).1
  have key : (self.open_ name spec OpenMode.Create magic w).1 = false ∧
      (self.open_ name spec OpenMode.Create magic w).2.1.m_fd = none ∧
      (self.open_ name spec OpenMode.Create magic w).2.2 = (self.close w).2.2 := by
    unfold SoftimageOutput.open_
    simp only [ne_eq, not_true_eq_false, if_false]
    by_cases h1 : spec.width < 1 ∨ spec.height < 1
    · simp [h1, hfd]
    · by_cases h2 : spec.width > 65535 ∨ spec.height > 65535
      · simp [h1, h2, hfd]
      · have hd : spec.depth > 1 := by
          rcases h with h | h | h | h | h
          · exact absurd (Or.inl h) h1
          · exact absurd (Or.inr h) h1
          · exact absurd (Or.inl h) h2
          · exact absurd (Or.inr h) h2
          · exact h
        have hd1 : ¬ spec.depth < 1 := by omega
        simp [h1, h2, hd1, hd, hfd]
  refine ⟨key.1, key.2.1, key.2.2, ?_⟩
  rw [key.2.2, newCalls_close]
  intro c hc
  split at hc <;> simp_all

/-- C7, at a 0-by-5 image while another file is open: the call fails and only closes
the old file. -/
theorem C7_invalid_dimensions_write_nothing_witness :
    (SoftimageOutput.open_
        { m_fd := some { path := "old.pic" }, m_filename := "old.pic",
          m_spec := { width := 4, height := 4, depth := 1 } }
        "new.pic" { width := 0, height := 5, depth := 1 } OpenMode.Create 0 World.fresh).1
      = false :=
  (C7_invalid_dimensions_write_nothing
    { m_fd := some { path := "old.pic" }, m_filename := "old.pic",
      m_spec := { width := 4, height := 4, depth := 1 } }
    "new.pic" { width := 0, height := 5, depth := 1 } 0 World.fresh
    (Or.inl (by decide))).1

/-- C8, refuted at depth 0: a 1-by-1 image of depth 0 is accepted, `open` returns
`true`, and the depth it stores is 1. -/
theorem C8_counterexample :
    (SoftimageOutput.open_ { m_fd := none, m_filename := "", m_spec := { width := 0, height := 0, depth := 0 } }
        "image.pic" { width := 1, height := 1, depth := 0 } OpenMode.Create 0 World.fresh).1
      = true ∧
    (SoftimageOutput.open_ { m_fd := none, m_filename := "", m_spec := { width := 0, height := 0, depth := 0 } }
        "image.pic" { width := 1, height := 1, depth := 0 } OpenMode.Create 0
        World.fresh).2.1.m_spec.depth = 1 := by
  decide

/-- C8, amended.  `open` rejects every depth above 1, whatever the width and the
height, in every mode and every world.  A depth below 1 (0 or negative) is not
rejected: `open` returns the same result and makes the same external calls as for
depth 1, and on success the depth it has stored is 1.  The depth is clamped only
after the mode and dimension checks.  In mode `Create` with width and height both in
1..65535, everything `open` returns for a depth below 1 (result, object, world) is
what it returns for depth 1, so the stored depth is 1 whether `open` then succeeds or
fails (a failing `fopen` included).  In mode `Create` with a width or height out of
range, `open` fails and the stored spec is the given one, its depth not clamped.  In
any other mode `open` fails and leaves the object and the world untouched. -/
theorem C8_depth_above_one_rejected (self : SoftimageOutput) (name : String)
    (spec : ImageSpec) (mode : OpenMode) (magic : Nat) (w : World) :
    (spec.depth > 1 → (self.open_ name spec mode magic w).1 = false) ∧
    (spec.depth < 1 →
      (self.open_ name spec mode magic w).1
          = (self.open_ name { spec with depth := 1 } mode magic w).1 ∧
        (self.open_ name spec mode magic w).2.2
          = (self.open_ name { spec with depth := 1 } mode magic w).2.2 ∧
        ((self.open_ name spec mode magic w).1 = true →
          (self.open_ name spec mode magic w).2.1.m_spec.depth = 1)) ∧
    (spec.depth < 1 → mode = OpenMode.Create →
      1 ≤ spec.width → spec.width ≤ 65535 → 1 ≤ spec.height → spec.height ≤ 65535 →
      self.open_ name spec mode magic w
          = self.open_ name { spec with depth := 1 } mode magic w ∧
        (self.open_ name spec mode magic w).2.1.m_spec = { spec with depth := 1 } ∧
        (self.open_ name spec mode magic w).2.1.m_spec.depth = 1) ∧
    (mode = OpenMode.Create →
      (spec.width < 1 ∨ spec.height < 1 ∨ spec.width > 65535 ∨ spec.height > 65535) →
      (self.open_ name spec mode magic w).1 = false ∧
        (self.open_ name spec mode magic w).2.1.m_spec = spec ∧
        (self.open_ name spec mode magic w).2.1.m_spec.depth = spec.depth) ∧
    (mode ≠ OpenMode.Create → self.open_ name spec mode magic w = (false, self, w)) := by
  refine ⟨?_, ?_, ?_, ?_, ?_⟩
  · intro hd
    have hd1 : ¬ spec.depth < 1 := by omega
    unfold SoftimageOutput.open_
    by_cases hm : mode = OpenMode.Create
    · by_cases h1 : spec.width < 1 ∨ spec.height < 1
      · simp [hm, h1]
      · by_cases h2 : spec.width > 65535 ∨ spec.height > 65535
        · simp [hm, h1, h2]
        · simp [hm, h1, h2, hd1, hd]
    · simp [hm]
  · intro hd
    have hd1 : ¬ (1 : Int) < 1 := by omega
    have hd2 : ¬ spec.depth > 1 := by omega
    unfold SoftimageOutput.open_
    by_cases hm : mode = OpenMode.Create
    · by_cases h1 : spec.width < 1 ∨ spec.height < 1
      · simp [hm, h1]
      · by_cases h2 : spec.width > 65535 ∨ spec.height > 65535
        · simp [hm, h1, h2]
        · simp only [hm, ne_eq, not_true_eq_false, if_false, h1, h2, hd, if_true, hd1,
            gt_iff_lt, lt_self_iff_false]
          refine ⟨trivial, trivial, ?_⟩
          intro _
          split_ifs <;> simp_all
    · simp [hm]
  · intro hd hm hw1 hw2 hh1 hh2
    have hd1 : ¬ (1 : Int) < 1 := by omega
    have h1 : ¬ (spec.width < 1 ∨ spec.height < 1) := by omega
    have h2 : ¬ (spec.width > 65535 ∨ spec.height > 65535) := by omega
    unfold SoftimageOutput.open_
    simp only [hm, ne_eq, not_true_eq_false, if_false, h1, h2, hd, if_true, hd1,
      gt_iff_lt, lt_self_iff_false]
    refine ⟨trivial, ?_, ?_⟩ <;> split_ifs <;> simp only [(close_spec _ _).1]
  · intro hm hbad
    unfold SoftimageOutput.open_
    by_cases h1 : spec.width < 1 ∨ spec.height < 1
    · simp [hm, h1]
    · have h2 : spec.width > 65535 ∨ spec.height > 65535 := by omega
      simp [hm, h1, h2]
  · intro hm
    unfold SoftimageOutput.open_
    simp [hm]

/-- C8 amended, at depth 2 (rejected), at depth -3 (treated as depth 1 once the
dimensions are accepted) and at a 0-by-5 image of depth 0 (rejected for its width,
stored depth still 0). -/
theorem C8_depth_above_one_rejected_witness :
    (SoftimageOutput.open_ { m_fd := none, m_filename := "", m_spec := { width := 0, height := 0, depth := 0 } }
        "image.pic" { width := 1, height := 1, depth := 2 } OpenMode.Create 0 World.fresh).1
      = false ∧
    (SoftimageOutput.open_ { m_fd := none, m_filename := "", m_spec := { width := 0, height := 0, depth := 0 } }
        "image.pic" { width := 1, height := 1, depth := -3 } OpenMode.Create 0
        World.fresh).2.1.m_spec.depth = 1 ∧
    (SoftimageOutput.open_ { m_fd := none, m_filename := "", m_spec := { width := 0, height := 0, depth := 0 } }
        "image.pic" { width := 0, height := 5, depth := 0 } OpenMode.Create 0
        World.fresh).2.1.m_spec.depth = 0 :=
  ⟨(C8_depth_above_one_rejected
      { m_fd := none, m_filename := "", m_spec := { width := 0, height := 0, depth := 0 } }
      "image.pic" { width := 1, height := 1, depth := 2 } OpenMode.Create 0 World.fresh).1
      (by decide),
    ((C8_depth_above_one_rejected
      { m_fd := none, m_filename := "", m_spec := { width := 0, height := 0, depth := 0 } }
      "image.pic" { width := 1, height := 1, depth := -3 } OpenMode.Create 0 World.fresh).2.2.1
      (by decide) rfl (by decide) (by decide) (by decide) (by decide)).2.2,
    ((C8_depth_above_one_rejected
      { m_fd := none, m_filename := "", m_spec := { width := 0, height := 0, depth := 0 } }
      "image.pic" { width := 0, height := 5, depth := 0 } OpenMode.Create 0 World.fresh).2.2.2.1
      rfl (Or.inl (by decide))).2.2⟩

theorem fopen_log (name : String) (w : World) :
    (fopen name w).2.log = w.log ++ [Call.fopen name (fopen name w).1.isSome] := by
  unfold fopen
  cases w.nextOk <;> simp

theorem write_header_log (h : PicFileHeader) (w : World) :
    (write_header h w).2.log = w.log ++ [Call.header h (write_header h w).1] := rfl

theorem fwritePacket_log (q : ChannelPacket) (w : World) :
    (fwritePacket q w).2.log = w.log ++ [Call.packet q (fwritePacket q w).1] := rfl

/-- C9, refuted twice.  After a failure for invalid dimensions the stored filename is
the requested name, not the empty string; and after a failure for an unsupported
mode a file that was open is still held open. -/
theorem C9_counterexample :
    ((SoftimageOutput.open_ { m_fd := none, m_filename := "", m_spec := { width := 0, height := 0, depth := 0 } }
        "new.pic" { width := 0, height := 5, depth := 1 } OpenMode.Create 0 World.fresh).1
      = false ∧
    (SoftimageOutput.open_ { m_fd := none, m_filename := "", m_spec := { width := 0, height := 0, depth := 0 } }
        "new.pic" { width := 0, height := 5, depth := 1 } OpenMode.Create 0
        World.fresh).2.1.m_filename = "new.pic") ∧
    ((SoftimageOutput.open_
        { m_fd := some { path := "old.pic" }, m_filename := "old.pic",
          m_spec := { width := 4, height := 4, depth := 1 } }
        "new.pic" { width := 2, height := 2, depth := 1 } OpenMode.AppendSubimage 0
        World.fresh).1 = false ∧
    (SoftimageOutput.open_
        { m_fd := some { path := "old.pic" }, m_filename := "old.pic",
          m_spec := { width := 4, height := 4, depth := 1 } }
        "new.pic" { width := 2, height := 2, depth := 1 } OpenMode.AppendSubimage 0
        World.fresh).2.1.m_fd = some { path := "old.pic" }) := by
  decide

/-- C9, amended.  When `open` returns `false`: in a mode other than `Create` the
object and the world are untouched (a file that was open stays open); in `Create`
mode no stream is held (`m_fd` is null), and the stored filename is empty if the
call had opened the sink (header or packet write failure: the sink has been closed
again and `init ()` has run), and is the requested name otherwise (invalid
dimensions, or the sink could not be opened). -/
theorem C9_state_after_failed_open (self : SoftimageOutput) (name : String)
    (spec : ImageSpec) (mode : OpenMode) (magic : Nat) (w : World)
    (hfail : (self.open_ name spec mode magic w).1 = false) :
    (mode ≠ OpenMode.Create →
      (self.open_ name spec mode magic w).2.1 = self ∧
        (self.open_ name spec mode magic w).2.2 = w) ∧
    (mode = OpenMode.Create →
      (self.open_ name spec mode magic w).2.1.m_fd = none ∧
        (Call.fopen name true ∈ newCalls w (self.open_ name spec mode magic w).2.2 →
          (self.open_ name spec mode magic w).2.1.m_filename = "" ∧
            (newCalls w (self.open_ name spec mode magic w).2.2).getLast? = some Call.fclose) ∧
        (Call.fopen name true ∉ newCalls w (self.open_ name spec mode magic w).2.2 →
          (self.open_ name spec mode magic w).2.1.m_filename = name)) := by
  refine ⟨?_, ?_⟩
  · intro hm
    simp [SoftimageOutput.open_, hm]
  · intro hm
    subst hm
    obtain ⟨hcl, hlog, -, -⟩ := close_spec self w
    have hnew : ∀ (x : World) (ext : List Call), x.log = (self.close w).2.2.log ++ ext →
        newCalls w x = (if self.m_fd.isSome then [Call.fclose] else []) ++ ext := by
      intro x ext hx
      unfold newCalls
      rw [hx, hlog, List.append_assoc, List.drop_left]
    unfold SoftimageOutput.open_ at hfail ⊢
    generalize self.close w = c at hcl hlog hnew hfail ⊢
    obtain ⟨b, e, w0⟩ := c
    simp only at hcl hlog hnew
    subst hcl
    simp only [ne_eq, not_true_eq_false, if_false] at hfail ⊢
    by_cases h1 : spec.width < 1 ∨ spec.height < 1
    · simp only [h1, if_true]
      rw [hnew w0 [] (by simp)]
      cases self.m_fd <;> simp
    · by_cases h2 : spec.width > 65535 ∨ spec.height > 65535
      · simp only [h1, h2, if_true, if_false]
        rw [hnew w0 [] (by simp)]
        cases self.m_fd <;> simp
      · simp only [h1, h2, if_false] at hfail ⊢
        have hname : ∀ (d : Prop) [Decidable d] (x y : ImageSpec),
            (if d then ({ m_fd := none, m_filename := name, m_spec := x } : SoftimageOutput)
              else { m_fd := none, m_filename := name, m_spec := y }).m_filename = name := by
          intro d _ x y
          split <;> rfl
        by_cases h3 : (if spec.depth < 1 then
            ({ m_fd := none, m_filename := name,
               m_spec := { width := spec.width, height := spec.height, depth := 1 } }
              : SoftimageOutput)
            else { m_fd := none, m_filename := name, m_spec := spec }).m_spec.depth > 1
        · simp only [h3, if_true]
          rw [hnew w0 [] (by simp)]
          refine ⟨?_, ?_, ?_⟩
          · split <;> rfl
          · cases self.m_fd <;> simp
          · intro _
            exact hname _ _ _
        · simp only [h3, if_false, hname] at hfail ⊢
          generalize (if spec.depth < 1 then
            ({ m_fd := none, m_filename := name,
               m_spec := { width := spec.width, height := spec.height, depth := 1 } }
              : SoftimageOutput)
            else { m_fd := none, m_filename := name, m_spec := spec }).m_spec = sp at hfail ⊢
          generalize picHeader magic sp = hd at hfail ⊢
          have e1 := fopen_log name w0
          generalize fopen name w0 = fo at e1 hfail ⊢
          obtain ⟨fd, w1⟩ := fo
          have e2 := write_header_log hd w1
          generalize write_header hd w1 = r2 at e2 hfail ⊢
          obtain ⟨ok2, w2⟩ := r2
          have e3 := fwritePacket_log { chained := 1, size := 8, type := 2, channelCode := 224 } w2
          generalize fwritePacket { chained := 1, size := 8, type := 2, channelCode := 224 } w2
            = r3 at e3 hfail ⊢
          obtain ⟨ok3, w3⟩ := r3
          have e4 := fwritePacket_log { chained := 0, size := 8, type := 2, channelCode := 16 } w3
          generalize fwritePacket { chained := 0, size := 8, type := 2, channelCode := 16 } w3
            = r4 at e4 hfail ⊢
          obtain ⟨ok4, w4⟩ := r4
          simp only at e1 e2 e3 e4 hfail ⊢
          cases fd with
          | none =>
            simp only [Option.isNone_none, if_true, Option.isSome_none] at e1 ⊢
            rw [hnew w1 _ e1]
            cases self.m_fd <;> simp
          | some f =>
            simp only [Option.isSome_some] at e1
            have hclose : ∀ (wk : World) (ext : List Call), wk.log = w0.log ++ ext →
                Call.fopen name true ∈ ext →
                (({ m_fd := some f, m_filename := name, m_spec := sp } :
                    SoftimageOutput).close wk).2.1.m_fd = none ∧
                (Call.fopen name true ∈ newCalls w
                    (({ m_fd := some f, m_filename := name, m_spec := sp } :
                      SoftimageOutput).close wk).2.2 →
                  (({ m_fd := some f, m_filename := name, m_spec := sp } :
                      SoftimageOutput).close wk).2.1.m_filename = "" ∧
                  (newCalls w (({ m_fd := some f, m_filename := name, m_spec := sp } :
                      SoftimageOutput).close wk).2.2).getLast? = some Call.fclose) ∧
                (Call.fopen name true ∉ newCalls w
                    (({ m_fd := some f, m_filename := name, m_spec := sp } :
                      SoftimageOutput).close wk).2.2 →
                  (({ m_fd := some f, m_filename := name, m_spec := sp } :
                      SoftimageOutput).close wk).2.1.m_filename = name) := by
              intro wk ext hwk hmem
              obtain ⟨c1, c2, -, -⟩ := close_spec
                ({ m_fd := some f, m_filename := name, m_spec := sp } : SoftimageOutput) wk
              have hn := hnew _ (ext ++ [Call.fclose]) (by
                rw [c2, hwk]; simp)
              rw [hn, c1]
              refine ⟨rfl, fun _ => ⟨rfl, ?_⟩, fun hne => ?_⟩
              · rw [← List.append_assoc, List.getLast?_append]
                simp
              · exact absurd (List.mem_append_right _ (List.mem_append_left _ hmem)) hne
            simp only [Option.isNone_some, Bool.false_eq_true, if_false] at hfail ⊢
            cases ok2 with
            | false =>
              simp only [Bool.not_false, if_true]
              exact hclose w2 [Call.fopen name true, Call.header hd false]
                (by rw [e2, e1]; simp) (by simp)
            | true =>
              simp only [Bool.not_true, Bool.false_eq_true, if_false] at hfail ⊢
              cases ok3 with
              | false =>
                simp only [Bool.not_false, if_true]
                exact hclose w3 [Call.fopen name true, Call.header hd true,
                  Call.packet { chained := 1, size := 8, type := 2, channelCode := 224 } false]
                  (by rw [e3, e2, e1]; simp) (by simp)
              | true =>
                simp only [Bool.not_true, Bool.false_eq_true, if_false] at hfail ⊢
                cases ok4 with
                | false =>
                  simp only [Bool.not_false, if_true]
                  exact hclose w4 [Call.fopen name true, Call.header hd true,
                    Call.packet { chained := 1, size := 8, type := 2, channelCode := 224 } true,
                    Call.packet { chained := 0, size := 8, type := 2, channelCode := 16 } false]
                    (by rw [e4, e3, e2, e1]; simp) (by simp)
                | true =>
                  simp at hfail

/-- C9 amended, at a header write failure: the sink opened by the call has been
closed again and the object is back in the state `init ()` establishes. -/
theorem C9_state_after_failed_open_witness :
    (SoftimageOutput.open_ { m_fd := none, m_filename := "", m_spec := { width := 0, height := 0, depth := 0 } }
        "new.pic" { width := 2, height := 2, depth := 1 } OpenMode.Create 0
        (World.failingAfter 1)).2.1.m_fd = none ∧
    (Call.fopen "new.pic" true ∈ newCalls (World.failingAfter 1)
        (SoftimageOutput.open_ { m_fd := none, m_filename := "", m_spec := { width := 0, height := 0, depth := 0 } }
          "new.pic" { width := 2, height := 2, depth := 1 } OpenMode.Create 0
          (World.failingAfter 1)).2.2 →
      (SoftimageOutput.open_ { m_fd := none, m_filename := "", m_spec := { width := 0, height := 0, depth := 0 } }
          "new.pic" { width := 2, height := 2, depth := 1 } OpenMode.Create 0
          (World.failingAfter 1)).2.1.m_filename = "" ∧
        (newCalls (World.failingAfter 1)
          (SoftimageOutput.open_ { m_fd := none, m_filename := "", m_spec := { width := 0, height := 0, depth := 0 } }
            "new.pic" { width := 2, height := 2, depth := 1 } OpenMode.Create 0
            (World.failingAfter 1)).2.2).getLast? = some Call.fclose) :=
  ⟨((C9_state_after_failed_open
      { m_fd := none, m_filename := "", m_spec := { width := 0, height := 0, depth := 0 } }
      "new.pic" { width := 2, height := 2, depth := 1 } OpenMode.Create 0
      (World.failingAfter 1) (by decide)).2 rfl).1,
    ((C9_state_after_failed_open
      { m_fd := none, m_filename := "", m_spec := { width := 0, height := 0, depth := 0 } }
      "new.pic" { width := 2, height := 2, depth := 1 } OpenMode.Create 0
      (World.failingAfter 1) (by decide)).2 rfl).2.1⟩

/-- C10.  In a world where nothing fails, `write_scanline` appends what its colour
pass appends followed by what its alpha pass appends, and nothing else.  The bytes of
the colour pass depend only on bytes 0-2 of the pixels, those of the alpha pass only
on byte 3: neither depends on the other components, on the contents of the locals
on entry (for the alpha pass, what the colour pass left in them), or on what was
written before. -/
theorem C10_passes_independent (pixel0 : Buffer) (seqSame0 : Nat) (st st' : PassState)
    (line line' : List Nat) (wd wd' : World) (hi : wd.ideal) (hi' : wd'.ideal) :
    (∃ st1 st2 cs as,
      colourPass { seqSame := seqSame0, count := 0, pixel := pixel0 } line wd
        = (some st1, wd.put cs) ∧
      alphaPass st1 line (wd.put cs) = (some st2, wd.put (cs ++ as)) ∧
      write_scanline pixel0 seqSame0 line wd = (true, wd.put (cs ++ as))) ∧
    (line.map colourOf = line'.map colourOf →
      ∃ cs, (colourPass st line wd).2 = wd.put cs ∧
        (colourPass st' line' wd').2 = wd'.put cs) ∧
    (line.map alphaOf = line'.map alphaOf →
      ∃ as, (alphaPass st line wd).2 = wd.put as ∧
        (alphaPass st' line' wd').2 = wd'.put as) := by
  refine ⟨?_, ?_, ?_⟩
  · obtain ⟨st1, h1⟩ := colourPass_ideal { seqSame := seqSame0, count := 0, pixel := pixel0 }
      line wd hi
    obtain ⟨st2, h2⟩ := alphaPass_ideal st1 line (wd.put (colourStream line)) (ideal_put hi _)
    refine ⟨st1, st2, colourStream line, alphaStream line, h1, ?_, ?_⟩
    · rw [h2, put_put]
    · exact write_scanline_ideal pixel0 seqSame0 line wd hi
  · intro hc
    obtain ⟨s1, h1⟩ := colourPass_ideal st line wd hi
    obtain ⟨s2, h2⟩ := colourPass_ideal st' line' wd' hi'
    refine ⟨colourStream line, by rw [h1], ?_⟩
    rw [h2]
    unfold colourStream
    rw [hc]
  · intro ha
    obtain ⟨s1, h1⟩ := alphaPass_ideal st line wd hi
    obtain ⟨s2, h2⟩ := alphaPass_ideal st' line' wd' hi'
    refine ⟨alphaStream line, by rw [h1], ?_⟩
    rw [h2]
    unfold alphaStream
    rw [ha]

/-- C10, at two scanlines with the same alpha bytes and different colours: the alpha
passes, started from different locals, append the same bytes. -/
theorem C10_passes_independent_witness :
    ∃ as,
      (alphaPass { seqSame := 0, count := 0, pixel := fun _ _ => 0 }
        [packPixel 1 1 1 9, packPixel 1 1 1 9] World.fresh).2 = World.fresh.put as ∧
      (alphaPass { seqSame := 7, count := 3, pixel := fun _ _ => 5 }
        [packPixel 1 2 3 9, packPixel 4 5 6 9] World.fresh).2 = World.fresh.put as :=
  (C10_passes_independent (fun _ _ => 0) 0 { seqSame := 0, count := 0, pixel := fun _ _ => 0 }
    { seqSame := 7, count := 3, pixel := fun _ _ => 5 }
    [packPixel 1 1 1 9, packPixel 1 1 1 9] [packPixel 1 2 3 9, packPixel 4 5 6 9]
    World.fresh World.fresh fresh_ideal fresh_ideal).2.2 (by simp [alphaOf_eq, packPixel])

/-! ## More claims about `open` -/

/-- The calls `open` makes in `Create` mode after the initial `close ()`, case by case. -/
theorem open_create_calls (self : SoftimageOutput) (name : String) (spec : ImageSpec)
    (magic : Nat) (w : World) :
    ∃ ext, newCalls w (self.open_ name spec OpenMode.Create magic w).2.2
        = (if self.m_fd.isSome then [Call.fclose] else []) ++ ext ∧
      (((self.open_ name spec OpenMode.Create magic w).1 = false ∧ ext = []) ∨
       ((1 ≤ spec.width ∧ spec.width ≤ 65535 ∧ 1 ≤ spec.height ∧ spec.height ≤ 65535 ∧
          spec.depth ≤ 1) ∧
        (((self.open_ name spec OpenMode.Create magic w).1 = false ∧
            ext = [Call.fopen name false]) ∨
         ((self.open_ name spec OpenMode.Create magic w).1 = false ∧
            ext = [Call.fopen name true, Call.header (picHeader magic (clampDepth spec)) false,
              Call.fclose]) ∨
         ((self.open_ name spec OpenMode.Create magic w).1 = false ∧
            ext = [Call.fopen name true, Call.header (picHeader magic (clampDepth spec)) true,
              Call.packet rgbPacket false, Call.fclose]) ∨
         ((self.open_ name spec OpenMode.Create magic w).1 = false ∧
            ext = [Call.fopen name true, Call.header (picHeader magic (clampDepth spec)) true,
              Call.packet rgbPacket true, Call.packet alphaPacket false, Call.fclose]) ∨
         ((self.open_ name spec OpenMode.Create magic w).1 = true ∧
            (self.open_ name spec OpenMode.Create magic w).2.1
              = { m_fd := some { path := name }, m_filename := name,
                  m_spec := clampDepth spec } ∧
            ext = [Call.fopen name true, Call.header (picHeader magic (clampDepth spec)) true,
              Call.packet rgbPacket true, Call.packet alphaPacket true])))) := by
  obtain ⟨hcl, hlog, -, -⟩ := close_spec self w
  have hnew : ∀ (x : World) (ext : List Call), x.log = (self.close w).2.2.log ++ ext →
      newCalls w x = (if self.m_fd.isSome then [Call.fclose] else []) ++ ext := by
    intro x ext hx
    unfold newCalls
    rw [hx, hlog, List.append_assoc, List.drop_left]
  unfold SoftimageOutput.open_
  generalize self.close w = c at hcl hlog hnew ⊢
  obtain ⟨b, e, w0⟩ := c
  simp only at hcl hlog hnew
  subst hcl
  simp only [ne_eq, not_true_eq_false, if_false]
  by_cases h1 : spec.width < 1 ∨ spec.height < 1
  · simp only [h1, if_true]
    exact ⟨[], hnew w0 [] (by simp), Or.inl (by simp)⟩
  · by_cases h2 : spec.width > 65535 ∨ spec.height > 65535
    · simp only [h1, h2, if_true, if_false]
      exact ⟨[], hnew w0 [] (by simp), Or.inl (by simp)⟩
    · simp only [h1, h2, if_false]
      have hcd : (if spec.depth < 1 then
            ({ m_fd := none, m_filename := name,
               m_spec := { width := spec.width, height := spec.height, depth := 1 } }
              : SoftimageOutput)
            else { m_fd := none, m_filename := name, m_spec := spec })
          = { m_fd := none, m_filename := name, m_spec := clampDepth spec } := by
        unfold clampDepth
        split <;> rfl
      rw [hcd]
      simp only
      by_cases h3 : (clampDepth spec).depth > 1
      · simp only [h3, if_true]
        exact ⟨[], hnew w0 [] (by simp), Or.inl (by simp)⟩
      · have hdims : 1 ≤ spec.width ∧ spec.width ≤ 65535 ∧ 1 ≤ spec.height ∧
            spec.height ≤ 65535 ∧ spec.depth ≤ 1 := by
          have : spec.depth ≤ 1 := by
            unfold clampDepth at h3
            split at h3 <;> simp at h3 <;> omega
          omega
        simp only [h3, if_false]
        have e1 := fopen_log name w0
        have e1' : (fopen name w0).1 = none ∨ (fopen name w0).1 = some { path := name } := by
          unfold fopen
          cases w0.nextOk <;> simp
        generalize fopen name w0 = fo at e1 e1' ⊢
        obtain ⟨fd, w1⟩ := fo
        have e2 := write_header_log (picHeader magic (clampDepth spec)) w1
        generalize write_header (picHeader magic (clampDepth spec)) w1 = r2 at e2 ⊢
        obtain ⟨ok2, w2⟩ := r2
        have e3 := fwritePacket_log { chained := 1, size := 8, type := 2, channelCode := 224 } w2
        generalize fwritePacket { chained := 1, size := 8, type := 2, channelCode := 224 } w2
          = r3 at e3 ⊢
        obtain ⟨ok3, w3⟩ := r3
        have e4 := fwritePacket_log { chained := 0, size := 8, type := 2, channelCode := 16 } w3
        generalize fwritePacket { chained := 0, size := 8, type := 2, channelCode := 16 } w3
          = r4 at e4 ⊢
        obtain ⟨ok4, w4⟩ := r4
        simp only at e1 e1' e2 e3 e4 ⊢
        rcases e1' with rfl | rfl
        · simp only [Option.isNone_none, if_true, Option.isSome_none] at e1 ⊢
          exact ⟨_, hnew w1 _ e1, Or.inr ⟨hdims, Or.inl (by simp)⟩⟩
        · simp only [Option.isSome_some] at e1
          have hclose : ∀ (wk : World) (ext : List Call), wk.log = w0.log ++ ext →
              newCalls w ((SoftimageOutput.mk (some { path := name }) name
                  (clampDepth spec)).close wk).2.2
                = (if self.m_fd.isSome then [Call.fclose] else []) ++ (ext ++ [Call.fclose]) := by
            intro wk ext hwk
            obtain ⟨-, c2, -, -⟩ := close_spec
              (SoftimageOutput.mk (some { path := name }) name (clampDepth spec)) wk
            exact hnew _ (ext ++ [Call.fclose]) (by rw [c2, hwk]; simp)
          simp only [Option.isNone_some, Bool.false_eq_true, if_false]
          cases ok2 with
          | false =>
            simp only [Bool.not_false, if_true]
            exact ⟨_, hclose w2 [Call.fopen name true,
                Call.header (picHeader magic (clampDepth spec)) false]
                (by rw [e2, e1]; simp),
              Or.inr ⟨hdims, Or.inr (Or.inl (by simp))⟩⟩
          | true =>
            simp only [Bool.not_true, Bool.false_eq_true, if_false]
            cases ok3 with
            | false =>
              simp only [Bool.not_false, if_true]
              exact ⟨_, hclose w3 [Call.fopen name true,
                  Call.header (picHeader magic (clampDepth spec)) true,
                  Call.packet rgbPacket false]
                  (by rw [e3, e2, e1]; simp [rgbPacket]),
                Or.inr ⟨hdims, Or.inr (Or.inr (Or.inl (by simp)))⟩⟩
            | true =>
              simp only [Bool.not_true, Bool.false_eq_true, if_false]
              cases ok4 with
              | false =>
                simp only [Bool.not_false, if_true]
                exact ⟨_, hclose w4 [Call.fopen name true,
                    Call.header (picHeader magic (clampDepth spec)) true,
                    Call.packet rgbPacket true, Call.packet alphaPacket false]
                    (by rw [e4, e3, e2, e1]; simp [rgbPacket, alphaPacket]),
                  Or.inr ⟨hdims, Or.inr (Or.inr (Or.inr (Or.inl (by simp))))⟩⟩
              | true =>
                simp only [Bool.not_true, Bool.false_eq_true, if_false]
                exact ⟨_, hnew w4 [Call.fopen name true,
                    Call.header (picHeader magic (clampDepth spec)) true,
                    Call.packet rgbPacket true, Call.packet alphaPacket true]
                    (by rw [e4, e3, e2, e1]; simp [rgbPacket, alphaPacket]),
                  Or.inr ⟨hdims, Or.inr (Or.inr (Or.inr (Or.inr (by simp))))⟩⟩

theorem open_mode_of_success (self : SoftimageOutput) (name : String) (spec : ImageSpec)
    (mode : OpenMode) (magic : Nat) (w : World)
    (hok : (self.open_ name spec mode magic w).1 = true) : mode = OpenMode.Create := by
  by_contra hm
  simp [SoftimageOutput.open_, hm] at hok

theorem u16_of_short (x : Int) (h1 : 1 ≤ x) (h2 : x ≤ 65535) :
    ((toU16 (toShort x) : Nat) : Int) = x := by
  unfold toU16 toShort
  rw [Int.toNat_of_nonneg (Int.emod_nonneg _ (by norm_num))]
  omega

theorem clampDepth_dims (spec : ImageSpec) :
    (clampDepth spec).width = spec.width ∧ (clampDepth spec).height = spec.height := by
  unfold clampDepth
  split <;> exact ⟨rfl, rfl⟩

/-- C11.  Whenever `open` returns `true`, the calls it has made are, after the
`fclose` of a file that was open before, exactly: the `fopen` of the sink, the
header, the RGB packet (chained 1, size 8, type 2, channel code 0xE0) and the alpha
packet (chained 0, size 8, type 2, channel code 0x10), in this order, each of them
successful; no byte of pixel data is written by `open`. -/
theorem C11_two_packets_after_header (self : SoftimageOutput) (name : String)
    (spec : ImageSpec) (mode : OpenMode) (magic : Nat) (w : World)
    (hok : (self.open_ name spec mode magic w).1 = true) :
    newCalls w (self.open_ name spec mode magic w).2.2
      = (if self.m_fd.isSome then [Call.fclose] else []) ++
        [Call.fopen name true,
          Call.header (picHeader magic (self.open_ name spec mode magic w).2.1.m_spec) true,
          Call.packet { chained := 1, size := 8, type := 2, channelCode := 0xE0 } true,
          Call.packet { chained := 0, size := 8, type := 2, channelCode := 0x10 } true] := by
  have hm := open_mode_of_success self name spec mode magic w hok
  subst hm
  obtain ⟨ext, hext, hcase⟩ := open_create_calls self name spec magic w
  rcases hcase with ⟨hf, -⟩ | ⟨-, ⟨hf, -⟩ | ⟨hf, -⟩ | ⟨hf, -⟩ | ⟨hf, -⟩ | ⟨-, hst, he⟩⟩
  · rw [hf] at hok; exact absurd hok (by decide)
  · rw [hf] at hok; exact absurd hok (by decide)
  · rw [hf] at hok; exact absurd hok (by decide)
  · rw [hf] at hok; exact absurd hok (by decide)
  · rw [hf] at hok; exact absurd hok (by decide)
  · rw [hext, he, hst]
    rfl

/-- C11, at a fresh object and a world in which nothing fails. -/
theorem C11_two_packets_after_header_witness :
    newCalls World.fresh
        (SoftimageOutput.open_ { m_fd := none, m_filename := "", m_spec := { width := 0, height := 0, depth := 0 } }
          "image.pic" { width := 2, height := 2, depth := 1 } OpenMode.Create 0 World.fresh).2.2
      = (if (none : Option FILE).isSome then [Call.fclose] else []) ++
        [Call.fopen "image.pic" true,
          Call.header (picHeader 0
            (SoftimageOutput.open_ { m_fd := none, m_filename := "", m_spec := { width := 0, height := 0, depth := 0 } }
              "image.pic" { width := 2, height := 2, depth := 1 } OpenMode.Create 0
              World.fresh).2.1.m_spec) true,
          Call.packet { chained := 1, size := 8, type := 2, channelCode := 0xE0 } true,
          Call.packet { chained := 0, size := 8, type := 2, channelCode := 0x10 } true] :=
  C11_two_packets_after_header
    { m_fd := none, m_filename := "", m_spec := { width := 0, height := 0, depth := 0 } }
    "image.pic" { width := 2, height := 2, depth := 1 } OpenMode.Create 0 World.fresh
    (by decide)

/-- C13.  For a width and a height in 1..65535, every header record `open` hands to
the header writer has the id `PICT`, fields 3, an all-zero comment and padding, and
width and height fields whose 16-bit unsigned values are the requested width and
height (the cast through `short` loses nothing); and a successful `open` has handed
over such a record. -/
theorem C13_header_record (self : SoftimageOutput) (name : String) (spec : ImageSpec)
    (mode : OpenMode) (magic : Nat) (w : World)
    (hw1 : 1 ≤ spec.width) (hw2 : spec.width ≤ 65535)
    (hh1 : 1 ≤ spec.height) (hh2 : spec.height ≤ 65535) :
    (∀ h ok, Call.header h ok ∈ newCalls w (self.open_ name spec mode magic w).2.2 →
      h.id = ['P', 'I', 'C', 'T'] ∧ h.fields = 3 ∧ (∀ b ∈ h.comment, b = 0) ∧ h.padding = 0 ∧
        (h.width : Int) = spec.width ∧ (h.height : Int) = spec.height ∧
        h.width < 65536 ∧ h.height < 65536) ∧
    ((self.open_ name spec mode magic w).1 = true →
      ∃ h, Call.header h true ∈ newCalls w (self.open_ name spec mode magic w).2.2) := by
  have hfields : ∀ h : PicFileHeader, h = picHeader magic (clampDepth spec) →
      h.id = ['P', 'I', 'C', 'T'] ∧ h.fields = 3 ∧ (∀ b ∈ h.comment, b = 0) ∧ h.padding = 0 ∧
        (h.width : Int) = spec.width ∧ (h.height : Int) = spec.height ∧
        h.width < 65536 ∧ h.height < 65536 := by
    intro h hh
    subst hh
    have e1 := u16_of_short spec.width hw1 hw2
    have e2 := u16_of_short spec.height hh1 hh2
    obtain ⟨d1, d2⟩ := clampDepth_dims spec
    refine ⟨rfl, rfl, ?_, rfl, ?_, ?_, ?_, ?_⟩
    · intro b hb
      simp only [picHeader, List.mem_replicate] at hb
      exact hb.2
    · simp only [picHeader, d1]; exact e1
    · simp only [picHeader, d2]; exact e2
    · simp only [picHeader, d1]; omega
    · simp only [picHeader, d2]; omega
  by_cases hm : mode = OpenMode.Create
  · subst hm
    obtain ⟨ext, hext, hcase⟩ := open_create_calls self name spec magic w
    have hpre : ∀ h ok, Call.header h ok ∈
        (if self.m_fd.isSome then [Call.fclose] else []) ++ ext → Call.header h ok ∈ ext := by
      intro h ok hmem
      rcases List.mem_append.mp hmem with h1 | h1
      · split at h1 <;> simp at h1
      · exact h1
    refine ⟨?_, ?_⟩
    · intro h ok hmem
      rw [hext] at hmem
      have hmem' := hpre h ok hmem
      apply hfields
      rcases hcase with ⟨-, he⟩ | ⟨-, ⟨-, he⟩ | ⟨-, he⟩ | ⟨-, he⟩ | ⟨-, he⟩ | ⟨-, -, he⟩⟩ <;>
        rw [he] at hmem' <;> simp at hmem' <;> exact hmem'.1
    · intro hok
      rcases hcase with ⟨hf, -⟩ | ⟨-, ⟨hf, -⟩ | ⟨hf, -⟩ | ⟨hf, -⟩ | ⟨hf, -⟩ | ⟨-, -, he⟩⟩
      · rw [hf] at hok; exact absurd hok (by decide)
      · rw [hf] at hok; exact absurd hok (by decide)
      · rw [hf] at hok; exact absurd hok (by decide)
      · rw [hf] at hok; exact absurd hok (by decide)
      · rw [hf] at hok; exact absurd hok (by decide)
      · exact ⟨picHeader magic (clampDepth spec), by rw [hext, he]; simp⟩
  · have e : (self.open_ name spec mode magic w) = (false, self, w) := by
      simp [SoftimageOutput.open_, hm]
    rw [e]
    refine ⟨?_, by simp⟩
    intro h ok hmem
    simp [newCalls] at hmem

/-- C13, at a 40000-by-65535 image: both values are above 32767 and are stored
unchanged. -/
theorem C13_header_record_witness :
    ∃ h, Call.header h true ∈ newCalls World.fresh
      (SoftimageOutput.open_ { m_fd := none, m_filename := "", m_spec := { width := 0, height := 0, depth := 0 } }
        "image.pic" { width := 40000, height := 65535, depth := 1 } OpenMode.Create 0
        World.fresh).2.2 :=
  (C13_header_record
    { m_fd := none, m_filename := "", m_spec := { width := 0, height := 0, depth := 0 } }
    "image.pic" { width := 40000, height := 65535, depth := 1 } OpenMode.Create 0 World.fresh
    (by decide) (by decide) (by decide) (by decide)).2 (by decide)

/-! ## Transitions, tuple widths, run shapes -/

theorem feed_literal_then_repeat {α : Type} [DecidableEq α] (xs : List α) (v : α) (n : Nat)
    (hch : List.Chain' (fun a b => a ≠ b) xs) (hv : ∀ t ∈ xs.getLast?, t ≠ v)
    (h1 : 1 ≤ xs.length) (h126 : xs.length ≤ 126) (hn : 2 ≤ n) (hn2 : n ≤ 65535) :
    Run.feed Run.empty (xs ++ List.replicate n v) = [Seg.lit xs, Seg.rep v n] := by
  obtain ⟨k, rfl⟩ : ∃ k, n = k + 2 := ⟨n - 2, by omega⟩
  have hne : xs ≠ [] := by intro h; simp [h] at h1
  have hch2 : List.Chain' (fun a b => a ≠ b) (xs ++ [v]) := by
    rw [List.chain'_append]
    refine ⟨hch, List.chain'_singleton v, ?_⟩
    intro x hx y hy
    simp only [List.head?_cons, Option.mem_def, Option.some.injEq] at hy
    subst hy
    exact hv x hx
  obtain ⟨a1, a2⟩ := lit_pending xs hch (by omega)
  have s1 := step_litState xs v hch2 (by omega)
  have s2 : (litState (xs ++ [v])).step v = (Run.rep v 2, [Seg.lit xs]) := by
    rw [litState_snoc xs v hne]
    simp [Run.step]
  obtain ⟨r1, r2⟩ := rep_replicate v 2 k (by omega)
  rw [feed_append, a1, a2, List.replicate_succ, List.replicate_succ]
  simp only [Run.feed, s1, s2, List.nil_append]
  rw [feed_eq, r1, r2]
  simp [Run.flush, Nat.add_comm]

theorem step_map {α β : Type} [DecidableEq α] [DecidableEq β] (f : α → β)
    (hf : Function.Injective f) (s : Run α) (c : α) :
    (Run.map f s).step (f c) = (Run.map f (s.step c).1, (s.step c).2.map (Seg.map f)) := by
  cases s with
  | empty => rfl
  | one v =>
    by_cases h : c = v
    · subst h; simp [Run.map, Run.step]
    · have h' : f c ≠ f v := fun e => h (hf e)
      simp [Run.map, Run.step, h, h']
  | lit vs l =>
    by_cases h : c = l
    · subst h; simp [Run.map, Run.step, Seg.map]
    · have h' : f c ≠ f l := fun e => h (hf e)
      by_cases h2 : vs.length + 2 = 128
      · simp [Run.map, Run.step, Seg.map, h, h', h2]
      · simp [Run.map, Run.step, Seg.map, h, h', h2]
  | rep v n =>
    by_cases h : c = v
    · subst h
      by_cases h2 : n + 1 = 65536
      · simp [Run.map, Run.step, Seg.map, h2]
      · simp [Run.map, Run.step, Seg.map, h2]
    · have h' : f c ≠ f v := fun e => h (hf e)
      simp [Run.map, Run.step, Seg.map, h, h']

theorem feed_map {α β : Type} [DecidableEq α] [DecidableEq β] (f : α → β)
    (hf : Function.Injective f) (s : Run α) (ts : List α) :
    Run.feed (Run.map f s) (ts.map f) = (Run.feed s ts).map (Seg.map f) := by
  induction ts generalizing s with
  | nil => cases s <;> simp [Run.feed, Run.flush, Run.map, Seg.map]
  | cons c cs ih =>
    simp only [List.map_cons, Run.feed, step_map f hf, ih, List.map_append]

theorem segsBytes_map {α β : Type} (f : α → β) (ser : β → List Nat) (segs : List (Seg α)) :
    segsBytes ser (segs.map (Seg.map f)) = segsBytes (fun x => ser (f x)) segs := by
  induction segs with
  | nil => rfl
  | cons seg segs ih =>
    have h : Seg.bytes ser (Seg.map f seg) = Seg.bytes (fun x => ser (f x)) seg := by
      cases seg with
      | lit vs => simp [Seg.map, Seg.bytes, List.flatMap_map]
      | rep v n => simp [Seg.map, Seg.bytes]
    simp only [segsBytes, List.map_cons, List.flatMap_cons] at ih ⊢
    rw [h, ih]

theorem step_shape {α : Type} [DecidableEq α] (s : Run α) (c : α) (hs : RunOk s) :
    RunOk (s.step c).1 ∧ (∀ seg ∈ (s.step c).2, SegShape seg) ∧
      (s.step c).2.flatMap Seg.tuples ++ (s.step c).1.pending = s.pending ++ [c] := by
  cases s with
  | empty => simp [Run.step, RunOk, Run.pending]
  | one v =>
    by_cases h : c = v
    · subst h
      simp [Run.step, RunOk, Run.pending, List.replicate_succ]
    · simp [Run.step, h, RunOk, Run.pending]
  | lit vs l =>
    obtain ⟨h1, h2⟩ := hs
    by_cases h : c = l
    · subst h
      simp [Run.step, RunOk, Run.pending, SegShape, Seg.tuples, List.replicate_succ]
      omega
    · by_cases h3 : vs.length + 2 = 128
      · simp [Run.step, h, h3, RunOk, Run.pending, SegShape, Seg.tuples]
      · simp [Run.step, h, h3, RunOk, Run.pending]
        omega
  | rep v n =>
    have h2 : 2 ≤ n := hs
    by_cases h : c = v
    · subst h
      by_cases hn : n + 1 = 65536
      · simp only [Run.step, if_true, hn, RunOk, Run.pending, SegShape, Seg.tuples,
          List.flatMap_cons, List.flatMap_nil, List.append_nil, List.mem_singleton,
          forall_eq, true_and]
        exact ⟨by omega, by rw [← hn]; exact List.replicate_succ' ..⟩
      · simp only [Run.step, if_true, hn, if_false, RunOk, Run.pending, List.flatMap_nil,
          List.nil_append, List.not_mem_nil, false_implies, implies_true, true_and]
        exact ⟨by omega, List.replicate_succ' ..⟩
    · simp [Run.step, h, RunOk, Run.pending, SegShape, Seg.tuples]
      omega

theorem flush_shape {α : Type} (s : Run α) (hs : RunOk s) :
    (∀ seg ∈ s.flush, SegShape seg) ∧ s.flush.flatMap Seg.tuples = s.pending := by
  cases s with
  | empty => simp [Run.flush, Run.pending]
  | one v => simp [Run.flush, Run.pending, SegShape, Seg.tuples]
  | lit vs l =>
    obtain ⟨h1, h2⟩ := hs
    simp [Run.flush, Run.pending, SegShape, Seg.tuples]
    omega
  | rep v n =>
    have h2 : 2 ≤ n := hs
    simp [Run.flush, Run.pending, SegShape, Seg.tuples]
    omega

theorem feed_shape {α : Type} [DecidableEq α] (s : Run α) (ts : List α) (hs : RunOk s) :
    (∀ seg ∈ Run.feed s ts, SegShape seg) ∧
      (Run.feed s ts).flatMap Seg.tuples = s.pending ++ ts := by
  induction ts generalizing s with
  | nil =>
    have := flush_shape s hs
    simpa [Run.feed] using this
  | cons c cs ih =>
    obtain ⟨h1, h2, h3⟩ := step_shape s c hs
    obtain ⟨i1, i2⟩ := ih (s.step c).1 h1
    refine ⟨?_, ?_⟩
    · intro seg hmem
      simp only [Run.feed, List.mem_append] at hmem
      rcases hmem with hm | hm
      · exact h2 seg hm
      · exact i1 seg hm
    · simp only [Run.feed, List.flatMap_append, i2]
      rw [← List.append_assoc, h3]
      simp

theorem flatMap_length_const {α : Type} (ser : α → List Nat) (W : Nat)
    (hser : ∀ v, (ser v).length = W) (vs : List α) :
    (vs.flatMap ser).length = W * vs.length := by
  induction vs with
  | nil => simp
  | cons v vs ih =>
    simp only [List.flatMap_cons, List.length_append, hser v, ih, List.length_cons]
    ring

theorem repHead_length (n : Nat) : (repHead n).length = if n < 128 then 1 else 3 := by
  unfold repHead
  split <;> rfl

theorem seg_bytes_le {α : Type} (ser : α → List Nat) (W : Nat)
    (hser : ∀ v, (ser v).length = W) (seg : Seg α) (hs : SegShape seg) :
    (Seg.bytes ser seg).length ≤ (W + 1) * seg.tuples.length := by
  cases seg with
  | lit vs =>
    obtain ⟨h1, -⟩ := hs
    simp only [Seg.bytes, List.length_cons, flatMap_length_const ser W hser, Seg.tuples]
    nlinarith
  | rep v n =>
    have h2 : 2 ≤ n := hs
    simp only [Seg.bytes, List.length_append, repHead_length, hser v, Seg.tuples,
      List.length_replicate]
    split
    · nlinarith
    · nlinarith

theorem segsBytes_le {α : Type} (ser : α → List Nat) (W : Nat)
    (hser : ∀ v, (ser v).length = W) (segs : List (Seg α))
    (hs : ∀ seg ∈ segs, SegShape seg) :
    (segsBytes ser segs).length ≤ (W + 1) * (segs.flatMap Seg.tuples).length := by
  induction segs with
  | nil => simp [segsBytes]
  | cons seg segs ih =>
    have h1 := seg_bytes_le ser W hser seg (hs seg (List.mem_cons_self _ _))
    have h2 := ih (fun sg h => hs sg (List.mem_cons_of_mem _ h))
    simp only [segsBytes, List.flatMap_cons, List.length_append] at h2 ⊢
    nlinarith

theorem stream_le {α : Type} [DecidableEq α] (ser : α → List Nat) (W : Nat)
    (hser : ∀ v, (ser v).length = W) (ts : List α) :
    (segsBytes ser (Run.feed Run.empty ts)).length ≤ (W + 1) * ts.length := by
  obtain ⟨h1, h2⟩ := feed_shape Run.empty ts trivial
  have := segsBytes_le ser W hser _ h1
  rw [h2] at this
  simpa [Run.pending] using this

theorem step_distinct {α : Type} [DecidableEq α] (s : Run α) (c : α) (hs : RunDistinct s) :
    RunDistinct (s.step c).1 := by
  cases s with
  | empty => simp [Run.step, RunDistinct]
  | one v =>
    by_cases h : c = v
    · simp [Run.step, h, RunDistinct]
    · simp [Run.step, h, RunDistinct]
      exact fun e => h e.symm
  | lit vs l =>
    by_cases h : c = l
    · simp [Run.step, h, RunDistinct]
    · by_cases h3 : vs.length + 2 = 128
      · simp [Run.step, h, h3, RunDistinct]
      · simp only [Run.step, h, h3, if_false, RunDistinct]
        have hs' : List.Chain' (fun a b => a ≠ b) (vs ++ [l]) := hs
        rw [List.append_assoc, List.singleton_append, List.chain'_split]
        exact ⟨hs', List.chain'_pair.mpr (fun e => h e.symm)⟩
  | rep v n =>
    by_cases h : c = v
    · by_cases hn : n + 1 = 65536
      · simp [Run.step, h, hn, RunDistinct]
      · simp [Run.step, h, hn, RunDistinct]
    · simp [Run.step, h, RunDistinct]

theorem chain_flipOk_cons {α : Type} (a : Seg α) (l : List (Seg α))
    (hl : List.Chain' flipOk l) (h : ∀ b ∈ l.head?, flipOk a b) :
    List.Chain' flipOk (a :: l) := by
  cases l with
  | nil => exact List.chain'_singleton a
  | cons b l => exact List.chain'_cons.mpr ⟨h b rfl, hl⟩

theorem flipOk_rep {α : Type} (v : α) (n : Nat) (b : Seg α) : flipOk (Seg.rep v n) b := by
  cases b <;> trivial

theorem flipOk_full {α : Type} (vs : List α) (h : vs.length = 128) (b : Seg α) :
    flipOk (Seg.lit vs) b := by
  cases b with
  | lit ws => trivial
  | rep v n =>
    intro hlt
    exact absurd hlt (by omega)

/-- What the classifier emits from any state: literal runs without equal neighbours,
every flip-flushed literal run ending in a tuple other than the repeated value, and a
pending repeat run coming out first with its own value. -/
theorem feed_distinct {α : Type} [DecidableEq α] (s : Run α) (ts : List α)
    (hs : RunDistinct s) :
    List.Chain' flipOk (Run.feed s ts) ∧
      (∀ vs, Seg.lit vs ∈ Run.feed s ts → List.Chain' (fun a b => a ≠ b) vs) ∧
      (∀ v n, s = Run.rep v n → ∃ k rest, Run.feed s ts = Seg.rep v k :: rest) := by
  induction ts generalizing s with
  | nil =>
    cases s with
    | empty => simp [Run.feed, Run.flush]
    | one v => simp [Run.feed, Run.flush]
    | lit vs l =>
      have hs' : List.Chain' (fun a b => a ≠ b) (vs ++ [l]) := hs
      simp [Run.feed, Run.flush, hs']
    | rep v n => simp [Run.feed, Run.flush]
  | cons c cs ih =>
    have hd := step_distinct s c hs
    obtain ⟨i1, i2, i3⟩ := ih (s.step c).1 hd
    cases s with
    | empty =>
      simp only [Run.feed, Run.step, List.nil_append] at i1 i2 ⊢
      exact ⟨i1, i2, by intro v n h; cases h⟩
    | one v =>
      by_cases h : c = v
      · simp only [Run.feed, Run.step, h, if_true, List.nil_append] at i1 i2 ⊢
        exact ⟨i1, i2, by intro v n h; cases h⟩
      · simp only [Run.feed, Run.step, h, if_false, List.nil_append] at i1 i2 ⊢
        exact ⟨i1, i2, by intro v n h; cases h⟩
    | lit vs l =>
      have hs' : List.Chain' (fun a b => a ≠ b) (vs ++ [l]) := hs
      by_cases h : c = l
      · subst h
        simp only [Run.feed, Run.step, if_true, List.singleton_append] at i1 i2 i3 ⊢
        obtain ⟨k, rest, hk⟩ := i3 c 2 rfl
        refine ⟨?_, ?_, by intro v n h; cases h⟩
        · apply chain_flipOk_cons _ _ i1
          intro b hb
          rw [hk] at hb
          simp only [List.head?_cons, Option.mem_def, Option.some.injEq] at hb
          subst hb
          intro _ t ht
          have := (List.chain'_append.mp hs').2.2 t ht c (by simp)
          exact this
        · intro ws hws
          rcases List.mem_cons.mp hws with hw | hw
          · cases hw
            exact hs'.left_of_append
          · exact i2 ws hw
      · by_cases h3 : vs.length + 2 = 128
        · simp only [Run.feed, Run.step, h, h3, if_true, if_false,
            List.singleton_append] at i1 i2 ⊢
          have hbig : List.Chain' (fun a b => a ≠ b) (vs ++ [l, c]) := by
            rw [List.chain'_split]
            exact ⟨hs', List.chain'_pair.mpr (fun e => h e.symm)⟩
          refine ⟨?_, ?_, by intro v n h; cases h⟩
          · apply chain_flipOk_cons _ _ i1
            intro b _
            exact flipOk_full _ (by simp; omega) b
          · intro ws hws
            rcases List.mem_cons.mp hws with hw | hw
            · cases hw
              exact hbig
            · exact i2 ws hw
        · simp only [Run.feed, Run.step, h, h3, if_false, List.nil_append] at i1 i2 ⊢
          exact ⟨i1, i2, by intro v n h; cases h⟩
    | rep v n =>
      by_cases h : c = v
      · subst h
        by_cases hn : n + 1 = 65536
        · simp only [Run.feed, Run.step, if_true, hn, List.singleton_append] at i1 i2 ⊢
          refine ⟨?_, ?_, ?_⟩
          · exact chain_flipOk_cons _ _ i1 (fun b _ => flipOk_rep _ _ b)
          · intro ws hws
            rcases List.mem_cons.mp hws with hw | hw
            · cases hw
            · exact i2 ws hw
          · intro v' n' hv
            cases hv
            exact ⟨_, _, rfl⟩
        · simp only [Run.feed, Run.step, if_true, hn, if_false, List.nil_append]
            at i1 i2 i3 ⊢
          refine ⟨i1, i2, ?_⟩
          intro v' n' hv
          cases hv
          exact i3 c (n + 1) rfl
      · simp only [Run.feed, Run.step, h, if_false, List.singleton_append] at i1 i2 ⊢
        refine ⟨?_, ?_, ?_⟩
        · exact chain_flipOk_cons _ _ i1 (fun b _ => flipOk_rep _ _ b)
        · intro ws hws
          rcases List.mem_cons.mp hws with hw | hw
          · cases hw
          · exact i2 ws hw
        · intro v' n' hv
          cases hv
          exact ⟨_, _, rfl⟩

theorem colourIter_count (p : Nat) (st : PassState) (w : World) :
    (colourIter p st w).1.count ≤ st.count + 1 := by
  unfold colourIter
  simp only
  by_cases h0 : st.count = 0
  · simp [h0]
  · by_cases h1 : st.count = 1
    · simp [h1]
    · have h2 : st.count > 1 := by omega
      simp only [h0, h1, h2, if_true, if_false]
      generalize (if st.seqSame ≠ 0 then _ else _ : Nat) = same
      by_cases hx : same ^^^ st.seqSame ≠ 0
      · rw [if_pos hx]
        by_cases hs : st.seqSame = 0
        · simp only [hs, if_true]; omega
        · simp only [hs, if_false]; omega
      · rw [if_neg hx]
        by_cases ha : st.count + 1 = 128 ∧ st.seqSame = 0
        · simp [ha]
        · simp only [ha, if_false]
          by_cases hb : st.count + 1 = 65536 ∧ st.seqSame ≠ 0
          · simp [hb]
          · simp only [hb, if_false]
            exact Nat.le_refl _

theorem alphaIter_count (p : Nat) (st : PassState) (w : World) :
    (alphaIter p st w).1.count ≤ st.count + 1 := by
  unfold alphaIter
  simp only
  by_cases h0 : st.count = 0
  · simp [h0]
  · by_cases h1 : st.count = 1
    · simp [h1]
    · have h2 : st.count > 1 := by omega
      simp only [h0, h1, h2, if_true, if_false]
      generalize (if st.seqSame ≠ 0 then _ else _ : Nat) = same
      by_cases hx : same ^^^ st.seqSame ≠ 0
      · rw [if_pos hx]
        by_cases hs : st.seqSame = 0
        · simp only [hs, if_true]; omega
        · simp only [hs, if_false]; omega
      · rw [if_neg hx]
        by_cases ha : st.count + 1 = 128 ∧ st.seqSame = 0
        · simp [ha]
        · simp only [ha, if_false]
          by_cases hb : st.count + 1 = 65536 ∧ st.seqSame ≠ 0
          · simp [hb]
          · simp only [hb, if_false]
            exact Nat.le_refl _

theorem colourLoop_count (line : List Nat) (st : PassState) (w : World) (st1 : PassState)
    (w1 : World) (h : colourLoop line st w = (some st1, w1)) :
    st1.count ≤ st.count + line.length := by
  induction line generalizing st w with
  | nil =>
    simp only [colourLoop, Prod.mk.injEq, Option.some.injEq] at h
    rw [← h.1]; simp
  | cons p rest ih =>
    simp only [colourLoop] at h
    split at h
    · simp at h
    · have := ih _ _ h
      have := colourIter_count p st w
      simp only [List.length_cons]
      omega

theorem alphaLoop_count (line : List Nat) (st : PassState) (w : World) (st1 : PassState)
    (w1 : World) (h : alphaLoop line st w = (some st1, w1)) :
    st1.count ≤ st.count + line.length := by
  induction line generalizing st w with
  | nil =>
    simp only [alphaLoop, Prod.mk.injEq, Option.some.injEq] at h
    rw [← h.1]; simp
  | cons p rest ih =>
    simp only [alphaLoop] at h
    split at h
    · simp at h
    · have := ih _ _ h
      have := alphaIter_count p st w
      simp only [List.length_cons]
      omega

theorem rep_runs_in_range {α : Type} [DecidableEq α] (ser : α → List Nat) (ts : List α)
    (hlen : ts.length ≤ 65535) (v : α) (n : Nat)
    (hmem : Seg.rep v n ∈ Run.feed Run.empty ts) :
    2 ≤ n ∧ n ≤ 65535 ∧
      (n < 128 → Seg.bytes ser (Seg.rep v n) = [n + 127] ++ ser v) ∧
      (128 ≤ n → Seg.bytes ser (Seg.rep v n) = [128, n / 256, n % 256] ++ ser v ∧
        n / 256 ≤ 255 ∧ n % 256 ≤ 255 ∧ n / 256 * 256 + n % 256 = n ∧ n ≠ 0) := by
  obtain ⟨h1, -⟩ := feed_ok Run.empty ts trivial (by simpa [Run.pending] using hlen)
  obtain ⟨h2, h3⟩ := h1 _ hmem
  refine ⟨h2, h3, ?_, ?_⟩
  · intro hn
    simp [Seg.bytes, repHead_short n hn]
  · intro hn
    refine ⟨by simp [Seg.bytes, repHead_long n hn h3], by omega, by omega, by omega, by omega⟩

/-! ## The claims about the classifier -/

/-- C15 (literal-to-repeat transition).  For `1 ≤ m ≤ 126` and `2 ≤ n ≤ 127`: when the
tuples of a channel group are `m` tuples with no two adjacent equal followed by `n`
copies of a tuple `v` other than the `m`-th tuple, the pass appends exactly the
literal run (control byte `m - 1`, then the `m` tuples) followed by the short repeat
run (control byte `n + 127`, then `v`). -/
theorem C15_literal_then_repeat (line : List Nat) (st : PassState) (wd : World) (n : Nat)
    (hn : 2 ≤ n) (hn2 : n ≤ 127) (hi : wd.ideal) :
    (∀ (xs : List (Nat × Nat × Nat)) (v : Nat × Nat × Nat),
      line.map colourOf = xs ++ List.replicate n v →
      List.Chain' (fun a b => a ≠ b) xs → (∀ t ∈ xs.getLast?, t ≠ v) →
      1 ≤ xs.length → xs.length ≤ 126 →
      ∃ st1, colourPass st line wd
        = (some st1, wd.put (((xs.length - 1) :: xs.flatMap serColour)
            ++ [n + 127, v.1, v.2.1, v.2.2]))) ∧
    (∀ (xs : List Nat) (v : Nat),
      line.map alphaOf = xs ++ List.replicate n v →
      List.Chain' (fun a b => a ≠ b) xs → (∀ t ∈ xs.getLast?, t ≠ v) →
      1 ≤ xs.length → xs.length ≤ 126 →
      ∃ st2, alphaPass st line wd
        = (some st2, wd.put (((xs.length - 1) :: xs) ++ [n + 127, v]))) := by
  refine ⟨?_, ?_⟩
  · intro xs v hline hch hv h1 h126
    obtain ⟨st1, h⟩ := colourPass_ideal st line wd hi
    refine ⟨st1, ?_⟩
    rw [h]
    unfold colourStream
    rw [hline, feed_literal_then_repeat xs v n hch hv h1 h126 hn (by omega)]
    simp only [segsBytes, List.flatMap_cons, List.flatMap_nil, List.append_nil, Seg.bytes,
      repHead_short n (by omega : n < 128)]
    rw [Nat.mod_eq_of_lt (by omega)]
    rfl
  · intro xs v hline hch hv h1 h126
    obtain ⟨st2, h⟩ := alphaPass_ideal st line wd hi
    refine ⟨st2, ?_⟩
    rw [h]
    unfold alphaStream
    rw [hline, feed_literal_then_repeat xs v n hch hv h1 h126 hn (by omega)]
    simp only [segsBytes, List.flatMap_cons, List.flatMap_nil, List.append_nil, Seg.bytes,
      repHead_short n (by omega : n < 128), flatMap_serAlpha]
    rw [Nat.mod_eq_of_lt (by omega)]
    rfl

/-- C15, at the colours `1, 2, 3, 3, 3` (alpha 0): literal run `1, 2`, then repeat
run of three `3`. -/
theorem C15_literal_then_repeat_witness :
    ∃ st1, colourPass { seqSame := 0, count := 0, pixel := fun _ _ => 0 } [1, 2, 3, 3, 3]
        World.fresh
      = (some st1, World.fresh.put (((([(1, 0, 0), (2, 0, 0)] : List (Nat × Nat × Nat)).length
            - 1) :: ([(1, 0, 0), (2, 0, 0)] : List (Nat × Nat × Nat)).flatMap serColour)
          ++ [3 + 127, 3, 0, 0])) :=
  (C15_literal_then_repeat [1, 2, 3, 3, 3] { seqSame := 0, count := 0, pixel := fun _ _ => 0 }
    World.fresh 3 (by decide) (by decide) fresh_ideal).1 [(1, 0, 0), (2, 0, 0)] (3, 0, 0)
    (by simp [colourOf_eq, List.replicate]) (by simp) (by simp) (by simp) (by simp)

theorem triple_injective : Function.Injective (fun x : Nat => (x, x, x)) := by
  intro a b h
  exact congrArg Prod.fst h

/-- C16.  Both passes are the one classifier, run on tuples of width 3 and of width
1: each pass appends the bytes of the runs `Run.feed` emits for its tuples.  When the
colour tuples of one scanline are `(x, x, x)` for the alpha bytes `x` of another, the
two passes emit the same runs: the colour stream is the alpha stream with every
payload byte written three times and every control byte and count field unchanged. -/
theorem C16_alpha_is_colour_width_one (lc la : List Nat) (xs : List Nat)
    (st st' : PassState) (wd wd' : World) (hi : wd.ideal) (hi' : wd'.ideal)
    (hc : lc.map colourOf = xs.map (fun x => (x, x, x))) (ha : la.map alphaOf = xs) :
    (∃ runs : List (Seg Nat), ∃ st1 st2,
      colourPass st lc wd = (some st1, wd.put (segsBytes (fun x => [x, x, x]) runs)) ∧
      alphaPass st' la wd' = (some st2, wd'.put (segsBytes (fun x => [x]) runs))) ∧
    (∃ st1, colourPass st lc wd
      = (some st1, wd.put (segsBytes serColour (Run.feed Run.empty (lc.map colourOf))))) ∧
    (∃ st2, alphaPass st' la wd'
      = (some st2, wd'.put (segsBytes serAlpha (Run.feed Run.empty (la.map alphaOf))))) := by
  obtain ⟨st1, h1⟩ := colourPass_ideal st lc wd hi
  obtain ⟨st2, h2⟩ := alphaPass_ideal st' la wd' hi'
  refine ⟨⟨Run.feed Run.empty xs, st1, st2, ?_, ?_⟩, ⟨st1, h1⟩, ⟨st2, h2⟩⟩
  · rw [h1]
    unfold colourStream
    have := feed_map (fun x : Nat => (x, x, x)) triple_injective Run.empty xs
    simp only [Run.map] at this
    rw [hc, this, segsBytes_map]
    rfl
  · rw [h2]
    unfold alphaStream
    rw [ha]
    rfl

/-- C16, at the grey scanline `(5,5,5), (5,5,5), (7,7,7)` and the alphas `5, 5, 7`. -/
theorem C16_alpha_is_colour_width_one_witness :
    ∃ runs : List (Seg Nat), ∃ st1 st2,
      colourPass { seqSame := 0, count := 0, pixel := fun _ _ => 0 }
          [packPixel 5 5 5 0, packPixel 5 5 5 0, packPixel 7 7 7 0] World.fresh
        = (some st1, World.fresh.put (segsBytes (fun x => [x, x, x]) runs)) ∧
      alphaPass { seqSame := 0, count := 0, pixel := fun _ _ => 0 }
          [packPixel 0 0 0 5, packPixel 0 0 0 5, packPixel 0 0 0 7] World.fresh
        = (some st2, World.fresh.put (segsBytes (fun x => [x]) runs)) :=
  (C16_alpha_is_colour_width_one [packPixel 5 5 5 0, packPixel 5 5 5 0, packPixel 7 7 7 0]
    [packPixel 0 0 0 5, packPixel 0 0 0 5, packPixel 0 0 0 7] [5, 5, 7]
    { seqSame := 0, count := 0, pixel := fun _ _ => 0 }
    { seqSame := 0, count := 0, pixel := fun _ _ => 0 } World.fresh World.fresh
    fresh_ideal fresh_ideal (by simp [colourOf_eq, packPixel])
    (by simp [alphaOf_eq, packPixel])).1

/-- C17.  For a scanline of at most 65535 pixels, in both passes and in every world:
at the start of each loop iteration `count` is at most the number of pixels already
read, so after `count++` it is below 65536 and the flush guarded by
`count == 65536` is not executed.  Hence (in a world where nothing fails) every
repeat run written has a length `n` with `2 ≤ n ≤ 65535`; it is written in the long
form exactly when `n ≥ 128`, and then its count field `n / 256, n % 256` is the true
length of the run, never 0. -/
theorem C17_long_flush_dead (line : List Nat) (st : PassState) (wd : World)
    (hlen : line.length ≤ 65535) (hi : wd.ideal) :
    (∀ (w0 : World) (l1 : List Nat) (p : Nat) (l2 : List Nat) (st1 : PassState) (w1 : World),
      line = l1 ++ p :: l2 → colourLoop l1 { st with count := 0 } w0 = (some st1, w1) →
      st1.count ≤ l1.length ∧ st1.count + 1 < 65536) ∧
    (∀ (w0 : World) (l1 : List Nat) (p : Nat) (l2 : List Nat) (st1 : PassState) (w1 : World),
      line = l1 ++ p :: l2 → alphaLoop l1 { st with count := 0 } w0 = (some st1, w1) →
      st1.count ≤ l1.length ∧ st1.count + 1 < 65536) ∧
    (∃ st1, colourPass st line wd
      = (some st1, wd.put (segsBytes serColour (Run.feed Run.empty (line.map colourOf))))) ∧
    (∃ st2, alphaPass st line wd
      = (some st2, wd.put (segsBytes serAlpha (Run.feed Run.empty (line.map alphaOf))))) ∧
    (Run.feed Run.empty (line.map colourOf)).flatMap Seg.tuples = line.map colourOf ∧
    (Run.feed Run.empty (line.map alphaOf)).flatMap Seg.tuples = line.map alphaOf ∧
    (∀ v n, Seg.rep v n ∈ Run.feed Run.empty (line.map colourOf) →
      2 ≤ n ∧ n ≤ 65535 ∧
      (n < 128 → Seg.bytes serColour (Seg.rep v n) = [n + 127] ++ serColour v) ∧
      (128 ≤ n → Seg.bytes serColour (Seg.rep v n) = [128, n / 256, n % 256] ++ serColour v ∧
        n / 256 ≤ 255 ∧ n % 256 ≤ 255 ∧ n / 256 * 256 + n % 256 = n ∧ n ≠ 0)) ∧
    (∀ v n, Seg.rep v n ∈ Run.feed Run.empty (line.map alphaOf) →
      2 ≤ n ∧ n ≤ 65535 ∧
      (n < 128 → Seg.bytes serAlpha (Seg.rep v n) = [n + 127] ++ serAlpha v) ∧
      (128 ≤ n → Seg.bytes serAlpha (Seg.rep v n) = [128, n / 256, n % 256] ++ serAlpha v ∧
        n / 256 ≤ 255 ∧ n % 256 ≤ 255 ∧ n / 256 * 256 + n % 256 = n ∧ n ≠ 0)) := by
  refine ⟨?_, ?_, colourPass_ideal st line wd hi, alphaPass_ideal st line wd hi, ?_, ?_,
    ?_, ?_⟩
  · intro w0 l1 p l2 st1 w1 hl hloop
    have h := colourLoop_count l1 _ w0 st1 w1 hloop
    have hl' := congrArg List.length hl
    simp only [List.length_append, List.length_cons] at hl'
    simp only [Nat.zero_add] at h
    exact ⟨h, by omega⟩
  · intro w0 l1 p l2 st1 w1 hl hloop
    have h := alphaLoop_count l1 _ w0 st1 w1 hloop
    have hl' := congrArg List.length hl
    simp only [List.length_append, List.length_cons] at hl'
    simp only [Nat.zero_add] at h
    exact ⟨h, by omega⟩
  · have := (feed_shape Run.empty (line.map colourOf) trivial).2
    simpa [Run.pending] using this
  · have := (feed_shape Run.empty (line.map alphaOf) trivial).2
    simpa [Run.pending] using this
  · intro v n hmem
    exact rep_runs_in_range serColour _ (by simpa using hlen) v n hmem
  · intro v n hmem
    exact rep_runs_in_range serAlpha _ (by simpa using hlen) v n hmem

theorem rep300_mem :
    Seg.rep (1, 2, 3) 300
      ∈ Run.feed Run.empty ((List.replicate 300 (packPixel 1 2 3 4)).map colourOf) := by
  rw [List.map_replicate, colourOf_pack 1 2 3 4 (by decide) (by decide) (by decide),
    feed_replicate _ 300 (by decide) (by decide)]
  exact List.mem_singleton.mpr rfl

/-- C17, at 300 equal pixels: the one repeat run of the colour group has length 300
and the count field `1, 44`. -/
theorem C17_long_flush_dead_witness :
    Seg.bytes serColour (Seg.rep (1, 2, 3) 300)
        = [128, 300 / 256, 300 % 256] ++ serColour (1, 2, 3) ∧
      300 / 256 ≤ 255 ∧ 300 % 256 ≤ 255 ∧ 300 / 256 * 256 + 300 % 256 = 300 ∧ 300 ≠ 0 :=
  ((C17_long_flush_dead (List.replicate 300 (packPixel 1 2 3 4))
    { seqSame := 0, count := 0, pixel := fun _ _ => 0 } World.fresh
    (by rw [List.length_replicate]; omega) fresh_ideal).2.2.2.2.2.2.1
    (1, 2, 3) 300 rep300_mem).2.2.2 (by decide)

/-- C19.  In a world where nothing fails each pass appends the bytes of the runs
`Run.feed` emits for its tuples, and among these runs: in every literal run no two
adjacent tuples are equal; and a literal run of fewer than 128 tuples that is
followed by a repeat run (it was flushed by a literal-to-repeat flip; a literal run
flushed because it was full has exactly 128 tuples) ends in a tuple other than the
value of that repeat run. -/
theorem C19_literal_runs_distinct (line : List Nat) (st : PassState) (wd : World)
    (hi : wd.ideal) :
    ((∃ st1, colourPass st line wd
        = (some st1, wd.put (segsBytes serColour (Run.feed Run.empty (line.map colourOf))))) ∧
      (∀ vs, Seg.lit vs ∈ Run.feed Run.empty (line.map colourOf) →
        List.Chain' (fun a b => a ≠ b) vs) ∧
      List.Chain' flipOk (Run.feed Run.empty (line.map colourOf))) ∧
    ((∃ st2, alphaPass st line wd
        = (some st2, wd.put (segsBytes serAlpha (Run.feed Run.empty (line.map alphaOf))))) ∧
      (∀ vs, Seg.lit vs ∈ Run.feed Run.empty (line.map alphaOf) →
        List.Chain' (fun a b => a ≠ b) vs) ∧
      List.Chain' flipOk (Run.feed Run.empty (line.map alphaOf))) := by
  obtain ⟨c1, c2, -⟩ := feed_distinct Run.empty (line.map colourOf) trivial
  obtain ⟨a1, a2, -⟩ := feed_distinct Run.empty (line.map alphaOf) trivial
  exact ⟨⟨colourPass_ideal st line wd hi, c2, c1⟩, ⟨alphaPass_ideal st line wd hi, a2, a1⟩⟩

/-- C19, at the colours `1, 2, 3, 3, 3`: the runs are the literal run `1, 2` and the
repeat run of `3`, and `2` differs from `3`. -/
theorem C19_literal_runs_distinct_witness :
    List.Chain' flipOk (Run.feed Run.empty (([1, 2, 3, 3, 3] : List Nat).map colourOf)) :=
  (C19_literal_runs_distinct [1, 2, 3, 3, 3] { seqSame := 0, count := 0, pixel := fun _ _ => 0 }
    World.fresh fresh_ideal).1.2.2

/-- C20 (worst-case expansion).  For a scanline of any width `w`, in a world where
nothing fails, the colour pass appends at most `4 * w` bytes, the alpha pass at most
`2 * w` bytes, and `write_scanline` appends the first followed by the second, at
most `6 * w` bytes. -/
theorem C20_expansion_bound (line : List Nat) (st : PassState) (wd : World) (hi : wd.ideal) :
    ∃ cs as st1 st2,
      colourPass st line wd = (some st1, wd.put cs) ∧
      alphaPass st line wd = (some st2, wd.put as) ∧
      write_scanline st.pixel st.seqSame line wd = (true, wd.put (cs ++ as)) ∧
      cs.length ≤ 4 * line.length ∧ as.length ≤ 2 * line.length ∧
      (cs ++ as).length ≤ 6 * line.length := by
  obtain ⟨st1, h1⟩ := colourPass_ideal st line wd hi
  obtain ⟨st2, h2⟩ := alphaPass_ideal st line wd hi
  have hc : (colourStream line).length ≤ 4 * line.length := by
    have := stream_le serColour 3 serColour_length (line.map colourOf)
    simpa [colourStream] using this
  have ha : (alphaStream line).length ≤ 2 * line.length := by
    have := stream_le serAlpha 1 serAlpha_length (line.map alphaOf)
    simpa [alphaStream] using this
  refine ⟨colourStream line, alphaStream line, st1, st2, h1, h2,
    write_scanline_ideal _ _ line wd hi, hc, ha, ?_⟩
  rw [List.length_append]
  omega

/-- C20, at the three pixels of colours `1, 2, 1`. -/
theorem C20_expansion_bound_witness :
    ∃ cs as st1 st2,
      colourPass { seqSame := 0, count := 0, pixel := fun _ _ => 0 } [1, 2, 1] World.fresh
        = (some st1, World.fresh.put cs) ∧
      alphaPass { seqSame := 0, count := 0, pixel := fun _ _ => 0 } [1, 2, 1] World.fresh
        = (some st2, World.fresh.put as) ∧
      write_scanline (fun _ _ => 0) 0 [1, 2, 1] World.fresh = (true, World.fresh.put (cs ++ as)) ∧
      cs.length ≤ 4 * ([1, 2, 1] : List Nat).length ∧
      as.length ≤ 2 * ([1, 2, 1] : List Nat).length ∧
      (cs ++ as).length ≤ 6 * ([1, 2, 1] : List Nat).length :=
  C20_expansion_bound [1, 2, 1] { seqSame := 0, count := 0, pixel := fun _ _ => 0 }
    World.fresh fresh_ideal

/-! ## Control bytes of the runs written -/

theorem control_ne_255 {α : Type} (ser : α → List Nat) (s : Seg α) (hs : SegShape s) :
    (Seg.bytes ser s).head? ≠ some 255 := by
  cases s with
  | lit vs =>
    have h : vs.length ≤ 128 := hs.2
    simp only [Seg.bytes, List.head?_cons, ne_eq, Option.some.injEq]
    omega
  | rep v n =>
    by_cases hn : n < 128
    · simp only [Seg.bytes, repHead, if_pos hn, List.singleton_append, List.head?_cons, ne_eq,
        Option.some.injEq]
      omega
    · simp [Seg.bytes, repHead, hn]

theorem rep128_bytes {α : Type} (ser : α → List Nat) (v : α) :
    Seg.bytes ser (Seg.rep v 128) = [128, 0, 128] ++ ser v := by
  simp only [Seg.bytes]
  rw [repHead_long 128 (by decide) (by decide)]

/-- C3, amended.  A scanline of `w` equal pixels `(r, g, b, a)`, `2 ≤ w ≤ 128`, is
written as one repeat run per channel group.  Up to 127 pixels the run is short,
`[w + 127, r, g, b]` and `[w + 127, a]`; at exactly 128 pixels it is written in the
long form, `[128, 0, 128, r, g, b]` and `[128, 0, 128, a]`.  Moreover, for every
scanline `line` of any width, each pass writes the bytes of the runs of the
classifier over its tuples, these runs carry exactly the tuples of the scanline, none
of them begins with the control byte 255, and every repeat run of exactly 128 tuples
among them, wherever it is flushed, is written in the long form `128, 0, 128`
followed by the tuple.  In particular, when the `w` equal tuples are followed by one
different tuple, the run is flushed inside the loop and takes the same form, short
up to 127 and long at 128, followed by the literal run of the last tuple. -/
theorem C3_constant_short_repeat (w r g b a : Nat) (st : PassState) (wd : World)
    (hw : 2 ≤ w) (hw2 : w ≤ 128) (hr : r < 256) (hg : g < 256) (hb : b < 256)
    (ha : a < 256) (hi : wd.ideal) :
    (∃ st1, colourPass st (List.replicate w (packPixel r g b a)) wd
        = (some st1, wd.put ((if w < 128 then [w + 127] else [128, 0, 128]) ++ [r, g, b]))) ∧
    (∃ st2, alphaPass st (List.replicate w (packPixel r g b a)) wd
        = (some st2, wd.put ((if w < 128 then [w + 127] else [128, 0, 128]) ++ [a]))) ∧
    write_scanline st.pixel st.seqSame (List.replicate w (packPixel r g b a)) wd
      = (true, wd.put (((if w < 128 then [w + 127] else [128, 0, 128]) ++ [r, g, b])
          ++ ((if w < 128 then [w + 127] else [128, 0, 128]) ++ [a]))) ∧
    (∀ line : List Nat,
      (∃ st1, colourPass st line wd
        = (some st1, wd.put (segsBytes serColour (Run.feed Run.empty (line.map colourOf))))) ∧
      (∃ st2, alphaPass st line wd
        = (some st2, wd.put (segsBytes serAlpha (Run.feed Run.empty (line.map alphaOf))))) ∧
      write_scanline st.pixel st.seqSame line wd
        = (true, wd.put (segsBytes serColour (Run.feed Run.empty (line.map colourOf))
            ++ segsBytes serAlpha (Run.feed Run.empty (line.map alphaOf)))) ∧
      (Run.feed Run.empty (line.map colourOf)).flatMap Seg.tuples = line.map colourOf ∧
      (Run.feed Run.empty (line.map alphaOf)).flatMap Seg.tuples = line.map alphaOf ∧
      (∀ s ∈ Run.feed Run.empty (line.map colourOf),
        (Seg.bytes serColour s).head? ≠ some 255 ∧
        ∀ v, s = Seg.rep v 128 → Seg.bytes serColour s = [128, 0, 128, v.1, v.2.1, v.2.2]) ∧
      (∀ s ∈ Run.feed Run.empty (line.map alphaOf),
        (Seg.bytes serAlpha s).head? ≠ some 255 ∧
        ∀ v, s = Seg.rep v 128 → Seg.bytes serAlpha s = [128, 0, 128, v])) ∧
    (∀ (line : List Nat) (q : Nat × Nat × Nat), q ≠ (r, g, b) →
      line.map colourOf = List.replicate w (r, g, b) ++ [q] →
      ∃ st1, colourPass st line wd
        = (some st1, wd.put ((if w < 128 then [w + 127] else [128, 0, 128]) ++ [r, g, b]
            ++ [0, q.1, q.2.1, q.2.2]))) ∧
    (∀ (line : List Nat) (q : Nat), q ≠ a →
      line.map alphaOf = List.replicate w a ++ [q] →
      ∃ st2, alphaPass st line wd
        = (some st2, wd.put ((if w < 128 then [w + 127] else [128, 0, 128]) ++ [a]
            ++ [0, q]))) := by
  have hh : repHead w = if w < 128 then [w + 127] else [128, 0, 128] := by
    by_cases h : w < 128
    · rw [if_pos h, repHead_short w h]
    · have : w = 128 := by omega
      subst this
      rw [if_neg h, repHead_long 128 (by decide) (by decide)]
  have hc : colourStream (List.replicate w (packPixel r g b a))
      = (if w < 128 then [w + 127] else [128, 0, 128]) ++ [r, g, b] := by
    unfold colourStream
    rw [List.map_replicate, colourOf_pack r g b a hr hg hb,
      stream_constant serColour _ w hw (by omega), hh]
    rfl
  have hal : alphaStream (List.replicate w (packPixel r g b a))
      = (if w < 128 then [w + 127] else [128, 0, 128]) ++ [a] := by
    unfold alphaStream
    rw [List.map_replicate, alphaOf_pack r g b a hr hg hb ha,
      stream_constant serAlpha _ w hw (by omega), hh]
    rfl
  refine ⟨?_, ?_, ?_, ?_, ?_, ?_⟩
  · obtain ⟨st1, h⟩ := colourPass_ideal st _ wd hi
    exact ⟨st1, by rw [h, hc]⟩
  · obtain ⟨st2, h⟩ := alphaPass_ideal st _ wd hi
    exact ⟨st2, by rw [h, hal]⟩
  · rw [write_scanline_ideal _ _ _ wd hi, hc, hal]
  · intro line
    refine ⟨colourPass_ideal st line wd hi, alphaPass_ideal st line wd hi,
      write_scanline_ideal _ _ _ wd hi, ?_, ?_, ?_, ?_⟩
    · have := (feed_shape Run.empty (line.map colourOf) trivial).2
      simpa [Run.pending] using this
    · have := (feed_shape Run.empty (line.map alphaOf) trivial).2
      simpa [Run.pending] using this
    · intro s hs
      refine ⟨control_ne_255 serColour s
        ((feed_shape Run.empty (line.map colourOf) trivial).1 s hs), ?_⟩
      intro v hv
      rw [hv, rep128_bytes]
      rfl
    · intro s hs
      refine ⟨control_ne_255 serAlpha s
        ((feed_shape Run.empty (line.map alphaOf) trivial).1 s hs), ?_⟩
      intro v hv
      rw [hv, rep128_bytes]
      rfl
  · intro line q hq hl
    obtain ⟨st1, h⟩ := colourPass_ideal st line wd hi
    refine ⟨st1, ?_⟩
    rw [h]
    unfold colourStream
    rw [hl, stream_run_then_one serColour (r, g, b) q w hw (by omega) (Ne.symm hq), hh]
    rfl
  · intro line q hq hl
    obtain ⟨st2, h⟩ := alphaPass_ideal st line wd hi
    refine ⟨st2, ?_⟩
    rw [h]
    unfold alphaStream
    rw [hl, stream_run_then_one serAlpha a q w hw (by omega) (Ne.symm hq), hh]
    rfl

/-- C3 amended, at the 2-by-1 image of the specification: `129, 10, 20, 30` and
`129, 255`. -/
theorem C3_constant_short_repeat_witness :
    write_scanline (fun _ _ => 0) 0 (List.replicate 2 (packPixel 10 20 30 255)) World.fresh
      = (true, World.fresh.put ([129, 10, 20, 30] ++ [129, 255])) :=
  (C3_constant_short_repeat 2 10 20 30 255 { seqSame := 0, count := 0, pixel := fun _ _ => 0 }
    World.fresh (by decide) (by decide) (by decide) (by decide) (by decide) (by decide)
    fresh_ideal).2.2.1

/-! ## Writers in any world -/

theorem wrote_refl (w : World) : Wrote w w 0 :=
  ⟨[], by simp, rfl, by simp, by simp, by simp⟩

theorem wrote_mono {w w' : World} {n m : Nat} (h : Wrote w w' n) (hnm : n ≤ m) :
    Wrote w w' m := by
  obtain ⟨ext, h1, h2, h3, h4, h5⟩ := h
  exact ⟨ext, h1, h2, by omega, h4, h5⟩

theorem wrote_trans {w w1 w2 : World} {a b : Nat} (h : Wrote w w1 a) (h' : Wrote w1 w2 b) :
    Wrote w w2 (a + b) := by
  obtain ⟨e1, h1, h2, h3, h4, h5⟩ := h
  obtain ⟨e2, g1, g2, g3, g4, g5⟩ := h'
  refine ⟨e1 ++ e2, by rw [g1, h1, List.append_assoc], by rw [g2, h2], by simp; omega, ?_, ?_⟩
  · intro c hc
    rcases List.mem_append.mp hc with hc | hc
    · exact h4 c hc
    · exact g4 c hc
  · rw [g5, h5, List.any_append, Bool.or_assoc]

theorem writeU8_wrote (v : Nat) (w : World) : Wrote w (writeU8 v w).2 1 := by
  refine ⟨[Call.byte v w.nextOk], rfl, rfl, by simp, ?_, ?_⟩
  · intro c hc
    exact ⟨v, w.nextOk, List.mem_singleton.mp hc⟩
  simp only [writeU8, List.any_cons, List.any_nil, Bool.or_false]
  cases w.nextOk <;> simp [failedCall]

theorem writeU16_wrote (v : Nat) (w : World) : Wrote w (writeU16 v w).2 2 := by
  unfold writeU16
  simp only
  split
  · exact wrote_trans (writeU8_wrote _ w) (writeU8_wrote _ _)
  · exact wrote_mono (writeU8_wrote _ w) (by omega)

theorem writePixel_wrote (a b c : Nat) (w : World) : Wrote w (writePixel a b c w).2 3 := by
  unfold writePixel
  simp only
  split
  · split
    · exact wrote_trans (wrote_trans (writeU8_wrote _ w) (writeU8_wrote _ _))
        (writeU8_wrote _ _)
    · exact wrote_mono (wrote_trans (writeU8_wrote _ w) (writeU8_wrote _ _)) (by omega)
  · exact wrote_mono (writeU8_wrote _ w) (by omega)

theorem writePixels_wrote (pixel : Buffer) (n : Nat) (w : World) :
    Wrote w (writePixels pixel n w) (3 * n) := by
  induction n with
  | zero => exact wrote_refl w
  | succ n ih =>
    unfold writePixels at ih ⊢
    rw [List.range_succ, List.foldl_append]
    exact wrote_mono (wrote_trans ih (writePixel_wrote _ _ _ _)) (by omega)

theorem writeAlphas_wrote (pixel : Buffer) (n : Nat) (w : World) :
    Wrote w (writeAlphas pixel n w) n := by
  induction n with
  | zero => exact wrote_refl w
  | succ n ih =>
    unfold writeAlphas at ih ⊢
    rw [List.range_succ, List.foldl_append]
    exact wrote_trans ih (writeU8_wrote _ _)

theorem repHead_wrote (n : Nat) (w : World) :
    Wrote w (if n < 128 then (writeU8 ((n + 127) % 256) w).2
      else (writeU16 (n % 65536) (writeU8 128 w).2).2) 3 := by
  split
  · exact wrote_mono (writeU8_wrote _ w) (by omega)
  · exact wrote_trans (writeU8_wrote _ w) (writeU16_wrote _ _)

theorem colourIter_wrote (p : Nat) (st : PassState) (w : World)
    (hb : 1 < st.count → st.seqSame = 0 → st.count ≤ 127) :
    Wrote w (colourIter p st w).2 385 := by
  unfold colourIter
  simp only
  by_cases h0 : st.count = 0
  · simp only [h0, if_true]
    exact wrote_mono (wrote_refl w) (by omega)
  · by_cases h1 : st.count = 1
    · simp only [h1, if_true, one_ne_zero, if_false]
      exact wrote_mono (wrote_refl w) (by omega)
    · have h2 : st.count > 1 := by omega
      simp only [h0, h1, h2, if_true, if_false]
      generalize (if st.seqSame ≠ 0 then _ else _ : Nat) = same
      by_cases hx : same ^^^ st.seqSame ≠ 0
      · rw [if_pos hx]
        by_cases hs : st.seqSame = 0
        · simp only [hs, if_true]
          have := hb h2 hs
          exact wrote_mono (wrote_trans (writeU8_wrote _ w) (writePixels_wrote _ _ _))
            (by omega)
        · simp only [hs, if_false]
          refine wrote_mono (wrote_trans (repHead_wrote st.count w) (writePixel_wrote _ _ _ _))
            ?_
          omega
      · rw [if_neg hx]
        by_cases ha : st.count + 1 = 128 ∧ st.seqSame = 0
        · have hz : ¬ ((0 : Nat) = 65536 ∧ st.seqSame ≠ 0) := fun h => absurd h.1 (by decide)
          rw [if_pos ha]
          simp only []
          rw [if_neg hz]
          exact wrote_mono (wrote_trans (writeU8_wrote _ w) (writePixels_wrote _ _ _))
            (by omega)
        · simp only [ha, if_false]
          by_cases hb2 : st.count + 1 = 65536 ∧ st.seqSame ≠ 0
          · simp only [hb2.1, hb2.2, ne_eq, not_false_eq_true, and_self, if_true]
            refine wrote_mono (wrote_trans (wrote_trans (writeU8_wrote _ w)
              (writeU16_wrote _ _)) (writePixel_wrote _ _ _ _)) ?_
            omega
          · simp only [hb2, if_false]
            exact wrote_mono (wrote_refl w) (by omega)

theorem colourIter_state (p : Nat) (st : PassState) (w w' : World) :
    (colourIter p st w).1 = (colourIter p st w').1 := by
  unfold colourIter
  simp only
  by_cases h0 : st.count = 0
  · simp only [h0, if_true]
  · by_cases h1 : st.count = 1
    · simp only [h1, if_true, one_ne_zero, if_false]
    · have h2 : st.count > 1 := by omega
      simp only [h0, h1, h2, if_true, if_false]
      generalize (if st.seqSame ≠ 0 then _ else _ : Nat) = same
      by_cases hx : same ^^^ st.seqSame ≠ 0
      · rw [if_pos hx, if_pos hx]
        by_cases hs : st.seqSame = 0
        · simp only [hs, if_true]
        · simp only [hs, if_false]
      · rw [if_neg hx, if_neg hx]
        by_cases ha : st.count + 1 = 128 ∧ st.seqSame = 0
        · have hz : ¬ ((0 : Nat) = 65536 ∧ st.seqSame ≠ 0) := fun h => absurd h.1 (by decide)
          rw [if_pos ha, if_pos ha]
          simp only []
          rw [if_neg hz, if_neg hz]
        · simp only [ha, if_false]
          by_cases hb2 : st.count + 1 = 65536 ∧ st.seqSame ≠ 0
          · simp only [hb2.1, hb2.2, ne_eq, not_false_eq_true, and_self, if_true]
          · simp only [hb2, if_false]

theorem colourFlush_wrote (st : PassState) (w : World)
    (hb : 1 < st.count → st.seqSame = 0 → st.count ≤ 127) :
    Wrote w (colourFlush st w) 385 := by
  unfold colourFlush
  simp only
  by_cases h : st.count = 1 ∨ st.seqSame = 0
  · rw [if_pos h]
    have : st.count ≤ 127 := by
      rcases h with h | h
      · omega
      · by_cases h1 : 1 < st.count
        · exact hb h1 h
        · omega
    exact wrote_mono (wrote_trans (writeU8_wrote _ w) (writePixels_wrote _ _ _)) (by omega)
  · rw [if_neg h]
    exact wrote_mono (wrote_trans (repHead_wrote st.count w) (writePixel_wrote _ _ _ _))
      (by omega)

theorem alphaIter_wrote (p : Nat) (st : PassState) (w : World)
    (hb : 1 < st.count → st.seqSame = 0 → st.count ≤ 127) :
    Wrote w (alphaIter p st w).2 385 := by
  unfold alphaIter
  simp only
  by_cases h0 : st.count = 0
  · simp only [h0, if_true]
    exact wrote_mono (wrote_refl w) (by omega)
  · by_cases h1 : st.count = 1
    · simp only [h1, if_true, one_ne_zero, if_false]
      exact wrote_mono (wrote_refl w) (by omega)
    · have h2 : st.count > 1 := by omega
      simp only [h0, h1, h2, if_true, if_false]
      generalize (if st.seqSame ≠ 0 then _ else _ : Nat) = same
      by_cases hx : same ^^^ st.seqSame ≠ 0
      · rw [if_pos hx]
        by_cases hs : st.seqSame = 0
        · simp only [hs, if_true]
          have := hb h2 hs
          exact wrote_mono (wrote_trans (writeU8_wrote _ w) (writeAlphas_wrote _ _ _))
            (by omega)
        · simp only [hs, if_false]
          refine wrote_mono (wrote_trans (repHead_wrote st.count w) (writeU8_wrote _ _)) ?_
          omega
      · rw [if_neg hx]
        by_cases ha : st.count + 1 = 128 ∧ st.seqSame = 0
        · have hz : ¬ ((0 : Nat) = 65536 ∧ st.seqSame ≠ 0) := fun h => absurd h.1 (by decide)
          rw [if_pos ha]
          simp only []
          rw [if_neg hz]
          exact wrote_mono (wrote_trans (writeU8_wrote _ w) (writeAlphas_wrote _ _ _))
            (by omega)
        · simp only [ha, if_false]
          by_cases hb2 : st.count + 1 = 65536 ∧ st.seqSame ≠ 0
          · simp only [hb2.1, hb2.2, ne_eq, not_false_eq_true, and_self, if_true]
            refine wrote_mono (wrote_trans (wrote_trans (writeU8_wrote _ w)
              (writeU16_wrote _ _)) (writeU8_wrote _ _)) ?_
            omega
          · simp only [hb2, if_false]
            exact wrote_mono (wrote_refl w) (by omega)

theorem alphaIter_state (p : Nat) (st : PassState) (w w' : World) :
    (alphaIter p st w).1 = (alphaIter p st w').1 := by
  unfold alphaIter
  simp only
  by_cases h0 : st.count = 0
  · simp only [h0, if_true]
  · by_cases h1 : st.count = 1
    · simp only [h1, if_true, one_ne_zero, if_false]
    · have h2 : st.count > 1 := by omega
      simp only [h0, h1, h2, if_true, if_false]
      generalize (if st.seqSame ≠ 0 then _ else _ : Nat) = same
      by_cases hx : same ^^^ st.seqSame ≠ 0
      · rw [if_pos hx, if_pos hx]
        by_cases hs : st.seqSame = 0
        · simp only [hs, if_true]
        · simp only [hs, if_false]
      · rw [if_neg hx, if_neg hx]
        by_cases ha : st.count + 1 = 128 ∧ st.seqSame = 0
        · have hz : ¬ ((0 : Nat) = 65536 ∧ st.seqSame ≠ 0) := fun h => absurd h.1 (by decide)
          rw [if_pos ha, if_pos ha]
          simp only []
          rw [if_neg hz, if_neg hz]
        · simp only [ha, if_false]
          by_cases hb2 : st.count + 1 = 65536 ∧ st.seqSame ≠ 0
          · simp only [hb2.1, hb2.2, ne_eq, not_false_eq_true, and_self, if_true]
          · simp only [hb2, if_false]

theorem alphaFlush_wrote (st : PassState) (w : World)
    (hb : 1 < st.count → st.seqSame = 0 → st.count ≤ 127) :
    Wrote w (alphaFlush st w) 385 := by
  unfold alphaFlush
  simp only
  by_cases h : st.count = 1 ∨ st.seqSame = 0
  · rw [if_pos h]
    have : st.count ≤ 127 := by
      rcases h with h | h
      · omega
      · by_cases h1 : 1 < st.count
        · exact hb h1 h
        · omega
    exact wrote_mono (wrote_trans (writeU8_wrote _ w) (writeAlphas_wrote _ _ _)) (by omega)
  · rw [if_neg h]
    refine wrote_mono (wrote_trans (repHead_wrote st.count w) (writeU8_wrote _ _)) ?_
    omega

theorem colourRel_bound {st : PassState} {s : Run (Nat × Nat × Nat)} (hr : ColourRel st s) :
    1 < st.count → st.seqSame = 0 → st.count ≤ 127 := by
  intro h1 h2
  cases s with
  | empty => have : st.count = 0 := hr; omega
  | one v => have := hr.1; omega
  | lit vs l => have := hr.1; have := hr.2.2.2.1; omega
  | rep v n => have := hr.2.2.1; omega

theorem alphaRel_bound {st : PassState} {s : Run Nat} (hr : AlphaRel st s) :
    1 < st.count → st.seqSame = 0 → st.count ≤ 127 := by
  intro h1 h2
  cases s with
  | empty => have : st.count = 0 := hr; omega
  | one v => have := hr.1; omega
  | lit vs l => have := hr.1; have := hr.2.2.2.1; omega
  | rep v n => have := hr.2.2.1; omega

theorem colourIter_rel (p : Nat) (st : PassState) (w : World) (s : Run (Nat × Nat × Nat))
    (hr : ColourRel st s) : ColourRel (colourIter p st w).1 (s.step (colourOf p)).1 := by
  rw [colourIter_state p st w World.fresh]
  exact (colourIter_sim p st World.fresh s fresh_ideal hr).1

theorem alphaIter_rel (p : Nat) (st : PassState) (w : World) (s : Run Nat)
    (hr : AlphaRel st s) : AlphaRel (alphaIter p st w).1 (s.step (alphaOf p)).1 := by
  rw [alphaIter_state p st w World.fresh]
  exact (alphaIter_sim p st World.fresh s fresh_ideal hr).1

/-! ## Checked blocks of writes -/

theorem tailBound_short (k : Nat) (ext : List Call) (h : ext.length ≤ k + 1) :
    TailBound k ext := by
  intro pre c post he _
  have := congrArg List.length he
  simp only [List.length_append, List.length_cons] at this
  omega

theorem tailBound_append (k : Nat) (e1 e2 : List Call) (h1 : e1.any failedCall = false)
    (h2 : TailBound k e2) : TailBound k (e1 ++ e2) := by
  intro pre c post he hc
  rcases List.append_eq_append_iff.mp he with ⟨a, rfl, ha⟩ | ⟨a, ha, hb⟩
  · exact h2 a c post ha hc
  · cases a with
    | nil =>
      simp only [List.nil_append] at hb
      simp only [List.append_nil] at ha
      exact h2 [] c post (by simpa using hb.symm) hc
    | cons x a =>
      simp only [List.cons_append, List.cons.injEq] at hb
      obtain ⟨rfl, -⟩ := hb
      have hmem : c ∈ e1 := by rw [ha]; simp
      have := List.any_eq_false.mp h1 c hmem
      simp [hc] at this

theorem checked_refl (w : World) : Checked w w :=
  ⟨[], by simp, rfl, by simp, by simp, tailBound_short 384 [] (by simp)⟩

theorem checked_of_wrote {w w' : World} (h : Wrote w w' 385) : Checked w w' := by
  obtain ⟨ext, h1, h2, h3, h4, h5⟩ := h
  exact ⟨ext, h1, h2, h4, h5, tailBound_short 384 ext h3⟩

theorem checked_append {w w1 w2 : World} (h : Checked w w1) (he : w1.error = false)
    (h' : Checked w1 w2) : Checked w w2 := by
  obtain ⟨e1, h1, h2, h4, h5, h6⟩ := h
  obtain ⟨e2, g1, g2, g4, g5, g6⟩ := h'
  have hno : e1.any failedCall = false := by
    rw [he] at h5
    cases hx : e1.any failedCall
    · rfl
    · rw [hx] at h5; simp at h5
  refine ⟨e1 ++ e2, by rw [g1, h1, List.append_assoc], by rw [g2, h2], ?_, ?_,
    tailBound_append 384 e1 e2 hno g6⟩
  · intro c hc
    rcases List.mem_append.mp hc with hc | hc
    · exact h4 c hc
    · exact g4 c hc
  · rw [g5, h5, List.any_append, Bool.or_assoc]

theorem checked_error_mono {w w' : World} (h : Checked w w') (he : w.error = true) :
    w'.error = true := by
  obtain ⟨e, -, -, -, h5, -⟩ := h
  rw [h5, he]; rfl

theorem colourLoop_checked (line : List Nat) (st : PassState) (w : World)
    (s : Run (Nat × Nat × Nat)) (hr : ColourRel st s) :
    Checked w (colourLoop line st w).2 ∧
      (∀ st1, (colourLoop line st w).1 = some st1 →
        ColourRel st1 (Run.after s (line.map colourOf)) ∧
          (line ≠ [] → (colourLoop line st w).2.error = false)) ∧
      ((colourLoop line st w).1 = none → (colourLoop line st w).2.error = true) := by
  induction line generalizing st w s with
  | nil =>
    refine ⟨checked_refl w, ?_, ?_⟩
    · intro st1 h
      simp only [colourLoop, Option.some.injEq] at h
      subst h
      exact ⟨hr, fun h => absurd rfl h⟩
    · intro h
      simp [colourLoop] at h
  | cons p rest ih =>
    have hw := checked_of_wrote (colourIter_wrote p st w (colourRel_bound hr))
    have hrel := colourIter_rel p st w s hr
    simp only [colourLoop, ferror]
    by_cases he : (colourIter p st w).2.error = true
    · rw [if_pos he]
      exact ⟨hw, fun st1 h => by simp at h, fun _ => he⟩
    · have he' : (colourIter p st w).2.error = false := by
        cases hx : (colourIter p st w).2.error
        · rfl
        · exact absurd hx he
      rw [if_neg he]
      obtain ⟨i1, i2, i3⟩ := ih (colourIter p st w).1 (colourIter p st w).2 _ hrel
      refine ⟨checked_append hw he' i1, ?_, i3⟩
      intro st1 h
      obtain ⟨j1, j2⟩ := i2 st1 h
      refine ⟨by simpa [Run.after] using j1, fun _ => ?_⟩
      cases rest with
      | nil => simpa [colourLoop] using he'
      | cons q rest => exact j2 (by simp)

theorem alphaLoop_checked (line : List Nat) (st : PassState) (w : World)
    (s : Run Nat) (hr : AlphaRel st s) :
    Checked w (alphaLoop line st w).2 ∧
      (∀ st1, (alphaLoop line st w).1 = some st1 →
        AlphaRel st1 (Run.after s (line.map alphaOf)) ∧
          (line ≠ [] → (alphaLoop line st w).2.error = false)) ∧
      ((alphaLoop line st w).1 = none → (alphaLoop line st w).2.error = true) := by
  induction line generalizing st w s with
  | nil =>
    refine ⟨checked_refl w, ?_, ?_⟩
    · intro st1 h
      simp only [alphaLoop, Option.some.injEq] at h
      subst h
      exact ⟨hr, fun h => absurd rfl h⟩
    · intro h
      simp [alphaLoop] at h
  | cons p rest ih =>
    have hw := checked_of_wrote (alphaIter_wrote p st w (alphaRel_bound hr))
    have hrel := alphaIter_rel p st w s hr
    simp only [alphaLoop, ferror]
    by_cases he : (alphaIter p st w).2.error = true
    · rw [if_pos he]
      exact ⟨hw, fun st1 h => by simp at h, fun _ => he⟩
    · have he' : (alphaIter p st w).2.error = false := by
        cases hx : (alphaIter p st w).2.error
        · rfl
        · exact absurd hx he
      rw [if_neg he]
      obtain ⟨i1, i2, i3⟩ := ih (alphaIter p st w).1 (alphaIter p st w).2 _ hrel
      refine ⟨checked_append hw he' i1, ?_, i3⟩
      intro st1 h
      obtain ⟨j1, j2⟩ := i2 st1 h
      refine ⟨by simpa [Run.after] using j1, fun _ => ?_⟩
      cases rest with
      | nil => simpa [alphaLoop] using he'
      | cons q rest => exact j2 (by simp)

theorem bool_eq_false_of_ne_true {b : Bool} (h : ¬ b = true) : b = false := by
  cases b
  · rfl
  · exact absurd rfl h

theorem colourPass_checked (st : PassState) (line : List Nat) (w : World) :
    Checked w (colourPass st line w).2 ∧
      ((colourPass st line w).1.isSome = true → line ≠ [] →
        (colourPass st line w).2.error = false) ∧
      ((colourPass st line w).1 = none → (colourPass st line w).2.error = true) ∧
      (line = [] → (colourPass st line w).2 = w ∧ (colourPass st line w).1.isSome = true) := by
  cases line with
  | nil =>
    simp [colourPass, colourLoop, checked_refl]
  | cons p rest =>
    obtain ⟨i1, i2, i3⟩ := colourLoop_checked (p :: rest) { st with count := 0 } w Run.empty
      (by simp [ColourRel])
    unfold colourPass
    generalize colourLoop (p :: rest) { st with count := 0 } w = r at i1 i2 i3 ⊢
    obtain ⟨o, w1⟩ := r
    cases o with
    | none =>
      exact ⟨i1, fun h => by simp at h, fun _ => i3 rfl, fun h => by simp at h⟩
    | some st1 =>
      obtain ⟨j1, j2⟩ := i2 st1 rfl
      have he1 : w1.error = false := j2 (by simp)
      simp only []
      by_cases hc : st1.count ≠ 0
      · rw [if_pos hc]
        simp only [ferror]
        have hf := checked_append i1 he1
          (checked_of_wrote (colourFlush_wrote st1 w1 (colourRel_bound j1)))
        by_cases he : (colourFlush st1 w1).error = true
        · rw [if_pos he]
          exact ⟨hf, fun h => by simp at h, fun _ => he, fun h => by simp at h⟩
        · have he' := bool_eq_false_of_ne_true he
          rw [if_neg he]
          exact ⟨hf, fun _ _ => he', fun h => by simp at h, fun h => by simp at h⟩
      · rw [if_neg hc]
        exact ⟨i1, fun _ _ => he1, fun h => by simp at h, fun h => by simp at h⟩

theorem alphaPass_checked (st : PassState) (line : List Nat) (w : World) :
    Checked w (alphaPass st line w).2 ∧
      ((alphaPass st line w).1.isSome = true → line ≠ [] →
        (alphaPass st line w).2.error = false) ∧
      ((alphaPass st line w).1 = none → (alphaPass st line w).2.error = true) ∧
      (line = [] → (alphaPass st line w).2 = w ∧ (alphaPass st line w).1.isSome = true) := by
  cases line with
  | nil =>
    simp [alphaPass, alphaLoop, checked_refl]
  | cons p rest =>
    obtain ⟨i1, i2, i3⟩ := alphaLoop_checked (p :: rest) { st with count := 0 } w Run.empty
      (by simp [AlphaRel])
    unfold alphaPass
    generalize alphaLoop (p :: rest) { st with count := 0 } w = r at i1 i2 i3 ⊢
    obtain ⟨o, w1⟩ := r
    cases o with
    | none =>
      exact ⟨i1, fun h => by simp at h, fun _ => i3 rfl, fun h => by simp at h⟩
    | some st1 =>
      obtain ⟨j1, j2⟩ := i2 st1 rfl
      have he1 : w1.error = false := j2 (by simp)
      simp only []
      by_cases hc : st1.count ≠ 0
      · rw [if_pos hc]
        simp only [ferror]
        have hf := checked_append i1 he1
          (checked_of_wrote (alphaFlush_wrote st1 w1 (alphaRel_bound j1)))
        by_cases he : (alphaFlush st1 w1).error = true
        · rw [if_pos he]
          exact ⟨hf, fun h => by simp at h, fun _ => he, fun h => by simp at h⟩
        · have he' := bool_eq_false_of_ne_true he
          rw [if_neg he]
          exact ⟨hf, fun _ _ => he', fun h => by simp at h, fun h => by simp at h⟩
      · rw [if_neg hc]
        exact ⟨i1, fun _ _ => he1, fun h => by simp at h, fun h => by simp at h⟩

/-- `write_scanline` in any world: it makes only byte writes, the error indicator
follows them, no failed write is followed by more than 384 further writes, and for a
scanline of at least one pixel the call returns `true` exactly when the error
indicator is clear at the end. -/
theorem write_scanline_checked (pixel0 : Buffer) (seqSame0 : Nat) (line : List Nat)
    (w : World) :
    Checked w (write_scanline pixel0 seqSame0 line w).2 ∧
      ((write_scanline pixel0 seqSame0 line w).1 = true → line ≠ [] →
        (write_scanline pixel0 seqSame0 line w).2.error = false) ∧
      ((write_scanline pixel0 seqSame0 line w).1 = false →
        (write_scanline pixel0 seqSame0 line w).2.error = true) := by
  obtain ⟨c1, c2, c3, c4⟩ := colourPass_checked
    { seqSame := seqSame0, count := 0, pixel := pixel0 } line w
  unfold write_scanline
  generalize colourPass { seqSame := seqSame0, count := 0, pixel := pixel0 } line w = r
    at c1 c2 c3 c4 ⊢
  obtain ⟨o, w1⟩ := r
  cases o with
  | none =>
    exact ⟨c1, fun h => by simp at h, fun _ => c3 rfl⟩
  | some st1 =>
    simp only []
    obtain ⟨a1, a2, a3, a4⟩ := alphaPass_checked st1 line w1
    generalize alphaPass st1 line w1 = r2 at a1 a2 a3 a4 ⊢
    obtain ⟨o2, w2⟩ := r2
    have hchk : Checked w w2 := by
      by_cases hl : line = []
      · obtain ⟨e1, -⟩ := c4 hl
        obtain ⟨e2, -⟩ := a4 hl
        have e1' : w1 = w := e1
        have e2' : w2 = w1 := e2
        rw [e2', e1']
        exact checked_refl w
      · exact checked_append c1 (c2 rfl hl) a1
    cases o2 with
    | none =>
      exact ⟨hchk, fun h => by simp at h, fun _ => a3 rfl⟩
    | some st2 =>
      exact ⟨hchk, fun _ hl => a2 rfl hl, fun h => by simp at h⟩

theorem write_scanline_calls (pixel0 : Buffer) (seqSame0 : Nat) (line : List Nat) (w : World) :
    (∀ c ∈ newCalls w (write_scanline pixel0 seqSame0 line w).2, ∃ v ok, c = Call.byte v ok) ∧
      (write_scanline pixel0 seqSame0 line w).2.error
        = (w.error || (newCalls w (write_scanline pixel0 seqSame0 line w).2).any failedCall) ∧
      TailBound 384 (newCalls w (write_scanline pixel0 seqSame0 line w).2) := by
  obtain ⟨⟨ext, h1, -, h3, h4, h5⟩, -, -⟩ := write_scanline_checked pixel0 seqSame0 line w
  have hn : newCalls w (write_scanline pixel0 seqSame0 line w).2 = ext := by
    unfold newCalls
    rw [h1, List.drop_left]
  rw [hn]
  exact ⟨h3, h4, h5⟩

/-! ## Blocks of writes, one per iteration or flush -/

theorem blocked_nil (w : World) : Blocked w w [] := by
  refine ⟨by simp, by simp, by simp, ?_⟩
  intro pre blk post h
  simp at h

theorem blocked_one {w w' : World} (h : Wrote w w' 385) : Blocked w w' [newCalls w w'] := by
  obtain ⟨ext, h1, -, h3, -, h5⟩ := h
  have hn : newCalls w w' = ext := by
    unfold newCalls
    rw [h1, List.drop_left]
  rw [hn]
  refine ⟨by simpa using h1, by simpa using h5, by simpa using h3, ?_⟩
  intro pre blk post he _
  cases pre with
  | nil =>
    simp only [List.nil_append, List.cons.injEq] at he
    exact he.2.symm
  | cons x xs =>
    simp at he

theorem blocked_append {w w1 w2 : World} {B1 B2 : List (List Call)}
    (h : Blocked w w1 B1) (he : w1.error = false) (h' : Blocked w1 w2 B2) :
    Blocked w w2 (B1 ++ B2) := by
  obtain ⟨h1, h2, h3, -⟩ := h
  obtain ⟨g1, g2, g3, g4⟩ := h'
  have hno : B1.flatten.any failedCall = false := by
    rw [he] at h2
    cases hx : B1.flatten.any failedCall
    · rfl
    · rw [hx] at h2; simp at h2
  have hw : w.error = false := by
    rw [he] at h2
    cases hx : w.error
    · rfl
    · rw [hx] at h2; simp at h2
  have hno' : ∀ b ∈ B1, b.any failedCall = false := by
    intro b hb
    cases hx : b.any failedCall
    · rfl
    · exfalso
      obtain ⟨c, hc, hf⟩ := List.any_eq_true.mp hx
      have : B1.flatten.any failedCall = true :=
        List.any_eq_true.mpr ⟨c, List.mem_flatten.mpr ⟨b, hb, hc⟩, hf⟩
      rw [hno] at this
      exact absurd this (by decide)
  refine ⟨?_, ?_, ?_, ?_⟩
  · rw [g1, h1, List.flatten_append, List.append_assoc]
  · rw [g2, he, hw, List.flatten_append, List.any_append, hno]
    simp
  · intro blk hb
    rcases List.mem_append.mp hb with hb | hb
    · exact h3 blk hb
    · exact g3 blk hb
  · intro pre blk post hs hf
    rcases List.append_eq_append_iff.mp hs with ⟨a, -, ha⟩ | ⟨a, ha, hb⟩
    · exact g4 a blk post ha hf
    · cases a with
      | nil =>
        simp only [List.nil_append] at hb
        exact g4 [] blk post hb.symm hf
      | cons x xs =>
        simp only [List.cons_append, List.cons.injEq] at hb
        have hx : blk ∈ B1 := by
          rw [ha, hb.1]
          simp
        have := hno' blk hx
        rw [hf] at this
        exact absurd this (by decide)

theorem colourLoop_blocked (line : List Nat) (st : PassState) (w : World)
    (s : Run (Nat × Nat × Nat)) (hr : ColourRel st s) :
    Blocked w (colourLoop line st w).2 (colourLoopBlocks line st w) := by
  induction line generalizing st w s with
  | nil => exact blocked_nil w
  | cons p rest ih =>
    have h1 := blocked_one (colourIter_wrote p st w (colourRel_bound hr))
    unfold colourLoop colourLoopBlocks
    simp only []
    by_cases he : ferror (colourIter p st w).2 = true
    · rw [if_pos he, if_pos he]
      exact h1
    · rw [if_neg he, if_neg he]
      have := blocked_append h1 (bool_eq_false_of_ne_true he)
        (ih (colourIter p st w).1 (colourIter p st w).2 _ (colourIter_rel p st w s hr))
      rwa [List.singleton_append] at this

theorem alphaLoop_blocked (line : List Nat) (st : PassState) (w : World)
    (s : Run Nat) (hr : AlphaRel st s) :
    Blocked w (alphaLoop line st w).2 (alphaLoopBlocks line st w) := by
  induction line generalizing st w s with
  | nil => exact blocked_nil w
  | cons p rest ih =>
    have h1 := blocked_one (alphaIter_wrote p st w (alphaRel_bound hr))
    unfold alphaLoop alphaLoopBlocks
    simp only []
    by_cases he : ferror (alphaIter p st w).2 = true
    · rw [if_pos he, if_pos he]
      exact h1
    · rw [if_neg he, if_neg he]
      have := blocked_append h1 (bool_eq_false_of_ne_true he)
        (ih (alphaIter p st w).1 (alphaIter p st w).2 _ (alphaIter_rel p st w s hr))
      rwa [List.singleton_append] at this

theorem colourPass_blocked (st : PassState) (line : List Nat) (w : World) :
    Blocked w (colourPass st line w).2 (colourPassBlocks st line w) := by
  cases line with
  | nil =>
    simp [colourPass, colourLoop, colourPassBlocks, colourLoopBlocks, blocked_nil]
  | cons p rest =>
    obtain ⟨-, i2, -⟩ := colourLoop_checked (p :: rest) { st with count := 0 } w Run.empty
      (by simp [ColourRel])
    have b1 := colourLoop_blocked (p :: rest) { st with count := 0 } w Run.empty
      (by simp [ColourRel])
    unfold colourPass colourPassBlocks
    generalize colourLoop (p :: rest) { st with count := 0 } w = r at i2 b1 ⊢
    obtain ⟨o, w1⟩ := r
    cases o with
    | none =>
      simp only [List.append_nil]
      exact b1
    | some st1 =>
      obtain ⟨j1, j2⟩ := i2 st1 rfl
      have he1 : w1.error = false := j2 (by simp)
      simp only []
      by_cases hc : st1.count ≠ 0
      · rw [if_pos hc, if_pos hc]
        have hf := blocked_append b1 he1
          (blocked_one (colourFlush_wrote st1 w1 (colourRel_bound j1)))
        by_cases he : ferror (colourFlush st1 w1) = true
        · rw [if_pos he]
          exact hf
        · rw [if_neg he]
          exact hf
      · rw [if_neg hc, if_neg hc]
        simp only [List.append_nil]
        exact b1

theorem alphaPass_blocked (st : PassState) (line : List Nat) (w : World) :
    Blocked w (alphaPass st line w).2 (alphaPassBlocks st line w) := by
  cases line with
  | nil =>
    simp [alphaPass, alphaLoop, alphaPassBlocks, alphaLoopBlocks, blocked_nil]
  | cons p rest =>
    obtain ⟨-, i2, -⟩ := alphaLoop_checked (p :: rest) { st with count := 0 } w Run.empty
      (by simp [AlphaRel])
    have b1 := alphaLoop_blocked (p :: rest) { st with count := 0 } w Run.empty
      (by simp [AlphaRel])
    unfold alphaPass alphaPassBlocks
    generalize alphaLoop (p :: rest) { st with count := 0 } w = r at i2 b1 ⊢
    obtain ⟨o, w1⟩ := r
    cases o with
    | none =>
      simp only [List.append_nil]
      exact b1
    | some st1 =>
      obtain ⟨j1, j2⟩ := i2 st1 rfl
      have he1 : w1.error = false := j2 (by simp)
      simp only []
      by_cases hc : st1.count ≠ 0
      · rw [if_pos hc, if_pos hc]
        have hf := blocked_append b1 he1
          (blocked_one (alphaFlush_wrote st1 w1 (alphaRel_bound j1)))
        by_cases he : ferror (alphaFlush st1 w1) = true
        · rw [if_pos he]
          exact hf
        · rw [if_neg he]
          exact hf
      · rw [if_neg hc, if_neg hc]
        simp only [List.append_nil]
        exact b1

theorem write_scanline_blocked (pixel0 : Buffer) (seqSame0 : Nat) (line : List Nat)
    (w : World) :
    Blocked w (write_scanline pixel0 seqSame0 line w).2
      (write_scanlineBlocks pixel0 seqSame0 line w) := by
  obtain ⟨-, c2, -, c4⟩ := colourPass_checked
    { seqSame := seqSame0, count := 0, pixel := pixel0 } line w
  have b1 := colourPass_blocked { seqSame := seqSame0, count := 0, pixel := pixel0 } line w
  unfold write_scanline write_scanlineBlocks
  generalize colourPass { seqSame := seqSame0, count := 0, pixel := pixel0 } line w = r
    at c2 c4 b1 ⊢
  obtain ⟨o, w1⟩ := r
  cases o with
  | none =>
    simp only [List.append_nil]
    exact b1
  | some st1 =>
    simp only []
    have b2 := alphaPass_blocked st1 line w1
    have hb : Blocked w (alphaPass st1 line w1).2
        (colourPassBlocks { seqSame := seqSame0, count := 0, pixel := pixel0 } line w
          ++ alphaPassBlocks st1 line w1) := by
      by_cases hl : line = []
      · subst hl
        have e1 : w1 = w := (c4 rfl).1
        subst e1
        simpa [colourPassBlocks, colourLoopBlocks, colourLoop] using b2
      · exact blocked_append b1 (c2 rfl hl) b2
    generalize alphaPass st1 line w1 = r2 at hb ⊢
    obtain ⟨o2, w2⟩ := r2
    cases o2 <;> exact hb

/-! ## The claims about failing writes -/

/-- C12, refuted on a stream whose error indicator is already set when the call
starts (an earlier call had a failed write): `write_scanline` on one pixel makes no
write at all, so no byte write of the call fails, and yet it returns `false`. -/
theorem C12_counterexample :
    (write_scanline (fun _ _ => 0) 0 [1]
        { log := [], error := true, fails := fun _ => false }).1 = false ∧
      newCalls { log := [], error := true, fails := fun _ => false }
        (write_scanline (fun _ _ => 0) 0 [1]
          { log := [], error := true, fails := fun _ => false }).2 = [] := by
  decide

/-- C12, amended.  For a scanline of at least one pixel, in any world,
`write_scanline` returns `true` if and only if the error indicator of the stream was
clear when the call started and no byte write of the call failed; and whenever a
byte write of the call fails, the call returns `false`.  The calls it makes are byte
writes only. -/
theorem C12_success_iff_no_failure (pixel0 : Buffer) (seqSame0 : Nat) (line : List Nat)
    (w : World) (hne : line ≠ []) :
    ((write_scanline pixel0 seqSame0 line w).1 = true ↔
      (w.error = false ∧
        ∀ c ∈ newCalls w (write_scanline pixel0 seqSame0 line w).2, failedCall c = false)) ∧
    ((∃ c ∈ newCalls w (write_scanline pixel0 seqSame0 line w).2, failedCall c = true) →
      (write_scanline pixel0 seqSame0 line w).1 = false) ∧
    (∀ c ∈ newCalls w (write_scanline pixel0 seqSame0 line w).2, ∃ v ok, c = Call.byte v ok) := by
  obtain ⟨-, k2, k3⟩ := write_scanline_checked pixel0 seqSame0 line w
  obtain ⟨c1, c2, -⟩ := write_scanline_calls pixel0 seqSame0 line w
  have hiff : (write_scanline pixel0 seqSame0 line w).1 = true ↔
      (write_scanline pixel0 seqSame0 line w).2.error = false := by
    constructor
    · intro h
      exact k2 h hne
    · intro h
      by_contra hr
      have := k3 (bool_eq_false_of_ne_true hr)
      rw [h] at this
      exact absurd this (by decide)
  have herr : (write_scanline pixel0 seqSame0 line w).2.error = false ↔
      (w.error = false ∧
        ∀ c ∈ newCalls w (write_scanline pixel0 seqSame0 line w).2, failedCall c = false) := by
    rw [c2, Bool.or_eq_false_iff, List.any_eq_false]
    simp
  refine ⟨hiff.trans herr, ?_, c1⟩
  rintro ⟨c, hc, hf⟩
  by_contra hr
  have ht : (write_scanline pixel0 seqSame0 line w).1 = true := by
    cases hx : (write_scanline pixel0 seqSame0 line w).1
    · exact absurd hx hr
    · rfl
  have := ((hiff.trans herr).mp ht).2 c hc
  rw [hf] at this
  exact absurd this (by decide)

/-- C12 amended, at one pixel in a world where nothing fails: the call returns
`true`. -/
theorem C12_success_iff_no_failure_witness :
    (write_scanline (fun _ _ => 0) 0 [1] World.fresh).1 = true :=
  (C12_success_iff_no_failure (fun _ _ => 0) 0 [1] World.fresh (by decide)).1.mpr
    ⟨rfl, by decide⟩

/-- C14, refuted: on the colours `1, 2, 2` the third iteration flushes the literal
run `1`; when the write of its control byte fails, the three bytes of the tuple are
still written (here successfully) before `ferror` is tested. -/
theorem C14_counterexample :
    newCalls (World.failingAfter 0)
        (write_scanline (fun _ _ => 0) 0 [1, 2, 2] (World.failingAfter 0)).2
      = [Call.byte 0 false, Call.byte 1 true, Call.byte 0 true, Call.byte 0 true] ∧
    (write_scanline (fun _ _ => 0) 0 [1, 2, 2] (World.failingAfter 0)).1 = false := by
  decide

/-- C14, amended.  `ferror` is tested once at the end of every loop iteration and
once after each final flush, not after every byte write.  The calls of
`write_scanline`, in any world, are the calls of its blocks in order, a block being
the calls of one loop iteration or of one final flush.  When a byte write fails, the
block it belongs to is the last block: the writes that follow it in the call all
belong to the same iteration or flush, there are at most 384 of them, and no later
iteration or flush (nor the alpha pass after a failure in the colour pass) makes any
call.  No write of an earlier block failed, and the call returns `false`. -/
theorem C14_writes_after_failure (pixel0 : Buffer) (seqSame0 : Nat) (line : List Nat)
    (w : World) (pre : List (List Call)) (blk : List Call) (post : List (List Call))
    (c : Call)
    (hsplit : write_scanlineBlocks pixel0 seqSame0 line w = pre ++ blk :: post)
    (hc : c ∈ blk) (hfail : failedCall c = true) :
    newCalls w (write_scanline pixel0 seqSame0 line w).2
        = (write_scanlineBlocks pixel0 seqSame0 line w).flatten ∧
      post = [] ∧
      newCalls w (write_scanline pixel0 seqSame0 line w).2 = pre.flatten ++ blk ∧
      (∀ b ∈ pre, ∀ d ∈ b, failedCall d = false) ∧
      blk.length ≤ 385 ∧
      (∀ cpre d cpost,
        newCalls w (write_scanline pixel0 seqSame0 line w).2 = cpre ++ d :: cpost →
        failedCall d = true → cpost.length ≤ 384) ∧
      (write_scanline pixel0 seqSame0 line w).1 = false := by
  obtain ⟨b1, b2, b3, b4⟩ := write_scanline_blocked pixel0 seqSame0 line w
  obtain ⟨-, -, c3⟩ := write_scanline_calls pixel0 seqSame0 line w
  obtain ⟨-, k2, -⟩ := write_scanline_checked pixel0 seqSame0 line w
  have hany : blk.any failedCall = true := List.any_eq_true.mpr ⟨c, hc, hfail⟩
  have hpost : post = [] := b4 pre blk post hsplit hany
  have hnew : newCalls w (write_scanline pixel0 seqSame0 line w).2
      = (write_scanlineBlocks pixel0 seqSame0 line w).flatten := by
    unfold newCalls
    rw [b1, List.drop_left]
  have herr : (write_scanline pixel0 seqSame0 line w).2.error = true := by
    rw [b2, hsplit]
    have : (pre ++ blk :: post).flatten.any failedCall = true :=
      List.any_eq_true.mpr ⟨c, List.mem_flatten.mpr ⟨blk, by simp, hc⟩, hfail⟩
    rw [this]
    simp
  have hne : line ≠ [] := by
    intro hl
    subst hl
    have : write_scanlineBlocks pixel0 seqSame0 [] w = [] := by
      simp [write_scanlineBlocks, colourPassBlocks, colourLoopBlocks, colourLoop, colourPass,
        alphaPassBlocks, alphaLoopBlocks, alphaLoop]
    rw [this] at hsplit
    simp at hsplit
  refine ⟨hnew, hpost, ?_, ?_, b3 blk (by rw [hsplit]; simp), c3, ?_⟩
  · rw [hnew, hsplit, hpost]
    simp
  · intro b hb d hd
    obtain ⟨p1, p2, hp⟩ := List.append_of_mem hb
    cases hx : failedCall d
    · rfl
    · exfalso
      have hs : write_scanlineBlocks pixel0 seqSame0 line w
          = p1 ++ b :: (p2 ++ blk :: post) := by
        rw [hsplit, hp]
        simp
      have := b4 p1 b (p2 ++ blk :: post) hs (List.any_eq_true.mpr ⟨d, hd, hx⟩)
      simp at this
  · by_contra hr
    have ht : (write_scanline pixel0 seqSame0 line w).1 = true := by
      cases hx : (write_scanline pixel0 seqSame0 line w).1
      · exact absurd hx hr
      · rfl
    have := k2 ht hne
    rw [herr] at this
    exact absurd this (by decide)

/-- C14 amended, at the colours `1, 2, 2` with a failing first write: the first two
iterations write nothing, the third makes the failed write and three more, and that
is all the call does before it returns `false`. -/
theorem C14_writes_after_failure_witness :
    newCalls (World.failingAfter 0)
        (write_scanline (fun _ _ => 0) 0 [1, 2, 2] (World.failingAfter 0)).2
      = List.flatten [[], []]
        ++ [Call.byte 0 false, Call.byte 1 true, Call.byte 0 true, Call.byte 0 true] ∧
    (write_scanline (fun _ _ => 0) 0 [1, 2, 2] (World.failingAfter 0)).1 = false :=
  ⟨(C14_writes_after_failure (fun _ _ => 0) 0 [1, 2, 2] (World.failingAfter 0) [[], []]
      [Call.byte 0 false, Call.byte 1 true, Call.byte 0 true, Call.byte 0 true] []
      (Call.byte 0 false) (by decide) (by decide) rfl).2.2.1,
    (C14_writes_after_failure (fun _ _ => 0) 0 [1, 2, 2] (World.failingAfter 0) [[], []]
      [Call.byte 0 false, Call.byte 1 true, Call.byte 0 true, Call.byte 0 true] []
      (Call.byte 0 false) (by decide) (by decide) rfl).2.2.2.2.2.2⟩

/-! ## Buffer safety -/

theorem xor_one_same (same : Nat) (h : ¬ same ^^^ 1 ≠ 0) : same ≠ 0 := by
  rintro rfl
  exact h (by decide)

theorem colourIterSlots_lt (p : Nat) (st : PassState) (s : Run (Nat × Nat × Nat))
    (hr : ColourRel st s) : ∀ i ∈ colourIterSlots p st, i < 128 := by
  unfold colourIterSlots
  simp only
  cases s with
  | empty =>
    have h0 : st.count = 0 := hr
    simp [h0]
  | one v =>
    have h1 : st.count = 1 := hr.1
    simp only [h1, one_ne_zero, if_false, if_true]
    intro i hi
    simp only [List.mem_append, List.mem_singleton] at hi
    rcases hi with rfl | hi
    · omega
    · split at hi <;> simp at hi
      omega
  | lit vs l =>
    obtain ⟨hc, hs, h1, h128, -⟩ := hr
    have h0 : st.count ≠ 0 := by omega
    have h1' : st.count ≠ 1 := by omega
    have h2 : st.count > 1 := by omega
    simp only [h0, h1', h2, hs, if_true, if_false, ne_eq, not_true_eq_false, and_true]
    generalize (eqInt _ _ &&& eqInt _ _ &&& eqInt _ _ : Nat) = same
    intro i hi
    simp only [List.mem_append, List.mem_singleton] at hi
    rcases hi with rfl | hi
    · omega
    · split at hi
      · simp only [List.mem_append, List.mem_range, List.mem_cons, List.mem_singleton,
          List.not_mem_nil, or_false] at hi
        omega
      · simp only [List.mem_append] at hi
        rcases hi with (hi | hi) | hi
        · split at hi <;> simp at hi
          omega
        · split at hi
          · simp only [List.mem_range] at hi; omega
          · simp at hi
        · simp at hi
  | rep v n =>
    obtain ⟨hc, h2n, hs, -⟩ := hr
    have h0 : st.count ≠ 0 := by omega
    have h1' : st.count ≠ 1 := by omega
    have h2 : st.count > 1 := by omega
    simp only [h0, h1', h2, hs, if_true, if_false, ne_eq, one_ne_zero, not_false_eq_true,
      and_false, and_true]
    generalize (eqInt _ _ &&& eqInt _ _ &&& eqInt _ _ : Nat) = same
    intro i hi
    simp only [List.mem_append, List.mem_singleton] at hi
    rcases hi with rfl | hi
    · omega
    · split at hi
      · simp at hi; omega
      · rename_i hx
        have hsame := xor_one_same same (by simpa using hx)
        simp only [hsame, if_false, List.nil_append] at hi
        split at hi <;> simp at hi
        omega

theorem alphaIterSlots_lt (p : Nat) (st : PassState) (s : Run Nat)
    (hr : AlphaRel st s) : ∀ i ∈ alphaIterSlots p st, i < 128 := by
  unfold alphaIterSlots
  simp only
  cases s with
  | empty =>
    have h0 : st.count = 0 := hr
    simp [h0]
  | one v =>
    have h1 : st.count = 1 := hr.1
    simp only [h1, one_ne_zero, if_false, if_true]
    intro i hi
    simp only [List.mem_append, List.mem_singleton] at hi
    rcases hi with rfl | hi
    · omega
    · split at hi <;> simp at hi
      omega
  | lit vs l =>
    obtain ⟨hc, hs, h1, h128, -⟩ := hr
    have h0 : st.count ≠ 0 := by omega
    have h1' : st.count ≠ 1 := by omega
    have h2 : st.count > 1 := by omega
    simp only [h0, h1', h2, hs, if_true, if_false, ne_eq, not_true_eq_false, and_true]
    generalize (eqInt _ _ : Nat) = same
    intro i hi
    simp only [List.mem_append, List.mem_singleton] at hi
    rcases hi with rfl | hi
    · omega
    · split at hi
      · simp only [List.mem_append, List.mem_range, List.mem_cons, List.mem_singleton,
          List.not_mem_nil, or_false] at hi
        omega
      · simp only [List.mem_append] at hi
        rcases hi with (hi | hi) | hi
        · split at hi <;> simp at hi
          omega
        · split at hi
          · simp only [List.mem_range] at hi; omega
          · simp at hi
        · simp at hi
  | rep v n =>
    obtain ⟨hc, h2n, hs, -⟩ := hr
    have h0 : st.count ≠ 0 := by omega
    have h1' : st.count ≠ 1 := by omega
    have h2 : st.count > 1 := by omega
    simp only [h0, h1', h2, hs, if_true, if_false, ne_eq, one_ne_zero, not_false_eq_true,
      and_false, and_true]
    generalize (eqInt _ _ : Nat) = same
    intro i hi
    simp only [List.mem_append, List.mem_singleton] at hi
    rcases hi with rfl | hi
    · omega
    · split at hi
      · simp at hi; omega
      · rename_i hx
        have hsame := xor_one_same same (by simpa using hx)
        simp only [hsame, if_false, List.nil_append] at hi
        split at hi <;> simp at hi
        omega

theorem flushSlots_lt (st : PassState)
    (hb : 1 < st.count → st.seqSame = 0 → st.count ≤ 127) :
    ∀ i ∈ colourFlushSlots st, i < 128 := by
  unfold colourFlushSlots
  intro i hi
  split at hi
  · rename_i h
    simp only [List.mem_range] at hi
    rcases h with h | h
    · omega
    · by_cases h1 : 1 < st.count
      · have := hb h1 h; omega
      · omega
  · simp at hi; omega

theorem colourRel_count_one {st : PassState} {s : Run (Nat × Nat × Nat)} (c : Nat × Nat × Nat)
    (hr : ColourRel st s) (h0 : st.count = 0) {st' : PassState}
    (hr' : ColourRel st' (s.step c).1) : st'.count = 1 := by
  have hs := after_empty_of_count hr h0
  subst hs
  exact hr'.1

theorem alphaRel_count_one {st : PassState} {s : Run Nat} (c : Nat)
    (hr : AlphaRel st s) (h0 : st.count = 0) {st' : PassState}
    (hr' : AlphaRel st' (s.step c).1) : st'.count = 1 := by
  have hs := alpha_empty_of_count hr h0
  subst hs
  exact hr'.1

theorem colourLoopSafe_of_rel (line : List Nat) (st : PassState) (w : World) (init : Bool)
    (s : Run (Nat × Nat × Nat)) (hr : ColourRel st s) (hinit : 1 < st.count → init = true) :
    colourLoopSafe line st w init := by
  induction line generalizing st w init s with
  | nil =>
    intro hc
    refine ⟨flushSlots_lt st (colourRel_bound hr), ?_⟩
    intro hread
    simp only [flushReadsSeqSame, decide_eq_true_eq] at hread
    exact hinit (by omega)
  | cons p rest ih =>
    refine ⟨colourIterSlots_lt p st s hr, ?_, ?_⟩
    · intro hread
      simp only [iterReadsSeqSame, decide_eq_true_eq] at hread
      exact hinit hread
    · intro _
      have hrel := colourIter_rel p st w s hr
      apply ih _ _ _ _ hrel
      intro hgt
      by_cases h0 : st.count = 0
      · have := colourRel_count_one (colourOf p) hr h0 hrel
        omega
      · by_cases h1 : st.count = 1
        · simp [iterAssignsSeqSame, h1]
        · rw [hinit (by omega)]
          rfl

theorem alphaLoopSafe_of_rel (line : List Nat) (st : PassState) (w : World) (init : Bool)
    (s : Run Nat) (hr : AlphaRel st s) (hinit : 1 < st.count → init = true) :
    alphaLoopSafe line st w init := by
  induction line generalizing st w init s with
  | nil =>
    intro hc
    refine ⟨flushSlots_lt st (alphaRel_bound hr), ?_⟩
    intro hread
    simp only [flushReadsSeqSame, decide_eq_true_eq] at hread
    exact hinit (by omega)
  | cons p rest ih =>
    refine ⟨alphaIterSlots_lt p st s hr, ?_, ?_⟩
    · intro hread
      simp only [iterReadsSeqSame, decide_eq_true_eq] at hread
      exact hinit hread
    · intro _
      have hrel := alphaIter_rel p st w s hr
      apply ih _ _ _ _ hrel
      intro hgt
      by_cases h0 : st.count = 0
      · have := alphaRel_count_one (alphaOf p) hr h0 hrel
        omega
      · by_cases h1 : st.count = 1
        · simp [iterAssignsSeqSame, h1]
        · rw [hinit (by omega)]
          rfl

/-- C18 (buffer safety).  For every scanline, whatever its width and its pixels,
whatever the locals hold on entry and in every world: each access `pixel[i]` made by
`write_scanline`, in the loops and in the flushes of both passes, has `i < 128`, and
`seqSame` is read only after it has been assigned in the current pass. -/
theorem C18_buffer_safety (pixel0 : Buffer) (seqSame0 : Nat) (line : List Nat) (w : World) :
    write_scanlineSafe pixel0 seqSame0 line w := by
  refine ⟨?_, ?_⟩
  · exact colourLoopSafe_of_rel line _ w false Run.empty (by simp [ColourRel])
      (by intro h; simp at h)
  · intro st1 w1 _
    exact alphaLoopSafe_of_rel line _ w1 false Run.empty (by simp [AlphaRel])
      (by intro h; simp at h)

/-- The safety predicate is not vacuous: locals with a literal run of 200 tuples
pending (which `write_scanline` never reaches) are rejected. -/
theorem colourLoopSafe_rejects :
    ¬ colourLoopSafe [] { seqSame := 0, count := 200, pixel := fun _ _ => 0 } World.fresh
      true := by
  intro h
  have := (h (by decide)).1 199 (by simp [colourFlushSlots])
  omega

end Softimage
